import Mathlib

/-!
Verification of the profiles-config package (wolfsoftware/profiles_config/parser.py).

The development shallowly embeds `ConfigHandler`: the preprocessor
(`preprocess_file`), the underlying INI engine behaviour of
`configparser.RawConfigParser.read_string` in strict mode on preprocessed input
(no blank lines, no leading whitespace, hence no continuation lines and no
comment lines at that stage), the cleaning/validation loop of `load_config`,
the `BasicInterpolation` used by the cleaned `ConfigParser`, and the accessors
`get_config`, `get_profile`, `get_value`, `list_profiles`, `display_config`.

Strings are ASCII-scoped: Python's Unicode-aware `str.strip`/`str.lower` are
modelled by their ASCII behaviour, which covers every string the claims touch.
A file's content is modelled as its list of lines (newline characters removed),
exactly what `readlines` produces up to the trailing newline that the
per-line processing discards anyway.
-/

set_option autoImplicit false

/-! ### Character and string helpers (ASCII fragments of Python str methods) -/

def isPyWS (c : Char) : Bool := c = ' ' || c = '\t' || c = '\n' || c = '\r'

def trimLeftC (cs : List Char) : List Char := cs.dropWhile isPyWS

def trimRightC : List Char → List Char
  | [] => []
  | c :: t =>
    match trimRightC t with
    | [] => if isPyWS c then [] else [c]
    | l => c :: l

/-- ASCII model of Python `str.strip()` on a character list. -/
def trimC (cs : List Char) : List Char := trimLeftC (trimRightC cs)

/-- ASCII model of Python `str.strip()`. -/
def pyStrip (s : String) : String := ⟨trimC s.data⟩

/-- ASCII model of Python `str.lower()` on one character. -/
def lowerChar (c : Char) : Char :=
  if 65 ≤ c.toNat ∧ c.toNat ≤ 90 then Char.ofNat (c.toNat + 32) else c

/-- ASCII model of Python `str.lower()`. -/
def pyLower (s : String) : String := ⟨s.data.map lowerChar⟩

/-- Everything before the first occurrence of `stop` (model of
`re.sub(stop + r".*$", "", line)` on a single line). -/
def cutAtC (stop : Char) (cs : List Char) : List Char :=
  cs.takeWhile (fun c => c ≠ stop)

/-! ### Preprocessor (`ConfigHandler.preprocess_file`, parser.py lines 78-98) -/

/-- One line of `preprocess_file`: strip from the first `;`, then from the
first `#`, then trim; drop the line when nothing is left. -/
def preprocessLine (s : String) : Option String :=
  let noSemi := cutAtC ';' s.data
  let noHash := cutAtC '#' noSemi
  let stripped := trimC noHash
  if stripped.isEmpty then none else some ⟨stripped⟩

def preprocessLines (lines : List String) : List String :=
  lines.filterMap preprocessLine

def joinNL : List String → String
  | [] => ""
  | [l] => l
  | l :: rest => l ++ "\n" ++ joinNL rest

/-- `ConfigHandler.preprocess_file`: the surviving lines joined with newlines. -/
def preprocess_file (lines : List String) : String := joinNL (preprocessLines lines)

/-- Splitting a string back into lines (how `read_string` consumes the joined
preprocessed text, and how `display_config` output is fed back in). -/
def splitNLc : List Char → List (List Char)
  | [] => [[]]
  | c :: t =>
    if c = '\n' then [] :: splitNLc t
    else
      match splitNLc t with
      | [] => [[c]]
      | l :: ls => (c :: l) :: ls

def splitLines (s : String) : List String := (splitNLc s.data).map (fun cs => ⟨cs⟩)

/-- Modelled from the spec's words (claim C6), for comparison with the code's
`preprocessLine`: remove the suffix starting at the earliest `;` or `#`
(regardless of position), trim leading/trailing whitespace, discard the line
when it becomes empty. -/
def specStripLine (s : String) : Option String :=
  let kept := s.data.takeWhile (fun c => c ≠ ';' && c ≠ '#')
  let t := trimC kept
  if t.isEmpty then none else some ⟨t⟩

theorem cutAtC_comm_earliest (cs : List Char) :
    cutAtC '#' (cutAtC ';' cs) = cs.takeWhile (fun c => c ≠ ';' && c ≠ '#') := by
  induction cs with
  | nil => rfl
  | cons c t ih =>
    by_cases hs : c = ';'
    · subst hs; simp [cutAtC, List.takeWhile]
    · by_cases hh : c = '#'
      · subst hh; simp [cutAtC, List.takeWhile]
      · simpa [cutAtC, List.takeWhile, hs, hh] using ih

/-- C6: preprocessing works line by line, removing the suffix that starts at a
`;` or `#` character regardless of position, trimming whitespace, discarding
lines that become empty, and joining the survivors with newlines in order; in
particular the line `keyA = valueA ; trailing comment` becomes
`keyA = valueA`. -/
theorem C6_preprocessing_per_line :
    (∀ lines : List String, preprocessLines lines = lines.filterMap specStripLine) ∧
    preprocessLine ("keyA = valueA ; trailing comment") = some ("keyA = valueA") ∧
    (∀ lines : List String, preprocess_file lines = joinNL (lines.filterMap specStripLine)) := by
  have hline : ∀ s : String, preprocessLine s = specStripLine s := by
    intro s
    simp only [preprocessLine, specStripLine, cutAtC_comm_earliest]
  refine ⟨?_, by decide, ?_⟩
  · intro lines
    simp only [preprocessLines]
    exact List.filterMap_congr (fun s _ => hline s)
  · intro lines
    simp only [preprocess_file, preprocessLines]
    rw [List.filterMap_congr (fun s _ => hline s)]

deriving instance DecidableEq for Except

/-! ### Association lists: the ordered dictionaries of `configparser`
(Python `dict` preserves first-insertion order; assigning an existing key
updates the value in place). -/

abbrev ADict := List (String × String)

def alookup : ADict → String → Option String
  | [], _ => none
  | (k, v) :: t, key => if k = key then some v else alookup t key

/-- `d[k] = v` on an insertion-ordered dict. -/
def aset : ADict → String → String → ADict
  | [], key, val => [(key, val)]
  | (k, v) :: t, key, val =>
    if k = key then (k, val) :: t else (k, v) :: aset t key val

/-- `d = defaults.copy(); d.update(sec)`: defaults first (section values
winning on shared keys), then the section-only keys in section order. -/
def mergeD (defaults sec : ADict) : ADict :=
  defaults.map (fun kv => (kv.1, (alookup sec kv.1).getD kv.2)) ++
    sec.filter (fun kv => (alookup defaults kv.1).isNone)

/-- `optionxform`: identity when `preserve_case`, else `str.lower`. -/
def xform (preserve : Bool) (s : String) : String :=
  if preserve then s else pyLower s

/-! ### The INI engine: `RawConfigParser.read_string` in strict mode on
preprocessed text (every line nonempty, trimmed, comment-free). -/

/-- Errors of `configparser` (subclasses of `configparser.Error`) that
`load_config` wraps into `ValueError("Error parsing config file: ...")`. -/
inductive ParseErr where
  | missingSectionHeader (line : String)
  | duplicateSection (name : String)
  | duplicateOption (sect opt : String)
  | parsingError
  deriving DecidableEq, Repr

/-- `SECTCRE = r"\[(?P<header>.+)\]"`, matched (not fullmatched) at the start
of the line: the header is everything between the leading bracket and the
last closing bracket, which must leave a nonempty header; trailing text after
that bracket is ignored. -/
def headerOfC : List Char → Option (List Char)
  | [] => none
  | c :: rest =>
    if c = '[' then
      let tailRev := rest.reverse.takeWhile (fun c => c ≠ ']')
      if tailRev.length = rest.length then none
      else
        let pre := (rest.reverse.drop (tailRev.length + 1)).reverse
        if pre.isEmpty then none else some pre
    else none

def headerOf (s : String) : Option String :=
  (headerOfC s.data).map (fun cs => ⟨cs⟩)

/-- The option regex `(?P<option>.*?)\s*(?P<vi>=|:)\s*(?P<value>.*)$`:
split at the first `=` or `:`. -/
def splitFirstDelim : List Char → Option (List Char × List Char)
  | [] => none
  | c :: t =>
    if c = '=' ∨ c = ':' then some ([], t)
    else (splitFirstDelim t).map (fun p => (c :: p.1, p.2))

structure RSState where
  defaults : ADict
  sections : List (String × ADict)
  cursect : Option String
  added : List (String × String)
  pending : Bool
  deriving Repr

def sectNames (secs : List (String × ADict)) : List String := secs.map Prod.fst

def asetSection (secs : List (String × ADict)) (name key val : String) :
    List (String × ADict) :=
  secs.map (fun p => if p.1 = name then (p.1, aset p.2 key val) else p)

/-- The stored option name of an assignment line: `optionxform` of the
right-trimmed text before the delimiter. -/
def entryKey (preserve : Bool) (pre : List Char) : String :=
  xform preserve ⟨trimRightC pre⟩

/-- The stored value of an assignment line: the stripped text after the
delimiter. -/
def entryVal (post : List Char) : String := ⟨trimC post⟩

/-- One line of `RawConfigParser._read` on preprocessed input: a section
header opens a (strictly fresh) section or the DEFAULT store; any other line
before the first header raises `MissingSectionHeaderError`; a line with a
delimiter becomes an option (strict duplicate detection on the
`optionxform`-ed name, `ParsingError` recorded for an empty name); a line
with no delimiter records a `ParsingError` raised at the end of the read. -/
def rsStep (preserve : Bool) (st : RSState) (line : String) :
    Except ParseErr RSState :=
  match headerOf line with
  | some h =>
    if h ∈ sectNames st.sections then .error (.duplicateSection h)
    else if h = "DEFAULT" then .ok { st with cursect := some ("DEFAULT") }
    else .ok { st with sections := st.sections ++ [(h, [])], cursect := some h }
  | none =>
    match st.cursect with
    | none => .error (.missingSectionHeader line)
    | some cur =>
      match splitFirstDelim line.data with
      | some (pre, post) =>
        let key := entryKey preserve pre
        if (cur, key) ∈ st.added then .error (.duplicateOption cur key)
        else
          let pend := st.pending || ((⟨trimRightC pre⟩ : String) = "")
          if cur = "DEFAULT" then
            .ok { st with defaults := aset st.defaults key (entryVal post),
                          added := (cur, key) :: st.added, pending := pend }
          else
            .ok { st with sections := asetSection st.sections cur key (entryVal post),
                          added := (cur, key) :: st.added, pending := pend }
      | none => .ok { st with pending := true }

def rsRun (preserve : Bool) (st : RSState) : List String → Except ParseErr RSState
  | [] => .ok st
  | l :: rest =>
    match rsStep preserve st l with
    | .error e => .error e
    | .ok st' => rsRun preserve st' rest

structure RawCfg where
  defaults : ADict
  sections : List (String × ADict)
  deriving DecidableEq, Repr

def rsInit : RSState := ⟨[], [], none, [], false⟩

/-- `read_string` on the preprocessed lines: run every line, then raise the
accumulated `ParsingError` if any line was malformed. -/
def readString (preserve : Bool) (lines : List String) : Except ParseErr RawCfg :=
  match rsRun preserve rsInit lines with
  | .error e => .error e
  | .ok st => if st.pending then .error .parsingError else .ok ⟨st.defaults, st.sections⟩

/-! ### `BasicInterpolation` of the cleaned `ConfigParser` -/

inductive InterpErr where
  | syntaxError
  | missingOption (name : String)
  | depthError
  deriving DecidableEq, Repr

/-- Split at the first `)` requiring a nonempty prefix: the shape the
`_KEYCRE = %\(([^)]+)\)s` group can take after `%(`. -/
def splitFirstClose (cs : List Char) : Option (List Char × List Char) :=
  match cs.span (fun c => c ≠ ')') with
  | (pre, ')' :: post) => if pre.isEmpty then none else some (pre, post)
  | _ => none

/-- `str.replace("%%", "")`: left-to-right removal of escaped percents. -/
def stripDoublePercent : List Char → List Char
  | [] => []
  | [c] => [c]
  | c :: c2 :: t2 =>
    if c = '%' ∧ c2 = '%' then stripDoublePercent t2
    else c :: stripDoublePercent (c2 :: t2)

/-- `self._KEYCRE.sub('', tmp_value)` with explicit fuel (`fuel ≥ length`
makes it total; the fuel is threaded structurally so that the kernel can
evaluate it). On a failed candidate the scanner emits the `%` and resumes at
the following character, exactly like `re.sub` advancing one position. -/
def stripKeycreFuel : Nat → List Char → List Char
  | 0, cs => cs
  | _ + 1, [] => []
  | f + 1, c :: t =>
    if c = '%' then
      match t with
      | [] => ['%']
      | c2 :: t2 =>
        if c2 = '(' then
          match splitFirstClose t2 with
          | some (_, 's' :: post) => stripKeycreFuel f post
          | _ => '%' :: stripKeycreFuel f ('(' :: t2)
        else '%' :: stripKeycreFuel f (c2 :: t2)
    else c :: stripKeycreFuel f t

/-- `BasicInterpolation.before_set`: after removing escaped percents and
well-formed `%(name)s` references, no `%` may remain. -/
def beforeSetOk (v : String) : Bool :=
  let tmp1 := stripDoublePercent v.data
  let tmp2 := stripKeycreFuel tmp1.length tmp1
  !tmp2.contains '%'

/-- The loop body of `BasicInterpolation._interpolate_some` at one depth:
`rec` performs the depth-increased interpolation of a referenced value. The
fuel is threaded structurally for kernel computability; every recursive call
is on a proper suffix of the input, so fuel equal to the input length (as
supplied by `interpDepth`) makes the fuel-out branch unreachable. -/
def interpLoop (xf : String → String) (m : ADict)
    (rec : String → Except InterpErr (List Char)) :
    Nat → List Char → Except InterpErr (List Char)
  | 0, cs => .ok cs
  | _ + 1, [] => .ok []
  | f + 1, c :: rest =>
    if c = '%' then
      match rest with
      | [] => .error .syntaxError
      | c2 :: t =>
        if c2 = '%' then (interpLoop xf m rec f t).map (fun l => '%' :: l)
        else if c2 = '(' then
          match splitFirstClose t with
          | some (name, 's' :: after) =>
            let var := xf ⟨name⟩
            match alookup m var with
            | none => .error (.missingOption var)
            | some v =>
              if v.data.contains '%' then
                match rec v with
                | .error e => .error e
                | .ok sub => (interpLoop xf m rec f after).map (fun l => sub ++ l)
              else (interpLoop xf m rec f after).map (fun l => v.data ++ l)
          | _ => .error .syntaxError
        else .error .syntaxError
    else (interpLoop xf m rec f rest).map (fun l => c :: l)

/-- `_interpolate_some` by remaining depth: Python enters with `depth = 1`
and rejects `depth > MAX_INTERPOLATION_DEPTH = 10`, so depth `d` corresponds
to remaining fuel `11 - d`. -/
def interpDepth (xf : String → String) (m : ADict) : Nat → String → Except InterpErr (List Char)
  | 0, _ => .error .depthError
  | f + 1, v => interpLoop xf m (interpDepth xf m f) v.data.length v.data

/-- `before_get` on a stored value, over the merged raw symbol table `m`. -/
def interpValue (xf : String → String) (m : ADict) (v : String) :
    Except InterpErr String :=
  (interpDepth xf m 10 v).map (fun cs => ⟨cs⟩)

/-! ### `load_config`: cleaning pass and error kinds -/

/-- The `ValueError`s that can abort `load_config` (parser.py 100-140):
the wrapped `configparser.Error`s, the duplicate-profile and duplicate-key
checks of the cleaning loop, and the `invalid interpolation syntax`
`ValueError` that `ConfigParser.set` (via `BasicInterpolation.before_set`)
raises on a malformed value. -/
inductive ConfigError where
  | parseWrap (e : ParseErr)
  | duplicateProfile (name : String)
  | duplicateKey (key sect : String)
  | interpolationSyntax (value : String)
  deriving DecidableEq, Repr

/-- The handler's state after a successful `load_config`: the cleaned
`configparser.ConfigParser` (its own DEFAULT store plus the ordered
sections) together with the immutable case mode. -/
structure Cleaned where
  preserve : Bool
  defaults : ADict
  sections : List (String × ADict)
  deriving DecidableEq, Repr

/-- `section.strip().lower() if not preserve_case else section.strip()`. -/
def cleanName (preserve : Bool) (s : String) : String :=
  if preserve then pyStrip s else pyLower (pyStrip s)

/-- `cleaned_config.set(sect, key, val)`: `before_set` validation on a
nonempty value, then `RawConfigParser.set`, which routes an empty or
`"DEFAULT"` section name to the DEFAULT store and applies `optionxform`
to the key. -/
def setCleaned (acc : Cleaned) (sect key val : String) : Except ConfigError Cleaned :=
  if val ≠ "" ∧ ¬ beforeSetOk val then .error (.interpolationSyntax val)
  else if sect = "" ∨ sect = "DEFAULT" then
    .ok { acc with defaults := aset acc.defaults (xform acc.preserve key) val }
  else
    .ok { acc with sections := asetSection acc.sections sect (xform acc.preserve key) val }

/-- The inner loop of `load_config` over `self.config.items(section)`
(defaults merged in): per-section duplicate-key check on the trimmed key,
then `cleaned_config.set`. -/
def cleanItems (sect : String) (acc : Cleaned) (keysSeen : List String) :
    List (String × String) → Except ConfigError Cleaned
  | [] => .ok acc
  | (k, v) :: rest =>
    if pyStrip k ∈ keysSeen then .error (.duplicateKey (pyStrip k) sect)
    else
      match setCleaned acc sect (pyStrip k) (pyStrip v) with
      | .error e => .error e
      | .ok acc' => cleanItems sect acc' (pyStrip k :: keysSeen) rest

/-- `if clean_section not in cleaned_config: cleaned_config.add_section(...)`
(the DEFAULT pseudo-section always counts as present). -/
def addSectionIfNew (acc : Cleaned) (c : String) : Cleaned :=
  if c = "DEFAULT" ∨ c ∈ sectNames acc.sections then acc
  else { acc with sections := acc.sections ++ [(c, [])] }

/-- The outer loop of `load_config` over `self.config.sections()`:
normalize the section name, reject duplicates, `add_section` when the name
is not already in the cleaned parser (`"DEFAULT"` always is), then store
the merged items. -/
def cleanSections (defaults : ADict) (seen : List String) (acc : Cleaned) :
    List (String × ADict) → Except ConfigError Cleaned
  | [] => .ok acc
  | (s, items) :: rest =>
    if cleanName acc.preserve s ∈ seen then
      .error (.duplicateProfile (cleanName acc.preserve s))
    else
      match cleanItems (cleanName acc.preserve s)
          (addSectionIfNew acc (cleanName acc.preserve s)) [] (mergeD defaults items) with
      | .error e => .error e
      | .ok acc2 => cleanSections defaults (cleanName acc.preserve s :: seen) acc2 rest

def cleanPass (preserve : Bool) (raw : RawCfg) : Except ConfigError Cleaned :=
  cleanSections raw.defaults [] ⟨preserve, [], []⟩ raw.sections

/-- `load_config` on the file's lines: preprocess, parse with the strict
raw parser (wrapping its errors), then run the cleaning loop. -/
def load_config (preserve : Bool) (lines : List String) : Except ConfigError Cleaned :=
  match readString preserve (preprocessLines lines) with
  | .error e => .error (.parseWrap e)
  | .ok raw => cleanPass preserve raw

/-! ### Accessors -/

/-- Errors of the accessors: the two distinct `KeyError` messages of
`get_profile` / `get_value`, and interpolation errors that `before_get`
may raise while producing a value. -/
inductive GetErr where
  | profileNotFound (name : String)
  | keyNotFound (key profile : String)
  | interp (e : InterpErr)
  deriving DecidableEq, Repr

def Cleaned.xf (st : Cleaned) : String → String := xform st.preserve

/-- `section in parser._sections` plus the DEFAULT pseudo-section:
`parser.__contains__`. -/
def containsProfile (st : Cleaned) (p : String) : Bool :=
  p = "DEFAULT" || (sectNames st.sections).contains p

/-- The raw merged symbol table of a section (`_defaults` updated with the
section's dict), the map interpolation reads through; for the DEFAULT
pseudo-section it is the DEFAULT store itself. -/
def rawItems (st : Cleaned) (s : String) : ADict :=
  if s = "DEFAULT" then st.defaults
  else
    match st.sections.find? (fun p => p.1 = s) with
    | some p => mergeD st.defaults p.2
    | none => st.defaults

/-- Sequential effectful map, evaluating left to right and propagating the
first error (list comprehensions over `value_getter` in `configparser`). -/
def mapExcept {α β ε : Type} (f : α → Except ε β) : List α → Except ε (List β)
  | [] => .ok []
  | a :: t =>
    match f a with
    | .error e => .error e
    | .ok b => (mapExcept f t).map (fun l => b :: l)

/-- `parser.items(section)` on the cleaned `ConfigParser`: the merged pairs
with every value passed through `before_get`. -/
def itemsInterp (st : Cleaned) (s : String) : Except InterpErr ADict :=
  mapExcept (fun kv => (interpValue st.xf (rawItems st s) kv.2).map (fun v => (kv.1, v)))
    (rawItems st s)

/-- `list_profiles()` (parser.py 198-205): `self.config.sections()`. -/
def list_profiles (st : Cleaned) : List String := sectNames st.sections

/-- `get_config()` (parser.py 142-153). -/
def get_config (st : Cleaned) : Except InterpErr (List (String × ADict)) :=
  mapExcept (fun s => (itemsInterp st s).map (fun d => (s, d))) (list_profiles st)

/-- `get_profile(name)` (parser.py 155-172): trim, membership test on the
parser (DEFAULT included), then `dict(items(name))`. -/
def get_profile (st : Cleaned) (name : String) : Except GetErr ADict :=
  if containsProfile st (pyStrip name) then
    (itemsInterp st (pyStrip name)).mapError .interp
  else .error (.profileNotFound (pyStrip name))

/-- `get_value(profile, key)` (parser.py 174-196): trim both, membership
tests (`key in profile` is `has_option`, which also consults the DEFAULT
store and applies `optionxform`), then the interpolated lookup. -/
def get_value (st : Cleaned) (p k : String) : Except GetErr String :=
  if containsProfile st (pyStrip p) then
    match alookup (rawItems st (pyStrip p)) (st.xf (pyStrip k)) with
    | some v => (interpValue st.xf (rawItems st (pyStrip p)) v).mapError .interp
    | none => .error (.keyNotFound (pyStrip k) (pyStrip p))
  else .error (.profileNotFound (pyStrip p))

/-- `display_config()` (parser.py 207-221): per section a `[name]` line,
`key = value` lines, and a blank separator; joined and stripped. -/
def display_config (st : Cleaned) : Except InterpErr String :=
  (mapExcept (fun s =>
      (itemsInterp st s).map (fun d =>
        ("[" ++ s ++ "]") :: d.map (fun kv => kv.1 ++ " = " ++ kv.2) ++ [""]))
    (list_profiles st)).map
    (fun parts => pyStrip (joinNL parts.flatten))

/-! ### Helper lemmas about trimming -/

theorem isPyWS_ne_marks {c : Char} (h : isPyWS c = true) :
    c ≠ ';' ∧ c ≠ '#' ∧ c ≠ '[' ∧ c ≠ ']' ∧ c ≠ '=' ∧ c ≠ ':' ∧ c ≠ '%' := by
  simp only [isPyWS, Bool.or_eq_true, decide_eq_true_eq] at h
  rcases h with ((h | h) | h) | h <;> subst h <;> refine ⟨?_, ?_, ?_, ?_, ?_, ?_, ?_⟩ <;> decide

theorem trimRightC_decomp (cs : List Char) :
    ∃ w, cs = trimRightC cs ++ w ∧ ∀ c ∈ w, isPyWS c = true := by
  induction cs with
  | nil => exact ⟨[], rfl, by simp⟩
  | cons c t ih =>
    rcases ih with ⟨w, hw, hws⟩
    rw [trimRightC]
    rcases h : trimRightC t with _ | ⟨x, xs⟩
    · rw [h] at hw
      by_cases hc : isPyWS c
      · refine ⟨c :: t, ?_, ?_⟩
        · simp [hc]
        · intro a ha
          rcases List.mem_cons.mp ha with rfl | ha
          · exact hc
          · exact hws a (by simpa [hw] using ha)
      · refine ⟨w, ?_, hws⟩
        simp only [hc, if_false]
        simpa using hw
    · rw [h] at hw
      exact ⟨w, by simpa using hw, hws⟩

theorem takeWhile_all {p : Char → Bool} {cs : List Char} (h : ∀ c ∈ cs, p c = true) :
    cs.takeWhile p = cs := by
  induction cs with
  | nil => rfl
  | cons c t ih =>
    simp only [List.takeWhile_cons, h c (List.mem_cons_self c t), if_true]
    rw [ih (fun x hx => h x (List.mem_cons_of_mem c hx))]

theorem takeWhile_append_all {p : Char → Bool} {l1 l2 : List Char}
    (h : ∀ c ∈ l1, p c = true) :
    (l1 ++ l2).takeWhile p = l1 ++ l2.takeWhile p := by
  induction l1 with
  | nil => rfl
  | cons c t ih =>
    simp only [List.cons_append, List.takeWhile_cons, h c (List.mem_cons_self c t), if_true]
    rw [ih (fun x hx => h x (List.mem_cons_of_mem c hx))]

theorem trimC_all_ws {cs : List Char} (h : ∀ c ∈ cs, isPyWS c = true) :
    trimC cs = [] := by
  rcases trimRightC_decomp cs with ⟨w, hw, _⟩
  have htr : ∀ c ∈ trimRightC cs, isPyWS c = true := by
    intro c hc
    exact h c (by rw [hw]; exact List.mem_append_left w hc)
  simp only [trimC, trimLeftC]
  exact List.dropWhile_eq_nil_iff.mpr htr

theorem trimC_eq_nil_iff (cs : List Char) :
    trimC cs = [] ↔ ∀ c ∈ cs, isPyWS c = true := by
  constructor
  · intro h c hc
    rcases trimRightC_decomp cs with ⟨w, hw, hws⟩
    rw [hw] at hc
    rcases List.mem_append.mp hc with hc | hc
    · simp only [trimC, trimLeftC] at h
      exact List.dropWhile_eq_nil_iff.mp h c hc
    · exact hws c hc
  · exact trimC_all_ws

theorem trimC_decomp (cs : List Char) :
    ∃ w1 w2, cs = w1 ++ trimC cs ++ w2 ∧
      (∀ c ∈ w1, isPyWS c = true) ∧ ∀ c ∈ w2, isPyWS c = true := by
  rcases trimRightC_decomp cs with ⟨w2, hw, hws⟩
  have hsplit : trimRightC cs = (trimRightC cs).takeWhile isPyWS ++ trimC cs := by
    conv_lhs => rw [← List.takeWhile_append_dropWhile (p := isPyWS) (l := trimRightC cs)]
    rfl
  refine ⟨(trimRightC cs).takeWhile isPyWS, w2, ?_, ?_, hws⟩
  · conv_lhs => rw [hw, hsplit]
  · intro c hc
    exact List.mem_takeWhile_imp hc

theorem cut_at_ws_prefix {mark : Char} (w1 rest : List Char)
    (h1 : ∀ c ∈ w1, (c ≠ mark : Bool) = true) :
    cutAtC mark (w1 ++ mark :: rest) = w1 := by
  rw [cutAtC, takeWhile_append_all h1, List.takeWhile_cons]
  simp

/-- A line that is blank or whose first non-whitespace character is `;` or
`#` does not survive preprocessing. -/
theorem preprocessLine_comment_blank (l : String)
    (h : pyStrip l = "" ∨ (pyStrip l).data.head? = some ';' ∨ (pyStrip l).data.head? = some '#') :
    preprocessLine l = none := by
  have hdata : (pyStrip l).data = trimC l.data := rfl
  have hnil : trimC (cutAtC '#' (cutAtC ';' l.data)) = [] := by
    rcases h with h | h | h
    · have hws : ∀ c ∈ l.data, isPyWS c = true := by
        have hd : trimC l.data = [] := by
          have := congrArg String.data h
          simpa [hdata] using this
        exact (trimC_eq_nil_iff l.data).mp hd
      have hc1 : cutAtC ';' l.data = l.data := takeWhile_all (fun c hc => by
        simpa using (isPyWS_ne_marks (hws c hc)).1)
      have hc2 : cutAtC '#' l.data = l.data := takeWhile_all (fun c hc => by
        simpa using (isPyWS_ne_marks (hws c hc)).2.1)
      rw [hc1, hc2]
      exact trimC_all_ws hws
    · rw [hdata] at h
      rcases trimC_decomp l.data with ⟨w1, w2, hdec, h1, _⟩
      rcases hh : trimC l.data with _ | ⟨x, xs⟩
      · rw [hh] at h; simp at h
      · rw [hh] at h
        have hx : x = ';' := by simpa using h
        subst hx
        rw [hh] at hdec
        have hdec' : l.data = w1 ++ ';' :: (xs ++ w2) := by
          rw [hdec]; simp
        have hcu : cutAtC ';' l.data = w1 := by
          rw [hdec']
          exact cut_at_ws_prefix w1 (xs ++ w2) (fun c hc => by
            simpa using (isPyWS_ne_marks (h1 c hc)).1)
        have hc2 : cutAtC '#' w1 = w1 := takeWhile_all (fun c hc => by
          simpa using (isPyWS_ne_marks (h1 c hc)).2.1)
        rw [hcu, hc2]
        exact trimC_all_ws h1
    · rw [hdata] at h
      rcases trimC_decomp l.data with ⟨w1, w2, hdec, h1, _⟩
      rcases hh : trimC l.data with _ | ⟨x, xs⟩
      · rw [hh] at h; simp at h
      · rw [hh] at h
        have hx : x = '#' := by simpa using h
        subst hx
        rw [hh] at hdec
        have hdec' : l.data = w1 ++ '#' :: (xs ++ w2) := by
          rw [hdec]; simp
        have hcu1 : cutAtC ';' l.data =
            w1 ++ '#' :: (xs ++ w2).takeWhile (fun c => (c ≠ ';' : Bool)) := by
          rw [hdec', cutAtC, takeWhile_append_all (fun c hc => by
            simpa using (isPyWS_ne_marks (h1 c hc)).1), List.takeWhile_cons]
          simp
        have hcu2 : cutAtC '#' (cutAtC ';' l.data) = w1 := by
          rw [hcu1]
          exact cut_at_ws_prefix w1 _ (fun c hc => by
            simpa using (isPyWS_ne_marks (h1 c hc)).2.1)
        rw [hcu2]
        exact trimC_all_ws h1
  simp only [preprocessLine, hnil]
  rfl

/-- C10: a file of only blank lines and comment lines loads successfully as
the empty configuration: no profiles, empty `get_config`, empty
`display_config`. -/
theorem C10_blank_comment_file (pc : Bool) (lines : List String)
    (h : ∀ l ∈ lines, pyStrip l = "" ∨ (pyStrip l).data.head? = some ';' ∨
      (pyStrip l).data.head? = some '#') :
    load_config pc lines = .ok ⟨pc, [], []⟩ ∧
    list_profiles ⟨pc, [], []⟩ = [] ∧
    get_config ⟨pc, [], []⟩ = .ok [] ∧
    display_config ⟨pc, [], []⟩ = .ok "" := by
  have hpp : preprocessLines lines = [] := by
    simp only [preprocessLines, List.filterMap_eq_nil_iff]
    exact fun l hl => preprocessLine_comment_blank l (h l hl)
  refine ⟨?_, rfl, rfl, ?_⟩
  · rw [load_config, hpp]
    rfl
  · show Except.ok (pyStrip (joinNL [])) = Except.ok ""
    rw [joinNL]
    rfl

/-- Witness for C10 at a concrete all-blank/comment file. -/
theorem C10_blank_comment_file_witness :
    load_config false ["; a comment", "   ", "# another", ""] = .ok ⟨false, [], []⟩ ∧
    list_profiles ⟨false, [], []⟩ = [] ∧
    get_config ⟨false, [], []⟩ = .ok [] ∧
    display_config ⟨false, [], []⟩ = .ok "" :=
  C10_blank_comment_file false (["; a comment", "   ", "# another", ""]) (by decide)

/-- C3: if the preprocessed text has a line containing a `=` or `:`
delimiter before any section header, construction fails with the wrapped
parse error (concretely, `MissingSectionHeaderError` on the first
preprocessed line, which the hypothesis forces to be a non-header). -/
theorem C3_delimiter_before_header (pc : Bool) (lines : List String)
    (h : ∃ pre l post, preprocessLines lines = pre ++ l :: post ∧
      l.data.any (fun c => c = '=' || c = ':') = true ∧
      ∀ l2 ∈ pre ++ [l], headerOf l2 = none) :
    ∃ l0 rest, preprocessLines lines = l0 :: rest ∧
      load_config pc lines = .error (.parseWrap (.missingSectionHeader l0)) := by
  rcases h with ⟨pre, l, post, hpp, _, hno⟩
  have step : ∀ (l0 : String) (rest : List String),
      preprocessLines lines = l0 :: rest → headerOf l0 = none →
      load_config pc lines = .error (.parseWrap (.missingSectionHeader l0)) := by
    intro l0 rest hpp0 hh
    rw [load_config, readString, hpp0, rsRun, rsStep, hh]
    rfl
  cases pre with
  | nil =>
    refine ⟨l, post, by simpa using hpp, ?_⟩
    exact step l post (by simpa using hpp) (hno l (by simp))
  | cons p0 pre2 =>
    refine ⟨p0, pre2 ++ l :: post, by simpa using hpp, ?_⟩
    exact step p0 (pre2 ++ l :: post) (by simpa using hpp) (hno p0 (by simp))

/-- Witness for C3 at a concrete file whose only line is an assignment. -/
theorem C3_delimiter_before_header_witness :
    ∃ l0 rest, preprocessLines ["k = v"] = l0 :: rest ∧
      load_config false ["k = v"] = .error (.parseWrap (.missingSectionHeader l0)) :=
  C3_delimiter_before_header false (["k = v"])
    ⟨[], "k = v", [], by decide, by decide, by decide⟩

/-- C1 counterexample: two identical keys in one section do make
construction fail, but with the wrapped strict-mode `DuplicateOptionError`
of the underlying parser, never with the handler's own
`Duplicate key ... found in section ...` error. -/
theorem C1_counterexample :
    load_config false ["[s]", "k = 1", "k = 2"] =
      .error (.parseWrap (.duplicateOption "s" "k")) ∧
    ∀ key sect, load_config false ["[s]", "k = 1", "k = 2"] ≠
      .error (.duplicateKey key sect) := by
  refine ⟨by decide, ?_⟩
  intro key sect hcontra
  rw [(by decide : load_config false ["[s]", "k = 1", "k = 2"] =
    .error (.parseWrap (.duplicateOption "s" "k")))] at hcontra
  simp at hcontra

/-- C2 counterexample: two raw-identical headers normalize to the same name
but fail with the wrapped `DuplicateSectionError` naming the raw header,
not with the duplicate-profile error naming the normalized value. -/
theorem C2_counterexample :
    load_config false ["[A]", "[A]"] = .error (.parseWrap (.duplicateSection "A")) ∧
    ∀ n, load_config false ["[A]", "[A]"] ≠ .error (.duplicateProfile n) := by
  refine ⟨by decide, ?_⟩
  intro n hcontra
  rw [(by decide : load_config false ["[A]", "[A]"] =
    .error (.parseWrap (.duplicateSection "A")))] at hcontra
  simp at hcontra

/-- C4 counterexample: a handler built from `[ ]` (section name trimming to
the empty string) displays as `[]`, which does not reload: the round trip
fails with a wrapped `MissingSectionHeaderError` instead of yielding an
equivalent configuration. -/
theorem C4_counterexample :
    load_config false ["[ ]", "k = v"] = .ok ⟨false, [("k", "v")], [("", [])]⟩ ∧
    display_config ⟨false, [("k", "v")], [("", [])]⟩ = .ok ("[]" ++ "\n" ++ "k = v") ∧
    load_config false (splitLines ("[]" ++ "\n" ++ "k = v")) =
      .error (.parseWrap (.missingSectionHeader "[]")) := by
  refine ⟨by decide, by decide, by decide⟩

/-- C5 counterexample: a `[DEFAULT]` header is swallowed by the underlying
parser's default store, so `list_profiles` omits it instead of listing every
section name of the file in order (`["default", "a"]` under the default case
mode). -/
theorem C5_counterexample :
    (load_config false ["[DEFAULT]", "[a]"]).map list_profiles = .ok ["a"] ∧
    (Except.ok ["a"] : Except ConfigError (List String)) ≠ .ok ["default", "a"] := by
  refine ⟨by decide, by decide⟩

/-- C7 counterexample: `get_value` returns the stored value only up to
`BasicInterpolation`: a stored `%%` comes back as `%`, not as the stored
value. -/
theorem C7_counterexample :
    (load_config false ["[p]", "k = %%"]).map
      (fun st => (get_value st "p" "k", alookup (rawItems st "p") "k")) =
      .ok (.ok "%", some "%%") ∧
    ("%" : String) ≠ "%%" := by
  refine ⟨by decide, by decide⟩

/-! ### More string infrastructure -/

theorem strEq_of_data {s t : String} (h : s.data = t.data) : s = t := by
  cases s; cases t; simp only at h; rw [h]

theorem str_ne_empty_iff {s : String} : s ≠ "" ↔ s.data ≠ [] := by
  constructor
  · intro h hd
    exact h (strEq_of_data (by rw [hd]))
  · intro h hd
    exact h (by rw [hd])

theorem toNat_ofNat_valid {n : Nat} (h : n < 0xd800) : (Char.ofNat n).toNat = n := by
  rw [Char.ofNat, dif_pos (Or.inl (by exact_mod_cast h) : n.isValidChar)]
  simp [Char.ofNatAux, Char.toNat, UInt32.toNat, BitVec.toNat_ofNatLt]

theorem charEq_iff_toNat {c d : Char} : c = d ↔ c.toNat = d.toNat := by
  constructor
  · intro h; rw [h]
  · intro h
    apply Char.ext
    exact UInt32.toNat.inj h

theorem lowerChar_toNat_of_upper {c : Char} (h : 65 ≤ c.toNat ∧ c.toNat ≤ 90) :
    (lowerChar c).toNat = c.toNat + 32 := by
  rw [lowerChar, if_pos h]
  exact toNat_ofNat_valid (by omega)

theorem lowerChar_id_of_not_upper {c : Char} (h : ¬(65 ≤ c.toNat ∧ c.toNat ≤ 90)) :
    lowerChar c = c := by
  rw [lowerChar, if_neg h]

theorem lowerChar_lowerChar (c : Char) : lowerChar (lowerChar c) = lowerChar c := by
  by_cases h : 65 ≤ c.toNat ∧ c.toNat ≤ 90
  · have h2 := lowerChar_toNat_of_upper h
    conv_lhs => rw [lowerChar]
    rw [if_neg (by omega)]
  · rw [lowerChar_id_of_not_upper h, lowerChar_id_of_not_upper h]

/-- `lowerChar` cannot produce or consume a character outside both the
uppercase and the lowercase letter ranges. -/
theorem lowerChar_eq_mark_iff {c mark : Char}
    (h1 : mark.toNat < 65 ∨ 90 < mark.toNat)
    (h2 : mark.toNat < 97 ∨ 122 < mark.toNat) :
    lowerChar c = mark ↔ c = mark := by
  by_cases h : 65 ≤ c.toNat ∧ c.toNat ≤ 90
  · have hlc := lowerChar_toNat_of_upper h
    constructor
    · intro he
      exfalso
      rw [charEq_iff_toNat] at he
      omega
    · intro he
      exfalso
      rw [charEq_iff_toNat] at he
      omega
  · rw [lowerChar_id_of_not_upper h]

theorem isPyWS_lowerChar (c : Char) : isPyWS (lowerChar c) = isPyWS c := by
  simp only [isPyWS]
  rw [decide_eq_decide.mpr (lowerChar_eq_mark_iff (by decide) (by decide)),
    decide_eq_decide.mpr (lowerChar_eq_mark_iff (by decide) (by decide)),
    decide_eq_decide.mpr (lowerChar_eq_mark_iff (by decide) (by decide)),
    decide_eq_decide.mpr (lowerChar_eq_mark_iff (by decide) (by decide))]

theorem pyLower_idem (s : String) : pyLower (pyLower s) = pyLower s := by
  apply strEq_of_data
  show (s.data.map lowerChar).map lowerChar = s.data.map lowerChar
  rw [List.map_map]
  exact List.map_congr_left (fun c _ => lowerChar_lowerChar c)


/-! Trailing/leading-whitespace normal forms, via a reverse characterization
of `trimRightC`. -/

theorem dropWhile_all_append {p : Char → Bool} {l1 l2 : List Char}
    (h : ∀ c ∈ l1, p c = true) :
    (l1 ++ l2).dropWhile p = l2.dropWhile p := by
  induction l1 with
  | nil => rfl
  | cons c t ih =>
    simp only [List.cons_append, List.dropWhile_cons, h c (List.mem_cons_self c t), if_true]
    exact ih (fun x hx => h x (List.mem_cons_of_mem c hx))

theorem dropWhile_append_of_ne_nil {p : Char → Bool} {l1 l2 : List Char}
    (h : l1.dropWhile p ≠ []) :
    (l1 ++ l2).dropWhile p = l1.dropWhile p ++ l2 := by
  induction l1 with
  | nil => simp at h
  | cons c t ih =>
    by_cases hc : p c
    · rw [List.dropWhile_cons_of_pos hc] at h
      simp only [List.cons_append, List.dropWhile_cons_of_pos hc]
      exact ih h
    · simp only [List.cons_append, List.dropWhile_cons_of_neg hc]

theorem dropWhile_head_not {p : Char → Bool} {l : List Char} {c : Char}
    (h : (l.dropWhile p).head? = some c) : p c = false := by
  induction l with
  | nil => simp at h
  | cons d t ih =>
    by_cases hd : p d
    · rw [List.dropWhile_cons_of_pos hd] at h
      exact ih h
    · rw [List.dropWhile_cons_of_neg hd] at h
      simp only [List.head?_cons, Option.some.injEq] at h
      rw [← h]
      exact Bool.eq_false_iff.mpr hd

theorem dropWhile_eq_self_of_head {p : Char → Bool} {l : List Char}
    (h : ∀ c, l.head? = some c → p c = false) : l.dropWhile p = l := by
  cases l with
  | nil => rfl
  | cons c t =>
    rw [List.dropWhile_cons_of_neg]
    simp [h c rfl]

theorem trimRight_rev (cs : List Char) :
    trimRightC cs = (cs.reverse.dropWhile isPyWS).reverse := by
  induction cs with
  | nil => rfl
  | cons c t ih =>
    rw [trimRightC, List.reverse_cons]
    rcases h : trimRightC t with _ | ⟨x, xs⟩
    · rw [h] at ih
      have hall : ∀ a ∈ t.reverse, isPyWS a = true :=
        List.dropWhile_eq_nil_iff.mp (by simpa using ih.symm)
      rw [dropWhile_all_append hall]
      by_cases hc : isPyWS c
      · simp [List.dropWhile, hc]
      · simp [List.dropWhile, hc]
    · rw [h] at ih
      have hne : t.reverse.dropWhile isPyWS ≠ [] := by
        intro hnil
        rw [hnil] at ih
        simp at ih
      rw [dropWhile_append_of_ne_nil hne, List.reverse_append]
      simp only [List.reverse_cons, List.reverse_nil, List.nil_append,
        List.singleton_append]
      rw [← ih]

def noTrailWS (cs : List Char) : Prop := ∀ c, cs.getLast? = some c → isPyWS c = false

def noLeadWS (cs : List Char) : Prop := ∀ c, cs.head? = some c → isPyWS c = false

theorem getLast?_append_right {l1 l2 : List Char} (h : l2 ≠ []) :
    (l1 ++ l2).getLast? = l2.getLast? := by
  induction l1 with
  | nil => rfl
  | cons c t ih =>
    rw [List.cons_append, List.getLast?_cons, ih]
    rcases l2 with _ | ⟨x, xs⟩
    · exact absurd rfl h
    · simp [List.getLast?_cons]

theorem trimRightC_noTrail (cs : List Char) : noTrailWS (trimRightC cs) := by
  intro c hc
  rw [trimRight_rev, List.getLast?_reverse] at hc
  exact dropWhile_head_not hc

theorem trimRightC_eq_self_of_noTrail {cs : List Char} (h : noTrailWS cs) :
    trimRightC cs = cs := by
  rw [trimRight_rev, dropWhile_eq_self_of_head, List.reverse_reverse]
  intro c hc
  rw [List.head?_reverse] at hc
  exact h c hc

theorem trimRightC_idem (cs : List Char) : trimRightC (trimRightC cs) = trimRightC cs :=
  trimRightC_eq_self_of_noTrail (trimRightC_noTrail cs)

theorem trimC_noTrail (cs : List Char) : noTrailWS (trimC cs) := by
  intro c hc
  rcases hsuf : (trimRightC cs).dropWhile isPyWS with _ | ⟨x, xs⟩
  · rw [trimC, trimLeftC, hsuf] at hc
    simp at hc
  · apply trimRightC_noTrail cs c
    rcases (List.dropWhile_suffix (l := trimRightC cs) (p := isPyWS)) with ⟨t, ht⟩
    rw [← ht, getLast?_append_right (by rw [hsuf]; simp)]
    rw [trimC, trimLeftC] at hc
    exact hc

theorem trimC_noLead (cs : List Char) : noLeadWS (trimC cs) := by
  intro c hc
  exact dropWhile_head_not hc

theorem trimC_idem (cs : List Char) : trimC (trimC cs) = trimC cs := by
  conv_lhs => rw [trimC, trimRightC_eq_self_of_noTrail (trimC_noTrail cs)]
  exact dropWhile_eq_self_of_head (trimC_noLead cs)

theorem pyStrip_idem (s : String) : pyStrip (pyStrip s) = pyStrip s :=
  strEq_of_data (trimC_idem s.data)

theorem trimC_eq_self_of_forms {cs : List Char} (h1 : noLeadWS cs) (h2 : noTrailWS cs) :
    trimC cs = cs := by
  rw [trimC, trimRightC_eq_self_of_noTrail h2]
  exact dropWhile_eq_self_of_head h1

/-! Commutation of trimming with lowercasing. -/

theorem dropWhile_map_lower (cs : List Char) :
    (cs.map lowerChar).dropWhile isPyWS = (cs.dropWhile isPyWS).map lowerChar := by
  induction cs with
  | nil => rfl
  | cons c t ih =>
    by_cases hc : isPyWS c
    · rw [List.map_cons, List.dropWhile_cons_of_pos (by rw [isPyWS_lowerChar]; exact hc),
        List.dropWhile_cons_of_pos hc]
      exact ih
    · rw [List.map_cons, List.dropWhile_cons_of_neg (by rw [isPyWS_lowerChar]; exact hc),
        List.dropWhile_cons_of_neg hc]
      rfl

theorem trimRightC_map_lower (cs : List Char) :
    trimRightC (cs.map lowerChar) = (trimRightC cs).map lowerChar := by
  rw [trimRight_rev, trimRight_rev, ← List.map_reverse, dropWhile_map_lower,
    ← List.map_reverse]

theorem trimC_map_lower (cs : List Char) :
    trimC (cs.map lowerChar) = (trimC cs).map lowerChar := by
  rw [trimC, trimC, trimRightC_map_lower, trimLeftC, trimLeftC, dropWhile_map_lower]

theorem pyStrip_pyLower (s : String) : pyStrip (pyLower s) = pyLower (pyStrip s) :=
  strEq_of_data (trimC_map_lower s.data)

theorem cleanName_idem (pc : Bool) (s : String) :
    cleanName pc (cleanName pc s) = cleanName pc s := by
  cases pc with
  | true => simp [cleanName, pyStrip_idem]
  | false =>
    simp only [cleanName, Bool.false_eq_true, if_false]
    rw [pyStrip_pyLower, pyStrip_idem]
    apply strEq_of_data
    show (((pyStrip s).data.map lowerChar).map lowerChar) = (pyStrip s).data.map lowerChar
    rw [List.map_map]
    exact List.map_congr_left (fun c _ => lowerChar_lowerChar c)

theorem xform_idem (pc : Bool) (s : String) : xform pc (xform pc s) = xform pc s := by
  cases pc with
  | true => rfl
  | false => simpa [xform] using pyLower_idem s




/-! ### Facts about the line classifiers -/

theorem headerOfC_render (n : List Char) (h : n ≠ []) :
    headerOfC ('[' :: (n ++ [']'])) = some n := by
  rw [headerOfC]
  simp only [List.reverse_append, List.reverse_cons, List.reverse_nil,
    List.nil_append, List.singleton_append, List.takeWhile_cons, if_pos rfl]
  norm_num
  simpa [List.isEmpty_iff] using h

theorem headerOf_render {n : String} (h : n ≠ "") :
    headerOf ("[" ++ n ++ "]") = some n := by
  have hdata : ("[" ++ n ++ "]").data = '[' :: (n.data ++ [']']) := by
    rw [String.data_append, String.data_append]
    rfl
  rw [headerOf, hdata, headerOfC_render n.data (str_ne_empty_iff.mp h)]
  rfl

theorem headerOf_none_of_not_bracket {s : String}
    (h : s.data.head? ≠ some '[') : headerOf s = none := by
  rw [headerOf]
  rcases hd : s.data with _ | ⟨c, t⟩
  · rfl
  · rw [hd] at h
    simp only [List.head?_cons, ne_eq, Option.some.injEq] at h
    rw [headerOfC, if_neg h]
    rfl

theorem headerOf_none_of_no_close {s : String} {c : Char} {rest : List Char}
    (hd : s.data = c :: rest) (hnc : ∀ x ∈ rest.drop 1, x ≠ ']') :
    headerOf s = none := by
  rw [headerOf, hd, headerOfC]
  by_cases hc : c = '['
  · rw [if_pos hc]
    rcases rest with _ | ⟨r0, rest'⟩
    · simp
    · simp only [List.drop_succ_cons, List.drop_zero] at hnc
      by_cases hr : r0 = ']'
      · subst hr
        have htw : (rest'.reverse ++ [']']).takeWhile (fun x => (x ≠ ']' : Bool)) =
            rest'.reverse := by
          rw [takeWhile_append_all (fun x hx => by
            simpa using hnc x (List.mem_reverse.mp hx))]
          simp
        simp only [List.reverse_cons, htw]
        rw [if_neg (by simp), if_pos]
        · rfl
        · rw [List.isEmpty_iff, List.reverse_eq_nil_iff, List.length_reverse,
            List.drop_eq_nil_iff]
          simp
      · have htw : (r0 :: rest').reverse.takeWhile (fun x => (x ≠ ']' : Bool)) =
            (r0 :: rest').reverse := by
          apply takeWhile_all
          intro x hx
          rcases List.mem_cons.mp (List.mem_reverse.mp hx) with rfl | hx2
          · simpa using hr
          · simpa using hnc x hx2
        have hlen : ((r0 :: rest').reverse.takeWhile (fun x => (x ≠ ']' : Bool))).length =
            (r0 :: rest').length := by
          rw [htw, List.length_reverse]
        rw [if_pos hlen]
        rfl
  · rw [if_neg hc]
    rfl

theorem headerOf_some_sub {s hn : String} (h : headerOf s = some hn) :
    hn ≠ "" ∧ ∀ c ∈ hn.data, c ∈ s.data := by
  rw [headerOf] at h
  rcases hC : headerOfC s.data with _ | pre
  · rw [hC] at h; exact absurd h (by simp)
  · rw [hC] at h
    simp only [Option.map_some', Option.some.injEq] at h
    subst h
    rcases hd : s.data with _ | ⟨c, t⟩
    · rw [hd] at hC; exact absurd hC (by simp [headerOfC])
    · rw [hd, headerOfC] at hC
      by_cases hc : c = '['
      · rw [if_pos hc] at hC
        simp only at hC
        split at hC
        · exact absurd hC (by simp)
        · split at hC
          · exact absurd hC (by simp)
          · rename_i hemp
            have hpre := (Option.some.injEq _ _ ▸ hC)
            constructor
            · rw [str_ne_empty_iff]
              show pre ≠ []
              rw [← hpre]
              simpa [List.isEmpty_iff] using hemp
            · intro x hx
              show x ∈ c :: t
              rw [← hpre] at hx
              rw [List.mem_reverse] at hx
              have hx2 := List.mem_of_mem_drop hx
              rw [List.mem_reverse] at hx2
              exact List.mem_cons_of_mem c hx2
      · rw [if_neg hc] at hC
        exact absurd hC (by simp)

theorem splitFirstDelim_eq_some {cs pre post : List Char}
    (h : splitFirstDelim cs = some (pre, post)) :
    ∃ d, cs = pre ++ d :: post ∧ (d = '=' ∨ d = ':') ∧
      ∀ c ∈ pre, ¬(c = '=' ∨ c = ':') := by
  induction cs generalizing pre with
  | nil => exact absurd h (by simp [splitFirstDelim])
  | cons c t ih =>
    rw [splitFirstDelim] at h
    by_cases hc : c = '=' ∨ c = ':'
    · rw [if_pos hc] at h
      simp only [Option.some.injEq, Prod.mk.injEq] at h
      exact ⟨c, by rw [← h.1, ← h.2]; simp, hc, by rw [← h.1]; simp⟩
    · rw [if_neg hc] at h
      rcases hsp : splitFirstDelim t with _ | ⟨pre2, post2⟩
      · rw [hsp] at h; exact absurd h (by simp)
      · rw [hsp] at h
        simp only [Option.map_some', Option.some.injEq, Prod.mk.injEq] at h
        rcases @ih pre2 (by rw [hsp, ← h.2]) with ⟨d, hd1, hd2, hd3⟩
        refine ⟨d, ?_, hd2, ?_⟩
        · rw [← h.1, hd1]
          simp
        · intro x hx
          rw [← h.1] at hx
          rcases List.mem_cons.mp hx with rfl | hx2
          · exact hc
          · exact hd3 x hx2

theorem splitFirstDelim_eq_none {cs : List Char} :
    splitFirstDelim cs = none ↔ ∀ c ∈ cs, ¬(c = '=' ∨ c = ':') := by
  induction cs with
  | nil => simp [splitFirstDelim]
  | cons c t ih =>
    rw [splitFirstDelim]
    by_cases hc : c = '=' ∨ c = ':'
    · rw [if_pos hc]
      constructor
      · intro hx; exact absurd hx (by simp)
      · intro hall; exact absurd hc (hall c (List.mem_cons_self c t))
    · rw [if_neg hc]
      constructor
      · intro hx x hxm
        rcases List.mem_cons.mp hxm with rfl | hx2
        · exact hc
        · exact ih.mp (by simpa [Option.map_eq_none'] using hx) x hx2
      · intro hall
        rw [ih.mpr (fun x hx => hall x (List.mem_cons_of_mem c hx))]
        rfl

theorem splitFirstDelim_render {kcs rest : List Char}
    (h : ∀ c ∈ kcs, ¬(c = '=' ∨ c = ':')) :
    splitFirstDelim (kcs ++ ' ' :: '=' :: rest) = some (kcs ++ [' '], rest) := by
  induction kcs with
  | nil => rfl
  | cons c t ih =>
    rw [List.cons_append, splitFirstDelim,
      if_neg (h c (List.mem_cons_self c t)),
      ih (fun x hx => h x (List.mem_cons_of_mem c hx))]
    rfl

/-! ### Dictionary lemmas -/

theorem alookup_eq_none_iff {d : ADict} {k : String} :
    alookup d k = none ↔ k ∉ d.map Prod.fst := by
  induction d with
  | nil => simp [alookup]
  | cons kv t ih =>
    rcases kv with ⟨k0, v0⟩
    rw [alookup]
    by_cases hk : k0 = k
    · simp [hk]
    · simp only [if_neg hk, ih, List.map_cons, List.mem_cons]
      constructor
      · intro hx hor
        rcases hor with h1 | h2
        · exact hk h1.symm
        · exact hx h2
      · intro hx h2
        exact hx (Or.inr h2)

theorem alookup_mem {d : ADict} {k v : String} (h : alookup d k = some v) :
    (k, v) ∈ d := by
  induction d with
  | nil => exact absurd h (by simp [alookup])
  | cons kv t ih =>
    rcases kv with ⟨k0, v0⟩
    rw [alookup] at h
    by_cases hk : k0 = k
    · rw [if_pos hk] at h
      simp only [Option.some.injEq] at h
      subst hk; subst h
      exact List.mem_cons_self _ _
    · rw [if_neg hk] at h
      exact List.mem_cons_of_mem _ (ih h)

theorem aset_map_fst_of_mem {d : ADict} {k v : String} (h : k ∈ d.map Prod.fst) :
    (aset d k v).map Prod.fst = d.map Prod.fst := by
  induction d with
  | nil => simp at h
  | cons kv t ih =>
    rcases kv with ⟨k0, v0⟩
    rw [aset]
    by_cases hk : k0 = k
    · simp [hk]
    · simp only [List.map_cons, List.mem_cons] at h
      rcases h with h1 | h2
    
      · exact absurd h1.symm hk
      · rw [if_neg hk]
        simp only [List.map_cons]
        rw [ih h2]

theorem aset_map_fst_of_not_mem {d : ADict} {k v : String} (h : k ∉ d.map Prod.fst) :
    (aset d k v).map Prod.fst = d.map Prod.fst ++ [k] := by
  induction d with
  | nil => rfl
  | cons kv t ih =>
    rcases kv with ⟨k0, v0⟩
    simp only [List.map_cons, List.mem_cons] at h
    push_neg at h
    rw [aset, if_neg (fun he => h.1 he.symm)]
    simp only [List.map_cons, List.cons_append, List.cons.injEq, true_and]
    exact ih h.2

theorem aset_nodup {d : ADict} {k v : String} (h : (d.map Prod.fst).Nodup) :
    ((aset d k v).map Prod.fst).Nodup := by
  by_cases hm : k ∈ d.map Prod.fst
  · rw [aset_map_fst_of_mem hm]
    exact h
  · rw [aset_map_fst_of_not_mem hm, List.nodup_append]
    exact ⟨h, List.nodup_singleton k, by simpa [List.disjoint_singleton] using hm⟩

theorem aset_mem {d : ADict} {k v : String} {p : String × String}
    (h : p ∈ aset d k v) : p = (k, v) ∨ p ∈ d := by
  induction d with
  | nil => simpa [aset] using h
  | cons kv t ih =>
    rcases kv with ⟨k0, v0⟩
    rw [aset] at h
    by_cases hk : k0 = k
    · rw [if_pos hk] at h
      rcases List.mem_cons.mp h with rfl | h2
      · left; rw [hk]
      · right; exact List.mem_cons_of_mem _ h2
    · rw [if_neg hk] at h
      rcases List.mem_cons.mp h with rfl | h2
      · right; exact List.mem_cons_self _ _
      · rcases ih h2 with h3 | h3
        · left; exact h3
        · right; exact List.mem_cons_of_mem _ h3

theorem mergeD_map_fst (df sec : ADict) :
    (mergeD df sec).map Prod.fst =
      df.map Prod.fst ++
        (sec.filter (fun kv => (alookup df kv.1).isNone)).map Prod.fst := by
  rw [mergeD, List.map_append, List.map_map]
  rfl

theorem mergeD_nodup {df sec : ADict} (h1 : (df.map Prod.fst).Nodup)
    (h2 : (sec.map Prod.fst).Nodup) : ((mergeD df sec).map Prod.fst).Nodup := by
  rw [mergeD_map_fst, List.nodup_append]
  refine ⟨h1, ?_, ?_⟩
  · exact h2.sublist ((List.filter_sublist sec).map Prod.fst)
  · intro x hx hx2
    rcases List.mem_map.mp hx2 with ⟨kv, hkv, hfst⟩
    have hcond := (List.mem_filter.mp hkv).2
    rw [hfst] at hcond
    rw [Option.isNone_iff_eq_none, alookup_eq_none_iff] at hcond
    exact hcond hx

theorem mergeD_mem {df sec : ADict} {k v : String}
    (h : (k, v) ∈ mergeD df sec) : (k, v) ∈ df ∨ (k, v) ∈ sec := by
  rw [mergeD] at h
  rcases List.mem_append.mp h with hm | hf
  · rcases List.mem_map.mp hm with ⟨kv0, hkv0, heq⟩
    rcases hlk : alookup sec kv0.1 with _ | w
    · rw [hlk] at heq
      simp only [Option.getD_none] at heq
      left
      rw [← heq]
      exact hkv0
    · rw [hlk] at heq
      simp only [Option.getD_some] at heq
      right
      have hk : kv0.1 = k := congrArg Prod.fst heq
      have hv : w = v := congrArg Prod.snd heq
      have hmem := alookup_mem hlk
      rw [hk, hv] at hmem
      exact hmem
  · right
    exact (List.mem_filter.mp hf).1

theorem sectNames_asetSection (secs : List (String × ADict)) (n k v : String) :
    sectNames (asetSection secs n k v) = sectNames secs := by
  rw [asetSection, sectNames, sectNames, List.map_map]
  apply List.map_congr_left
  intro p _
  by_cases hp : p.1 = n <;> simp [hp]

theorem asetSection_mem {secs : List (String × ADict)} {n k v : String}
    {p : String × ADict} (h : p ∈ asetSection secs n k v) :
    ∃ q ∈ secs, p.1 = q.1 ∧ (p.2 = q.2 ∨ p.2 = aset q.2 k v) := by
  rw [asetSection] at h
  rcases List.mem_map.mp h with ⟨q, hq, heq⟩
  by_cases hn : q.1 = n
  · rw [if_pos hn] at heq
    exact ⟨q, hq, by rw [← heq], Or.inr (by rw [← heq])⟩
  · rw [if_neg hn] at heq
    exact ⟨q, hq, by rw [← heq], Or.inl (by rw [← heq])⟩

/-! ### Interpolation is the identity on percent-free values -/

theorem mapExcept_ok_of {α β ε : Type} {f : α → Except ε β} {g : α → β}
    {l : List α} (h : ∀ a ∈ l, f a = .ok (g a)) :
    mapExcept f l = .ok (l.map g) := by
  induction l with
  | nil => rfl
  | cons a t ih =>
    rw [mapExcept, h a (List.mem_cons_self a t),
      ih (fun x hx => h x (List.mem_cons_of_mem a hx))]
    rfl

theorem interpLoop_noPercent {xf : String → String} {m : ADict}
    {rec : String → Except InterpErr (List Char)} {cs : List Char}
    (h : ∀ c ∈ cs, c ≠ '%') : ∀ f, interpLoop xf m rec f cs = .ok cs := by
  induction cs with
  | nil => intro f; cases f <;> rfl
  | cons c t ih =>
    intro f
    cases f with
    | zero => rfl
    | succ f2 =>
      simp only [interpLoop]
      rw [if_neg (h c (List.mem_cons_self c t)),
        ih (fun x hx => h x (List.mem_cons_of_mem c hx)) f2]
      rfl

theorem interpValue_noPercent {xf : String → String} {m : ADict} {v : String}
    (h : ∀ c ∈ v.data, c ≠ '%') : interpValue xf m v = .ok v := by
  rw [interpValue, interpDepth, interpLoop_noPercent h]
  rfl

theorem itemsInterp_noPercent {st : Cleaned} {s : String}
    (h : ∀ kv ∈ rawItems st s, ∀ c ∈ kv.2.data, c ≠ '%') :
    itemsInterp st s = .ok (rawItems st s) := by
  rw [itemsInterp]
  have := mapExcept_ok_of (l := rawItems st s)
    (f := fun kv => (interpValue st.xf (rawItems st s) kv.2).map (fun v => (kv.1, v)))
    (g := fun kv => kv)
    (fun kv hkv => by dsimp only; rw [interpValue_noPercent (h kv hkv)]; rfl)
  rw [this, List.map_id']

theorem stripDoublePercent_noPercent {cs : List Char}
    (h : ∀ c ∈ cs, c ≠ '%') : stripDoublePercent cs = cs := by
  induction cs with
  | nil => rfl
  | cons c t ih =>
    rcases t with _ | ⟨c2, t2⟩
    · rfl
    · rw [stripDoublePercent,
        if_neg (fun hand => h c (List.mem_cons_self _ _) hand.1),
        ih (fun x hx => h x (List.mem_cons_of_mem c hx))]

theorem stripKeycreFuel_noPercent {cs : List Char}
    (h : ∀ c ∈ cs, c ≠ '%') : ∀ f, stripKeycreFuel f cs = cs := by
  induction cs with
  | nil => intro f; cases f <;> rfl
  | cons c t ih =>
    intro f
    cases f with
    | zero => rfl
    | succ f2 =>
      simp only [stripKeycreFuel]
      rw [if_neg (h c (List.mem_cons_self c t)),
        ih (fun x hx => h x (List.mem_cons_of_mem c hx)) f2]

theorem contains_eq_false_of {cs : List Char} {x : Char}
    (h : ∀ c ∈ cs, c ≠ x) : cs.contains x = false := by
  rw [Bool.eq_false_iff]
  intro hc
  exact h x (List.elem_iff.mp hc) rfl

theorem beforeSetOk_noPercent {v : String} (h : ∀ c ∈ v.data, c ≠ '%') :
    beforeSetOk v = true := by
  rw [beforeSetOk, stripDoublePercent_noPercent h, stripKeycreFuel_noPercent h,
    contains_eq_false_of (fun c hc => h c hc)]
  rfl

/-! ### Structure of a parser run -/

theorem rsRun_append (pc : Bool) (st : RSState) (l1 l2 : List String) :
    rsRun pc st (l1 ++ l2) =
      match rsRun pc st l1 with
      | .error e => .error e
      | .ok st' => rsRun pc st' l2 := by
  induction l1 generalizing st with
  | nil => rfl
  | cons l t ih =>
    rw [List.cons_append, rsRun, rsRun]
    rcases rsStep pc st l with e | st2
    · rfl
    · exact ih st2


/-- Complete case analysis of one successful parser step. -/
theorem rsStep_cases {pc : Bool} {st st' : RSState} {l : String}
    (h : rsStep pc st l = .ok st') :
    (∃ hd, headerOf l = some hd ∧ hd ∉ sectNames st.sections ∧
      ((hd = "DEFAULT" ∧ st' = { st with cursect := some ("DEFAULT") }) ∨
       (hd ≠ "DEFAULT" ∧
        st' = { st with sections := st.sections ++ [(hd, [])], cursect := some hd }))) ∨
    (∃ cur, headerOf l = none ∧ st.cursect = some cur ∧
      ((splitFirstDelim l.data = none ∧ st' = { st with pending := true }) ∨
       (∃ pre post, splitFirstDelim l.data = some (pre, post) ∧
         (cur, entryKey pc pre) ∉ st.added ∧
         ((cur = "DEFAULT" ∧
           st' = { st with defaults := aset st.defaults (entryKey pc pre) (entryVal post),
                           added := (cur, entryKey pc pre) :: st.added,
                           pending := st.pending || ((⟨trimRightC pre⟩ : String) = "") }) ∨
          (cur ≠ "DEFAULT" ∧
           st' = { st with
                     sections := asetSection st.sections cur (entryKey pc pre) (entryVal post),
                     added := (cur, entryKey pc pre) :: st.added,
                     pending := st.pending || ((⟨trimRightC pre⟩ : String) = "") }))))) := by
  rw [rsStep] at h
  split at h
  · rename_i hd hh
    left
    split at h
    · exact absurd h (by simp)
    · rename_i hmem
      split at h
      · rename_i hdef
        injection h with h2
        exact ⟨hd, hh, hmem, Or.inl ⟨hdef, h2.symm⟩⟩
      · rename_i hdef
        injection h with h2
        exact ⟨hd, hh, hmem, Or.inr ⟨hdef, h2.symm⟩⟩
  · rename_i hh
    right
    split at h
    · exact absurd h (by simp)
    · rename_i cur hcur
      refine ⟨cur, hh, hcur, ?_⟩
      split at h
      · rename_i pre post hsp
        right
        simp only at h
        split at h
        · exact absurd h (by simp)
        · rename_i hnin
          refine ⟨pre, post, hsp, hnin, ?_⟩
          split at h
          · rename_i hdef
            injection h with h2
            exact Or.inl ⟨hdef, h2.symm⟩
          · rename_i hdef
            injection h with h2
            exact Or.inr ⟨hdef, h2.symm⟩
      · rename_i hsp
        injection h with h2
        exact Or.inl ⟨hsp, h2.symm⟩

theorem rsStep_pending_mono {pc : Bool} {st st' : RSState} {l : String}
    (h : rsStep pc st l = .ok st') (hp : st.pending = true) : st'.pending = true := by
  rcases rsStep_cases h with
    ⟨hd, _, _, ⟨_, rfl⟩ | ⟨_, rfl⟩⟩ |
    ⟨cur, _, _, ⟨_, rfl⟩ | ⟨pre, post, _, _, ⟨_, rfl⟩ | ⟨_, rfl⟩⟩⟩ <;>
    simp [hp]

theorem rsStep_not_header {pc : Bool} {st st' : RSState} {l : String}
    (hh : headerOf l = none) (h : rsStep pc st l = .ok st') :
    st'.cursect = st.cursect ∧ (∀ p ∈ st.added, p ∈ st'.added) ∧
      sectNames st'.sections = sectNames st.sections := by
  rcases rsStep_cases h with
    ⟨hd, hh2, _, ⟨_, rfl⟩ | ⟨_, rfl⟩⟩ |
    ⟨cur, _, hcur, ⟨_, rfl⟩ | ⟨pre, post, _, _, ⟨_, rfl⟩ | ⟨_, rfl⟩⟩⟩
  · exact absurd (hh ▸ hh2) (by simp)
  · exact absurd (hh ▸ hh2) (by simp)
  · exact ⟨rfl, fun p hp => hp, rfl⟩
  · exact ⟨rfl, fun p hp => List.mem_cons_of_mem _ hp, rfl⟩
  · exact ⟨rfl, fun p hp => List.mem_cons_of_mem _ hp, sectNames_asetSection _ _ _ _⟩

theorem rsStep_header {pc : Bool} {st st' : RSState} {l hd : String}
    (hh : headerOf l = some hd) (h : rsStep pc st l = .ok st') :
    st'.cursect = some hd ∧ ∀ p ∈ st.added, p ∈ st'.added := by
  rcases rsStep_cases h with
    ⟨hd2, hh2, _, ⟨hdef, rfl⟩ | ⟨_, rfl⟩⟩ |
    ⟨cur, hh2, hcur, _⟩
  · have : hd2 = hd := by
      rw [hh] at hh2
      exact (Option.some.injEq _ _ ▸ hh2).symm
    rw [← this, hdef]
    exact ⟨rfl, fun p hp => hp⟩
  · have : hd2 = hd := by
      rw [hh] at hh2
      exact (Option.some.injEq _ _ ▸ hh2).symm
    rw [← this]
    exact ⟨rfl, fun p hp => hp⟩
  · exact absurd (hh ▸ hh2) (by simp)

theorem rsRun_nonheader_out {pc : Bool} {st st' : RSState} {ls : List String}
    (hall : ∀ l ∈ ls, headerOf l = none) (h : rsRun pc st ls = .ok st') :
    st'.cursect = st.cursect ∧ ∀ p ∈ st.added, p ∈ st'.added := by
  induction ls generalizing st with
  | nil =>
    rw [rsRun] at h
    injection h with h2
    rw [← h2]
    exact ⟨rfl, fun p hp => hp⟩
  | cons l t ih =>
    rw [rsRun] at h
    rcases hs : rsStep pc st l with e | st2
    · rw [hs] at h; exact absurd h (by simp)
    · rw [hs] at h
      rcases rsStep_not_header (hall l (List.mem_cons_self l t)) hs with ⟨hc, ha, _⟩
      rcases ih (fun x hx => hall x (List.mem_cons_of_mem l hx)) h with ⟨hc2, ha2⟩
      exact ⟨hc2.trans hc, fun p hp => ha2 p (ha p hp)⟩

/-- An assignment line whose (transformed) key is already registered for the
current section makes the step fail with `DuplicateOptionError`. -/
theorem rsStep_dup {pc : Bool} {st : RSState} {l : String} {cur : String}
    {pre post : List Char}
    (hh : headerOf l = none) (hcur : st.cursect = some cur)
    (hsp : splitFirstDelim l.data = some (pre, post))
    (hmem : (cur, entryKey pc pre) ∈ st.added) :
    rsStep pc st l = .error (.duplicateOption cur (entryKey pc pre)) := by
  rw [rsStep, hh, hcur, hsp]
  simp only [if_pos hmem]

/-- An assignment line in section context either fails or registers its key. -/
theorem rsStep_entry_out {pc : Bool} {st st' : RSState} {l : String} {cur : String}
    {pre post : List Char}
    (hh : headerOf l = none) (hcur : st.cursect = some cur)
    (hsp : splitFirstDelim l.data = some (pre, post))
    (h : rsStep pc st l = .ok st') :
    (cur, entryKey pc pre) ∈ st'.added := by
  rcases rsStep_cases h with
    ⟨hd, hh2, _, _⟩ |
    ⟨cur2, _, hcur2, ⟨hsp2, _⟩ | ⟨pre2, post2, hsp2, _, ⟨_, rfl⟩ | ⟨_, rfl⟩⟩⟩
  · exact absurd (hh ▸ hh2) (by simp)
  · exact absurd (hsp ▸ hsp2) (by simp)
  · have hc : cur2 = cur := by
      rw [hcur] at hcur2
      exact (Option.some.injEq _ _ ▸ hcur2).symm
    have hp : pre2 = pre := by
      rw [hsp] at hsp2
      exact congrArg Prod.fst (Option.some.injEq _ _ ▸ hsp2).symm
    rw [hc, hp]
    exact List.mem_cons_self _ _
  · have hc : cur2 = cur := by
      rw [hcur] at hcur2
      exact (Option.some.injEq _ _ ▸ hcur2).symm
    have hp : pre2 = pre := by
      rw [hsp] at hsp2
      exact congrArg Prod.fst (Option.some.injEq _ _ ▸ hsp2).symm
    rw [hc, hp]
    exact List.mem_cons_self _ _

/-- Any file whose preprocessed lines contain, inside one section, two
assignment lines with the same trimmed key, fails in `read_string`. -/
theorem readString_dup_key (pc : Bool) (A B C D : List String) (H e1 e2 : String)
    {hd : String} (hHd : headerOf H = some hd)
    (hB : ∀ l ∈ B, headerOf l = none) (hC : ∀ l ∈ C, headerOf l = none)
    (he1 : headerOf e1 = none) (he2 : headerOf e2 = none)
    {pre1 post1 pre2 post2 : List Char}
    (hsp1 : splitFirstDelim e1.data = some (pre1, post1))
    (hsp2 : splitFirstDelim e2.data = some (pre2, post2))
    (hkey : (⟨trimRightC pre1⟩ : String) = ⟨trimRightC pre2⟩) :
    ∃ e, readString pc (A ++ H :: (B ++ e1 :: (C ++ e2 :: D))) = .error e := by
  rw [readString, rsRun_append]
  rcases hA : rsRun pc rsInit A with eA | stA
  · exact ⟨eA, rfl⟩
  · simp only []
    rw [rsRun]
    rcases hH : rsStep pc stA H with eH | stH
    · exact ⟨eH, rfl⟩
    · simp only []
      have hcurH : stH.cursect = some hd := (rsStep_header hHd hH).1
      rw [rsRun_append]
      rcases hBrun : rsRun pc stH B with eB | stB
      · exact ⟨eB, rfl⟩
      · simp only []
        have hcurB : stB.cursect = some hd :=
          (rsRun_nonheader_out hB hBrun).1.trans hcurH
        rw [rsRun]
        rcases h1 : rsStep pc stB e1 with ee1 | st1
        · exact ⟨ee1, rfl⟩
        · simp only []
          have hadded1 : (hd, entryKey pc pre1) ∈ st1.added :=
            rsStep_entry_out he1 hcurB hsp1 h1
          have hcur1 : st1.cursect = some hd :=
            (rsStep_not_header he1 h1).1.trans hcurB
          rw [rsRun_append]
          rcases hCrun : rsRun pc st1 C with eC | stC
          · exact ⟨eC, rfl⟩
          · simp only []
            have hcurC : stC.cursect = some hd :=
              (rsRun_nonheader_out hC hCrun).1.trans hcur1
            have haddedC : (hd, entryKey pc pre2) ∈ stC.added := by
              have hkx : entryKey pc pre1 = entryKey pc pre2 := by
                rw [entryKey, entryKey, hkey]
              rw [← hkx]
              exact (rsRun_nonheader_out hC hCrun).2 _ hadded1
            rw [rsRun, rsStep_dup he2 hcurC hsp2 haddedC]
            exact ⟨_, rfl⟩

/-! ### Keys produced by the parser are trimmed and duplicate-free -/

def dictKeysTrim (d : ADict) : Prop :=
  (d.map Prod.fst).Nodup ∧ ∀ kv ∈ d, pyStrip kv.1 = kv.1

def InvKeys (st : RSState) : Prop :=
  dictKeysTrim st.defaults ∧ ∀ p ∈ st.sections, dictKeysTrim p.2

theorem trimFix_head {l : String} (hl : pyStrip l = l) :
    noLeadWS l.data := by
  intro c hc
  have hdata : trimC l.data = l.data := congrArg String.data hl
  rw [← hdata] at hc
  exact trimC_noLead l.data c hc

theorem entryKey_trim {pc : Bool} {l : String} {pre post : List Char}
    (hl : pyStrip l = l) (hsp : splitFirstDelim l.data = some (pre, post)) :
    pyStrip (entryKey pc pre) = entryKey pc pre := by
  have hq : trimC (trimRightC pre) = trimRightC pre := by
    rcases hqq : trimRightC pre with _ | ⟨x, xs⟩
    · rfl
    · apply trimC_eq_self_of_forms
      · intro c hc
        rcases trimRightC_decomp pre with ⟨w, hw, _⟩
        rcases splitFirstDelim_eq_some hsp with ⟨d, hdec, _, _⟩
        apply trimFix_head hl
        rw [hdec, hw, hqq] at *
        simp only [hqq, List.head?_cons, Option.some.injEq] at hc
        subst hc
        simp [hqq]
      · rw [← hqq]
        exact trimRightC_noTrail pre
  rw [entryKey]
  cases pc with
  | true =>
    show pyStrip ⟨trimRightC pre⟩ = _
    exact strEq_of_data hq
  | false =>
    show pyStrip (pyLower ⟨trimRightC pre⟩) = xform false ⟨trimRightC pre⟩
    rw [pyStrip_pyLower, strEq_of_data (s := pyStrip ⟨trimRightC pre⟩) hq]
    rfl

theorem entryVal_trim {post : List Char} : pyStrip (entryVal post) = entryVal post :=
  strEq_of_data (trimC_idem post)

theorem rsStep_invKeys {pc : Bool} {st st' : RSState} {l : String}
    (hl : pyStrip l = l) (h : rsStep pc st l = .ok st') (hinv : InvKeys st) :
    InvKeys st' := by
  rcases rsStep_cases h with
    ⟨hd, _, _, ⟨_, rfl⟩ | ⟨_, rfl⟩⟩ |
    ⟨cur, _, _, ⟨_, rfl⟩ | ⟨pre, post, hsp, _, ⟨_, rfl⟩ | ⟨_, rfl⟩⟩⟩
  · exact hinv
  · refine ⟨hinv.1, ?_⟩
    intro p hp
    rcases List.mem_append.mp hp with hp1 | hp2
    · exact hinv.2 p hp1
    · rcases List.mem_singleton.mp hp2 with rfl
      exact ⟨by simp, by simp⟩
  · exact hinv
  · refine ⟨⟨aset_nodup hinv.1.1, ?_⟩, hinv.2⟩
    intro kv hkv
    rcases aset_mem hkv with rfl | hold
    · exact entryKey_trim hl hsp
    · exact hinv.1.2 kv hold
  · refine ⟨hinv.1, ?_⟩
    intro p hp
    rcases asetSection_mem hp with ⟨q, hq, _, hdict⟩
    rcases hdict with hsame | hset
    · rw [hsame]
      exact hinv.2 q hq
    · rw [hset]
      refine ⟨aset_nodup (hinv.2 q hq).1, ?_⟩
      intro kv hkv
      rcases aset_mem hkv with rfl | hold
      · exact entryKey_trim hl hsp
      · exact (hinv.2 q hq).2 kv hold

theorem rsRun_invKeys {pc : Bool} {st st' : RSState} {ls : List String}
    (hl : ∀ l ∈ ls, pyStrip l = l) (h : rsRun pc st ls = .ok st')
    (hinv : InvKeys st) : InvKeys st' := by
  induction ls generalizing st with
  | nil =>
    rw [rsRun] at h
    injection h with h2
    rw [← h2]
    exact hinv
  | cons l t ih =>
    rw [rsRun] at h
    rcases hs : rsStep pc st l with e | st2
    · rw [hs] at h; exact absurd h (by simp)
    · rw [hs] at h
      exact ih (fun x hx => hl x (List.mem_cons_of_mem l hx)) h
        (rsStep_invKeys (hl l (List.mem_cons_self l t)) hs hinv)

theorem readString_keys {pc : Bool} {lines : List String} {raw : RawCfg}
    (h : readString pc lines = .ok raw) (hl : ∀ l ∈ lines, pyStrip l = l) :
    dictKeysTrim raw.defaults ∧ ∀ p ∈ raw.sections, dictKeysTrim p.2 := by
  rw [readString] at h
  split at h
  · exact absurd h (by simp)
  · rename_i st hr
    split at h
    · exact absurd h (by simp)
    · injection h with h2
      have hinv : InvKeys st := rsRun_invKeys hl hr
        ⟨⟨List.nodup_nil, by simp [rsInit]⟩, by simp [rsInit]⟩
      rw [← h2]
      exact ⟨hinv.1, hinv.2⟩

theorem mergeD_keysTrim {df sec : ADict} (h1 : dictKeysTrim df)
    (h2 : dictKeysTrim sec) : dictKeysTrim (mergeD df sec) := by
  refine ⟨mergeD_nodup h1.1 h2.1, ?_⟩
  intro kv hkv
  rcases kv with ⟨k, v⟩
  rcases mergeD_mem hkv with hm | hm
  · exact h1.2 _ hm
  · exact h2.2 _ hm

theorem preprocessLine_out {s l : String} (h : preprocessLine s = some l) :
    pyStrip l = l ∧ l ≠ "" := by
  rw [preprocessLine] at h
  split at h
  · exact absurd h (by simp)
  · rename_i hne
    injection h with h2
    constructor
    · rw [← h2]
      exact strEq_of_data (trimC_idem _)
    · rw [← h2, str_ne_empty_iff]
      simpa [List.isEmpty_iff] using hne

theorem setCleaned_error {acc : Cleaned} {sect key val : String} {e : ConfigError}
    (h : setCleaned acc sect key val = .error e) :
    ∃ v, e = .interpolationSyntax v := by
  rw [setCleaned] at h
  split at h
  · injection h with h2
    exact ⟨val, h2.symm⟩
  · split at h <;> exact absurd h (by simp)

theorem cleanItems_ne_dup {sect : String} {acc : Cleaned} {keysSeen : List String}
    {items : List (String × String)}
    (hnd : (items.map Prod.fst).Nodup)
    (htrim : ∀ kv ∈ items, pyStrip kv.1 = kv.1)
    (hdisj : ∀ kv ∈ items, pyStrip kv.1 ∉ keysSeen) :
    ∀ k s, cleanItems sect acc keysSeen items ≠ .error (.duplicateKey k s) := by
  induction items generalizing acc keysSeen with
  | nil => intro k s; simp [cleanItems]
  | cons kv rest ih =>
    intro k s
    rcases kv with ⟨k0, v0⟩
    rw [cleanItems, if_neg (hdisj (k0, v0) (List.mem_cons_self _ _))]
    rcases hset : setCleaned acc sect (pyStrip k0) (pyStrip v0) with e | acc'
    · intro hcontra
      injection hcontra with h2
      rcases setCleaned_error hset with ⟨v, rfl⟩
      exact ConfigError.noConfusion h2
    · apply ih
      · exact (List.nodup_cons.mp (by simpa using hnd)).2
      · exact fun x hx => htrim x (List.mem_cons_of_mem _ hx)
      · intro x hx hmem
        rcases List.mem_cons.mp hmem with heq | hmem2
        · have hx1 : pyStrip x.1 = x.1 := htrim x (List.mem_cons_of_mem _ hx)
          have hk0 : pyStrip k0 = k0 := htrim (k0, v0) (List.mem_cons_self _ _)
          rw [hx1, hk0] at heq
          have : x.1 ∈ rest.map Prod.fst := List.mem_map_of_mem Prod.fst hx
          rw [heq] at this
          exact (List.nodup_cons.mp (by simpa using hnd)).1 this
        · exact hdisj x (List.mem_cons_of_mem _ hx) hmem2

theorem cleanSections_ne_dup {defaults : ADict} {seen : List String} {acc : Cleaned}
    {secs : List (String × ADict)}
    (hdict : dictKeysTrim defaults)
    (hsecs : ∀ p ∈ secs, dictKeysTrim p.2) :
    ∀ k s, cleanSections defaults seen acc secs ≠ .error (.duplicateKey k s) := by
  induction secs generalizing seen acc with
  | nil => intro k s; simp [cleanSections]
  | cons p rest ih =>
    intro k s
    rcases p with ⟨s0, items⟩
    rw [cleanSections]
    split
    · intro hcontra
      injection hcontra with h2
      exact ConfigError.noConfusion h2
    · rcases hclean : cleanItems (cleanName acc.preserve s0)
          (addSectionIfNew acc (cleanName acc.preserve s0)) [] (mergeD defaults items)
        with e | acc2
      · intro hcontra
        injection hcontra with h2
        rw [h2] at hclean
        have hmg := mergeD_keysTrim hdict (hsecs (s0, items) (List.mem_cons_self _ _))
        exact cleanItems_ne_dup hmg.1 hmg.2 (fun kv _ => List.not_mem_nil _) k s hclean
      · exact ih (fun q hq => hsecs q (List.mem_cons_of_mem _ hq)) k s

/-- The handler's own duplicate-key `ValueError` (parser.py line 133) is
unreachable: the strict raw parser has already deduplicated every
(trimmed) key that the cleaning loop revisits. -/
theorem load_config_ne_dupKey (pc : Bool) (lines : List String) (k s : String) :
    load_config pc lines ≠ .error (.duplicateKey k s) := by
  rw [load_config]
  rcases hr : readString pc (preprocessLines lines) with e | raw
  · intro hcontra
    injection hcontra with h2
    exact ConfigError.noConfusion h2
  · have hl : ∀ l ∈ preprocessLines lines, pyStrip l = l := by
      intro l hl
      rcases List.mem_filterMap.mp hl with ⟨src2, _, hsrc⟩
      exact (preprocessLine_out hsrc).1
    have hkeys := readString_keys hr hl
    show cleanSections raw.defaults [] ⟨pc, [], []⟩ raw.sections ≠ _
    exact cleanSections_ne_dup hkeys.1 (fun p hp => hkeys.2 p hp) k s

/-- C1 (amended): a duplicated (post-trim) key inside one section still
aborts construction, but through the wrapped strict-mode error of the
underlying parser (`DuplicateOptionError`, naming the transformed key and
raw section); the handler's own `Duplicate key ... found in section ...`
`ValueError` is unreachable on every input. -/
theorem C1_duplicate_key_behaviour :
    (∀ (pc : Bool) (lines : List String) (k s : String),
      load_config pc lines ≠ .error (.duplicateKey k s)) ∧
    (∀ (pc : Bool) (lines A B C D : List String) (H e1 e2 hd : String)
      (pre1 post1 pre2 post2 : List Char),
      preprocessLines lines = A ++ H :: (B ++ e1 :: (C ++ e2 :: D)) →
      headerOf H = some hd →
      (∀ l ∈ B, headerOf l = none) → (∀ l ∈ C, headerOf l = none) →
      headerOf e1 = none → headerOf e2 = none →
      splitFirstDelim e1.data = some (pre1, post1) →
      splitFirstDelim e2.data = some (pre2, post2) →
      (⟨trimRightC pre1⟩ : String) = ⟨trimRightC pre2⟩ →
      ∃ e, load_config pc lines = .error (.parseWrap e)) := by
  refine ⟨load_config_ne_dupKey, ?_⟩
  intro pc lines A B C D H e1 e2 hd pre1 post1 pre2 post2 hpp hH hB hC he1 he2 hsp1 hsp2 hkey
  rcases readString_dup_key pc A B C D H e1 e2 hH hB hC he1 he2 hsp1 hsp2 hkey with ⟨e, he⟩
  refine ⟨e, ?_⟩
  rw [load_config, hpp, he]

/-- Witness for C1 at the two-line duplicate-key file. -/
theorem C1_duplicate_key_behaviour_witness :
    ∃ e, load_config false ["[s]", "k = 1", "k = 2"] = .error (.parseWrap e) :=
  C1_duplicate_key_behaviour.2 false (["[s]", "k = 1", "k = 2"])
    [] [] [] [] ("[s]") ("k = 1") ("k = 2") ("s")
    ['k', ' '] [' ', '1'] ['k', ' '] [' ', '2']
    (by decide) (by decide) (by decide) (by decide) (by decide) (by decide)
    (by decide) (by decide) (by decide)

/-! ### Duplicate profiles -/

theorem setCleaned_ok {acc : Cleaned} {sect key val : String}
    (hval : val = "" ∨ beforeSetOk val = true) :
    ∃ acc', setCleaned acc sect key val = .ok acc' ∧ acc'.preserve = acc.preserve ∧
      sectNames acc'.sections = sectNames acc.sections := by
  rw [setCleaned, if_neg (by
    intro hand
    rcases hval with hv | hv
    · exact hand.1 hv
    · exact hand.2 hv)]
  by_cases hs : sect = "" ∨ sect = "DEFAULT"
  · rw [if_pos hs]
    exact ⟨_, rfl, rfl, rfl⟩
  · rw [if_neg hs]
    exact ⟨_, rfl, rfl, sectNames_asetSection _ _ _ _⟩

theorem cleanItems_ok_exists {sect : String} {acc : Cleaned} {keysSeen : List String}
    {items : List (String × String)}
    (hnd : (items.map Prod.fst).Nodup)
    (htrim : ∀ kv ∈ items, pyStrip kv.1 = kv.1)
    (hdisj : ∀ kv ∈ items, pyStrip kv.1 ∉ keysSeen)
    (hvals : ∀ kv ∈ items, pyStrip kv.2 = "" ∨ beforeSetOk (pyStrip kv.2) = true) :
    ∃ acc', cleanItems sect acc keysSeen items = .ok acc' ∧
      acc'.preserve = acc.preserve ∧
      sectNames acc'.sections = sectNames acc.sections := by
  induction items generalizing acc keysSeen with
  | nil => exact ⟨acc, rfl, rfl, rfl⟩
  | cons kv rest ih =>
    rcases kv with ⟨k0, v0⟩
    rw [cleanItems, if_neg (hdisj (k0, v0) (List.mem_cons_self _ _))]
    rcases @setCleaned_ok acc sect (pyStrip k0) _
      (hvals (k0, v0) (List.mem_cons_self _ _)) with ⟨acc1, hset, hp1, hn1⟩
    rw [hset]
    have hrec := @ih acc1 (pyStrip k0 :: keysSeen)
      (List.nodup_cons.mp (by simpa using hnd)).2
      (fun x hx => htrim x (List.mem_cons_of_mem _ hx))
      (fun x hx hmem => by
        rcases List.mem_cons.mp hmem with heq | hmem2
        · have hx1 : pyStrip x.1 = x.1 := htrim x (List.mem_cons_of_mem _ hx)
          have hk0 : pyStrip k0 = k0 := htrim (k0, v0) (List.mem_cons_self _ _)
          rw [hx1, hk0] at heq
          have hfst : x.1 ∈ rest.map Prod.fst := List.mem_map_of_mem Prod.fst hx
          rw [heq] at hfst
          exact (List.nodup_cons.mp (by simpa using hnd)).1 hfst
        · exact hdisj x (List.mem_cons_of_mem _ hx) hmem2)
      (fun x hx => hvals x (List.mem_cons_of_mem _ hx))
    rcases hrec with ⟨acc', hitems, hp2, hn2⟩
    exact ⟨acc', hitems, hp2.trans hp1, hn2.trans hn1⟩

theorem cleanSections_collision {defaults : ADict} {seen : List String}
    {acc : Cleaned} {secs : List (String × ADict)}
    (hkeysd : dictKeysTrim defaults)
    (hkeyss : ∀ p ∈ secs, dictKeysTrim p.2)
    (hvals : ∀ p ∈ secs, ∀ kv ∈ mergeD defaults p.2,
      pyStrip kv.2 = "" ∨ beforeSetOk (pyStrip kv.2) = true)
    (hcol : ¬ ((secs.map (fun p => cleanName acc.preserve p.1)).Nodup ∧
      ∀ c ∈ secs.map (fun p => cleanName acc.preserve p.1), c ∉ seen)) :
    ∃ c, cleanSections defaults seen acc secs = .error (.duplicateProfile c) ∧
      c ∈ secs.map (fun p => cleanName acc.preserve p.1) := by
  induction secs generalizing seen acc with
  | nil => exact absurd ⟨List.nodup_nil, by simp⟩ hcol
  | cons p rest ih =>
    rcases p with ⟨s0, items⟩
    rw [cleanSections]
    by_cases hs : cleanName acc.preserve s0 ∈ seen
    · rw [if_pos hs]
      exact ⟨cleanName acc.preserve s0, rfl, by simp⟩
    · rw [if_neg hs]
      have hmg := mergeD_keysTrim hkeysd (hkeyss (s0, items) (List.mem_cons_self _ _))
      rcases @cleanItems_ok_exists _ (addSectionIfNew acc (cleanName acc.preserve s0)) [] _
          hmg.1 hmg.2 (fun kv _ => List.not_mem_nil _)
          (hvals (s0, items) (List.mem_cons_self _ _)) with ⟨acc2, hok, hp2, _⟩
      rw [hok]
      have hpres2 : acc2.preserve = acc.preserve := by
        rw [hp2, addSectionIfNew]
        split <;> rfl
      have hcol2 : ¬ ((rest.map (fun p => cleanName acc2.preserve p.1)).Nodup ∧
          ∀ c ∈ rest.map (fun p => cleanName acc2.preserve p.1),
            c ∉ cleanName acc.preserve s0 :: seen) := by
        rw [hpres2]
        intro ⟨hnd, hdisj⟩
        apply hcol
        constructor
        · rw [List.map_cons, List.nodup_cons]
          refine ⟨?_, hnd⟩
          intro hmem
          exact hdisj _ hmem (List.mem_cons_self _ _)
        · intro c hc
          rw [List.map_cons] at hc
          rcases List.mem_cons.mp hc with rfl | hc2
          · exact hs
          · intro hcs
            exact hdisj c hc2 (List.mem_cons_of_mem _ hcs)
      rcases @ih (cleanName acc.preserve s0 :: seen) acc2
        (fun q hq => hkeyss q (List.mem_cons_of_mem _ hq))
        (fun q hq => hvals q (List.mem_cons_of_mem _ hq)) hcol2 with ⟨c, hc, hcm⟩
      refine ⟨c, hc, ?_⟩
      rw [List.map_cons]
      apply List.mem_cons_of_mem
      rw [hpres2] at hcm
      exact hcm

/-- C2 (amended): headers that normalize to the same name abort
construction — with the duplicate-profile error naming a normalized section
name whenever the raw parse succeeds (in particular for `[A]` / `[a]` under
`preserve_case=false`, which collide on `"a"`); raw-identical headers
instead abort inside the strict raw parser, whose `DuplicateSectionError`
(naming the raw header) is wrapped as a parse error. -/
theorem C2_duplicate_profile_behaviour :
    load_config false ["[A]", "[a]"] = .error (.duplicateProfile "a") ∧
    (∀ (pc : Bool) (lines : List String) (raw : RawCfg),
      readString pc (preprocessLines lines) = .ok raw →
      (∀ p ∈ raw.sections, ∀ kv ∈ mergeD raw.defaults p.2,
        pyStrip kv.2 = "" ∨ beforeSetOk (pyStrip kv.2) = true) →
      ¬ (raw.sections.map (fun p => cleanName pc p.1)).Nodup →
      ∃ c, load_config pc lines = .error (.duplicateProfile c) ∧
        c ∈ raw.sections.map (fun p => cleanName pc p.1)) := by
  refine ⟨by decide, ?_⟩
  intro pc lines raw hr hvals hcol
  have hl : ∀ l ∈ preprocessLines lines, pyStrip l = l := by
    intro l hl
    rcases List.mem_filterMap.mp hl with ⟨src2, _, hsrc⟩
    exact (preprocessLine_out hsrc).1
  have hkeys := readString_keys hr hl
  have hres := @cleanSections_collision _ [] ⟨pc, [], []⟩ _
    hkeys.1 (fun p hp => hkeys.2 p hp) hvals
    (by
      intro hand
      exact hcol hand.1)
  rcases hres with ⟨c, hc, hcm⟩
  refine ⟨c, ?_, hcm⟩
  rw [load_config, hr]
  exact hc

/-- Witness for C2's general part at the file `[A]` / `[a]`. -/
theorem C2_duplicate_profile_behaviour_witness :
    ∃ c, load_config false ["[A]", "[a]"] = .error (.duplicateProfile c) ∧
      c ∈ (RawCfg.mk [] [("A", []), ("a", [])]).sections.map
        (fun p => cleanName false p.1) :=
  C2_duplicate_profile_behaviour.2 false (["[A]", "[a]"])
    (RawCfg.mk [] [("A", []), ("a", [])]) (by decide) (by decide) (by decide)

/-! ### Which profiles come out, and in which order -/

theorem setCleaned_fields {acc acc' : Cleaned} {sect key val : String}
    (h : setCleaned acc sect key val = .ok acc') :
    acc'.preserve = acc.preserve ∧ sectNames acc'.sections = sectNames acc.sections := by
  rw [setCleaned] at h
  split at h
  · exact absurd h (by simp)
  · split at h <;>
    · injection h with h2
      rw [← h2]
      exact ⟨rfl, by simp [sectNames_asetSection]⟩

theorem cleanItems_fields {sect : String} {acc acc' : Cleaned} {ks : List String}
    {items : List (String × String)}
    (h : cleanItems sect acc ks items = .ok acc') :
    acc'.preserve = acc.preserve ∧ sectNames acc'.sections = sectNames acc.sections := by
  induction items generalizing acc ks with
  | nil =>
    rw [cleanItems] at h
    injection h with h2
    rw [← h2]
    exact ⟨rfl, rfl⟩
  | cons kv rest ih =>
    rcases kv with ⟨k0, v0⟩
    rw [cleanItems] at h
    split at h
    · exact absurd h (by simp)
    · split at h
      · exact absurd h (by simp)
      · rename_i acc1 hset
        rcases setCleaned_fields hset with ⟨hp1, hn1⟩
        rcases ih h with ⟨hp2, hn2⟩
        exact ⟨hp2.trans hp1, hn2.trans hn1⟩

theorem addSectionIfNew_preserve (acc : Cleaned) (c : String) :
    (addSectionIfNew acc c).preserve = acc.preserve := by
  rw [addSectionIfNew]
  split <;> rfl

theorem rsRun_sectNames {pc : Bool} {st st' : RSState} {ls : List String}
    (h : rsRun pc st ls = .ok st') :
    sectNames st'.sections = sectNames st.sections ++
      ((ls.filterMap headerOf).filter (fun hd => (hd ≠ "DEFAULT" : Bool))) := by
  induction ls generalizing st with
  | nil =>
    rw [rsRun] at h
    injection h with h2
    rw [← h2]
    simp
  | cons l t ih =>
    rw [rsRun] at h
    rcases hs : rsStep pc st l with e | st2
    · rw [hs] at h; exact absurd h (by simp)
    · rw [hs] at h
      have hrec := ih h
      rcases rsStep_cases hs with
        ⟨hd, hh, _, ⟨hdef, rfl⟩ | ⟨hdef, rfl⟩⟩ |
        ⟨cur, hh, _, ⟨_, rfl⟩ | ⟨pre, post, _, _, ⟨_, rfl⟩ | ⟨_, rfl⟩⟩⟩
      · rw [hrec, List.filterMap_cons, hh]
        simp only []
        rw [List.filter_cons, if_neg (by simp [hdef])]
      · rw [hrec, List.filterMap_cons, hh]
        simp only [sectNames, List.map_append]
        rw [List.filter_cons, if_pos (by simpa using hdef)]
        simp [sectNames]
      · rw [hrec, List.filterMap_cons, hh]
      · rw [hrec, List.filterMap_cons, hh]
      · rw [hrec, List.filterMap_cons, hh, sectNames_asetSection]

theorem readString_sectNames {pc : Bool} {lines : List String} {raw : RawCfg}
    (h : readString pc lines = .ok raw) :
    sectNames raw.sections =
      (lines.filterMap headerOf).filter (fun hd => (hd ≠ "DEFAULT" : Bool)) := by
  rw [readString] at h
  split at h
  · exact absurd h (by simp)
  · rename_i st hr
    split at h
    · exact absurd h (by simp)
    · injection h with h2
      rw [← h2]
      have := rsRun_sectNames hr
      simpa [rsInit, sectNames] using this

theorem cleanSections_names {defaults : ADict} {seen : List String}
    {acc st : Cleaned} {secs : List (String × ADict)}
    (h : cleanSections defaults seen acc secs = .ok st)
    (hsub : ∀ n ∈ sectNames acc.sections, n ∈ seen) :
    sectNames st.sections = sectNames acc.sections ++
      ((secs.map (fun p => cleanName acc.preserve p.1)).filter
        (fun c => (c ≠ "DEFAULT" : Bool))) := by
  induction secs generalizing seen acc with
  | nil =>
    rw [cleanSections] at h
    injection h with h2
    rw [← h2]
    simp
  | cons p rest ih =>
    rcases p with ⟨s0, items⟩
    rw [cleanSections] at h
    split at h
    · exact absurd h (by simp)
    · rename_i hs
      split at h
      · exact absurd h (by simp)
      · rename_i acc2 hclean
        rcases cleanItems_fields hclean with ⟨hp2, hn2⟩
        have hnotmem : cleanName acc.preserve s0 ∉ sectNames acc.sections :=
          fun hmem => hs (hsub _ hmem)
        have hpres2 : acc2.preserve = acc.preserve :=
          hp2.trans (addSectionIfNew_preserve acc _)
        by_cases hdef : cleanName acc.preserve s0 = "DEFAULT"
        · have hadd : sectNames (addSectionIfNew acc (cleanName acc.preserve s0)).sections =
              sectNames acc.sections := by
            rw [addSectionIfNew, if_pos (Or.inl hdef)]
          have hrec := ih h (by
            intro n hn
            rw [hn2, hadd] at hn
            exact List.mem_cons_of_mem _ (hsub n hn))
          rw [hrec, hn2, hadd, hpres2, List.map_cons, List.filter_cons,
            if_neg (by simp [hdef])]
        · have hadd : sectNames (addSectionIfNew acc (cleanName acc.preserve s0)).sections =
              sectNames acc.sections ++ [cleanName acc.preserve s0] := by
            rw [addSectionIfNew, if_neg (by
              intro hor
              rcases hor with h1 | h2
              · exact hdef h1
              · exact hnotmem h2)]
            simp [sectNames]
          have hrec := ih h (by
            intro n hn
            rw [hn2, hadd] at hn
            rcases List.mem_append.mp hn with h1 | h2
            · exact List.mem_cons_of_mem _ (hsub n h1)
            · rcases List.mem_singleton.mp h2 with rfl
              exact List.mem_cons_self _ _)
          rw [hrec, hn2, hadd, hpres2, List.map_cons, List.filter_cons,
            if_pos (by simpa using hdef), List.append_assoc]
          rfl

theorem cleanSections_names_nodup {defaults : ADict} {seen : List String}
    {acc st : Cleaned} {secs : List (String × ADict)}
    (h : cleanSections defaults seen acc secs = .ok st)
    (hsub : ∀ n ∈ sectNames acc.sections, n ∈ seen)
    (hnd : (sectNames acc.sections).Nodup) :
    (sectNames st.sections).Nodup := by
  induction secs generalizing seen acc with
  | nil =>
    rw [cleanSections] at h
    injection h with h2
    rw [← h2]
    exact hnd
  | cons p rest ih =>
    rcases p with ⟨s0, items⟩
    rw [cleanSections] at h
    split at h
    · exact absurd h (by simp)
    · rename_i hs
      split at h
      · exact absurd h (by simp)
      · rename_i acc2 hclean
        rcases cleanItems_fields hclean with ⟨_, hn2⟩
        by_cases hdef : cleanName acc.preserve s0 = "DEFAULT" ∨
            cleanName acc.preserve s0 ∈ sectNames acc.sections
        · have hadd : sectNames (addSectionIfNew acc (cleanName acc.preserve s0)).sections =
              sectNames acc.sections := by
            rw [addSectionIfNew, if_pos hdef]
          exact ih h (by
            intro n hn
            rw [hn2, hadd] at hn
            exact List.mem_cons_of_mem _ (hsub n hn)) (by rw [hn2, hadd]; exact hnd)
        · have hadd : sectNames (addSectionIfNew acc (cleanName acc.preserve s0)).sections =
              sectNames acc.sections ++ [cleanName acc.preserve s0] := by
            rw [addSectionIfNew, if_neg hdef]
            simp [sectNames]
          push_neg at hdef
          apply ih h
          · intro n hn
            rw [hn2, hadd] at hn
            rcases List.mem_append.mp hn with h1 | h2
            · exact List.mem_cons_of_mem _ (hsub n h1)
            · rcases List.mem_singleton.mp h2 with rfl
              exact List.mem_cons_self _ _
          · rw [hn2, hadd, List.nodup_append]
            exact ⟨hnd, List.nodup_singleton _,
              by simpa [List.disjoint_singleton] using hdef.2⟩

/-- C5 (amended): `list_profiles()` lists, in file order and exactly once,
the normalized names of the section headers — except the DEFAULT
pseudo-section: raw `[DEFAULT]` headers are swallowed by the underlying
parser's default store, and (in preserve-case mode) headers trimming to
`DEFAULT` are silently folded into the cleaned parser's default store. -/
theorem C5_list_profiles_behaviour (pc : Bool) (lines : List String) (st : Cleaned)
    (h : load_config pc lines = .ok st) :
    list_profiles st =
      (((((preprocessLines lines).filterMap headerOf).filter
        (fun hd => (hd ≠ "DEFAULT" : Bool))).map (cleanName pc)).filter
        (fun c => (c ≠ "DEFAULT" : Bool))) ∧
    (list_profiles st).Nodup := by
  rw [load_config] at h
  split at h
  · exact absurd h (by simp)
  · rename_i raw hr
    rw [cleanPass] at h
    have hnames := cleanSections_names h (by simp [sectNames])
    have hnd := cleanSections_names_nodup h (by simp [sectNames]) (by simp [sectNames])
    constructor
    · show sectNames st.sections = _
      rw [hnames]
      have hmapeq : raw.sections.map
          (fun p => cleanName (Cleaned.mk pc [] []).preserve p.1) =
          (sectNames raw.sections).map (cleanName pc) := by
        rw [sectNames, List.map_map]
        rfl
      rw [hmapeq, readString_sectNames hr]
      simp [sectNames]
    · exact hnd

/-- Witness for C5 at a file with a `[DEFAULT]` header between sections. -/
theorem C5_list_profiles_behaviour_witness :
    list_profiles ⟨false, [], [("p", []), ("q", [])]⟩ =
      (((((preprocessLines ["[P]", "[DEFAULT]", "[q]"]).filterMap headerOf).filter
        (fun hd => (hd ≠ "DEFAULT" : Bool))).map (cleanName false)).filter
        (fun c => (c ≠ "DEFAULT" : Bool))) ∧
    (list_profiles ⟨false, [], [("p", []), ("q", [])]⟩).Nodup :=
  C5_list_profiles_behaviour false (["[P]", "[DEFAULT]", "[q]"])
    ⟨false, [], [("p", []), ("q", [])]⟩ (by decide)

/-- C9: the DEFAULT pseudo-section is always a member for the accessors —
`get_profile("DEFAULT")` and `get_value("DEFAULT", k)` can never fail with
the profile-not-found error, returning the (normally empty) default store
instead — even though `DEFAULT` never appears in `list_profiles()`. -/
theorem C9_default_pseudo_profile (pc : Bool) (lines : List String) (st : Cleaned)
    (h : load_config pc lines = .ok st) :
    ("DEFAULT" ∉ list_profiles st) ∧
    (∀ n, get_profile st ("DEFAULT") ≠ .error (.profileNotFound n)) ∧
    (∀ k n, get_value st ("DEFAULT") k ≠ .error (.profileNotFound n)) ∧
    (st.defaults = [] → get_profile st ("DEFAULT") = .ok []) := by
  have hps : pyStrip ("DEFAULT") = "DEFAULT" := by decide
  have hcp : containsProfile st ("DEFAULT") = true := by
    rw [containsProfile]
    simp
  refine ⟨?_, ?_, ?_, ?_⟩
  · intro hmem
    rw [(C5_list_profiles_behaviour pc lines st h).1] at hmem
    have := List.of_mem_filter hmem
    simp at this
  · intro n
    rw [get_profile, hps, if_pos hcp]
    rcases itemsInterp st ("DEFAULT") with e | d <;> simp [Except.mapError]
  · intro k n
    rw [get_value, hps, if_pos hcp]
    rcases alookup (rawItems st ("DEFAULT")) (st.xf (pyStrip k)) with _ | v
    · simp
    · rcases hi : interpValue st.xf (rawItems st ("DEFAULT")) v with e | v2 <;>
        simp [Except.mapError, hi]
  · intro hdef
    rw [get_profile, hps, if_pos hcp, itemsInterp, rawItems, if_pos rfl, hdef]
    rfl

/-- Witness for C9 at a one-section file. -/
theorem C9_default_pseudo_profile_witness :
    ("DEFAULT" ∉ list_profiles ⟨false, [], [("p", [("k", "v")])]⟩) ∧
    (∀ n, get_profile ⟨false, [], [("p", [("k", "v")])]⟩ ("DEFAULT") ≠
      .error (.profileNotFound n)) ∧
    (∀ k n, get_value ⟨false, [], [("p", [("k", "v")])]⟩ ("DEFAULT") k ≠
      .error (.profileNotFound n)) ∧
    ((⟨false, [], [("p", [("k", "v")])]⟩ : Cleaned).defaults = [] →
      get_profile ⟨false, [], [("p", [("k", "v")])]⟩ ("DEFAULT") = .ok []) :=
  C9_default_pseudo_profile false (["[p]", "k = v"]) ⟨false, [], [("p", [("k", "v")])]⟩
    (by decide)

/-- C7 (amended): `get_value` trims both arguments; a missing profile gives
the profile-not-found error, an existing profile with a missing key gives
the key-not-found error naming key and profile; when both exist the stored
value is returned through `BasicInterpolation`, hence verbatim exactly when
it contains no `%`. -/
theorem C7_get_value_behaviour (pc : Bool) (lines : List String) (st : Cleaned)
    (h : load_config pc lines = .ok st) (p k : String) :
    (containsProfile st (pyStrip p) = false →
      get_value st p k = .error (.profileNotFound (pyStrip p))) ∧
    (containsProfile st (pyStrip p) = true →
      alookup (rawItems st (pyStrip p)) (st.xf (pyStrip k)) = none →
      get_value st p k = .error (.keyNotFound (pyStrip k) (pyStrip p))) ∧
    (∀ v, containsProfile st (pyStrip p) = true →
      alookup (rawItems st (pyStrip p)) (st.xf (pyStrip k)) = some v →
      (∀ c ∈ v.data, c ≠ '%') →
      get_value st p k = .ok v) := by
  refine ⟨?_, ?_, ?_⟩
  · intro hcp
    rw [get_value, if_neg (by rw [hcp]; exact Bool.false_ne_true)]
  · intro hcp hlk
    rw [get_value, if_pos hcp, hlk]
  · intro v hcp hlk hnp
    rw [get_value, if_pos hcp, hlk]
    show (interpValue st.xf (rawItems st (pyStrip p)) v).mapError GetErr.interp = .ok v
    rw [interpValue_noPercent hnp]
    rfl

/-- Witness for C7: both arguments are trimmed and the value comes back. -/
theorem C7_get_value_behaviour_witness :
    get_value ⟨false, [], [("p", [("k", "v")])]⟩ (" p ") (" k ") = .ok ("v") :=
  (C7_get_value_behaviour false (["[p]", "k = v"]) ⟨false, [], [("p", [("k", "v")])]⟩
    (by decide) (" p ") (" k ")).2.2 ("v") (by decide) (by decide) (by decide)

/-! ### Case handling of keys -/

def keysXform (pc : Bool) (st : Cleaned) : Prop :=
  (∀ kv ∈ st.defaults, xform pc kv.1 = kv.1) ∧
    ∀ p ∈ st.sections, ∀ kv ∈ p.2, xform pc kv.1 = kv.1

theorem setCleaned_keysXform {pc : Bool} {acc acc' : Cleaned} {sect key val : String}
    (h : setCleaned acc sect key val = .ok acc') (hinv : keysXform pc acc)
    (hp : acc.preserve = pc) : keysXform pc acc' := by
  rw [setCleaned] at h
  split at h
  · exact absurd h (by simp)
  · split at h <;> injection h with h2 <;> rw [← h2]
    · refine ⟨?_, hinv.2⟩
      intro kv hkv
      rcases aset_mem hkv with rfl | hold
      · rw [hp]
        exact xform_idem pc key
      · exact hinv.1 kv hold
    · refine ⟨hinv.1, ?_⟩
      intro q hq kv hkv
      rcases asetSection_mem hq with ⟨q0, hq0, _, hd⟩
      rcases hd with hsame | hset2
      · rw [hsame] at hkv
        exact hinv.2 q0 hq0 kv hkv
      · rw [hset2] at hkv
        rcases aset_mem hkv with rfl | hold
        · rw [hp]
          exact xform_idem pc key
        · exact hinv.2 q0 hq0 kv hold

theorem cleanItems_keysXform {pc : Bool} {sect : String} {acc acc' : Cleaned}
    {ks : List String} {items : List (String × String)}
    (h : cleanItems sect acc ks items = .ok acc') (hinv : keysXform pc acc)
    (hp : acc.preserve = pc) : keysXform pc acc' := by
  induction items generalizing acc ks with
  | nil =>
    rw [cleanItems] at h
    injection h with h2
    rw [← h2]
    exact hinv
  | cons kv rest ih =>
    rcases kv with ⟨k0, v0⟩
    rw [cleanItems] at h
    split at h
    · exact absurd h (by simp)
    · split at h
      · exact absurd h (by simp)
      · rename_i acc1 hset
        exact ih h (setCleaned_keysXform hset hinv hp)
          ((setCleaned_fields hset).1.trans hp)

theorem addSectionIfNew_keysXform {pc : Bool} {acc : Cleaned} {c : String}
    (hinv : keysXform pc acc) : keysXform pc (addSectionIfNew acc c) := by
  rw [addSectionIfNew]
  split
  · exact hinv
  · refine ⟨hinv.1, ?_⟩
    intro p hp kv hkv
    rcases List.mem_append.mp hp with h1 | h2
    · exact hinv.2 p h1 kv hkv
    · rcases List.mem_singleton.mp h2 with rfl
      exact absurd hkv (List.not_mem_nil kv)

theorem cleanSections_keysXform {pc : Bool} {defaults : ADict} {seen : List String}
    {acc st : Cleaned} {secs : List (String × ADict)}
    (h : cleanSections defaults seen acc secs = .ok st) (hinv : keysXform pc acc)
    (hp : acc.preserve = pc) : keysXform pc st := by
  induction secs generalizing seen acc with
  | nil =>
    rw [cleanSections] at h
    injection h with h2
    rw [← h2]
    exact hinv
  | cons q rest ih =>
    rcases q with ⟨s0, items⟩
    rw [cleanSections] at h
    split at h
    · exact absurd h (by simp)
    · split at h
      · exact absurd h (by simp)
      · rename_i acc2 hclean
        have hp1 : (addSectionIfNew acc (cleanName acc.preserve s0)).preserve = pc := by
          rw [addSectionIfNew_preserve]
          exact hp
        exact ih h (cleanItems_keysXform hclean (addSectionIfNew_keysXform hinv) hp1)
          ((cleanItems_fields hclean).1.trans hp1)

theorem load_config_keysXform {pc : Bool} {lines : List String} {st : Cleaned}
    (h : load_config pc lines = .ok st) : keysXform pc st := by
  rw [load_config] at h
  split at h
  · exact absurd h (by simp)
  · rename_i raw hr
    rw [cleanPass] at h
    exact cleanSections_keysXform h ⟨by simp, by simp⟩ rfl

/-- The configuration file of the repository's test fixture
(tests/conftest.py). -/
def fixtureLines : List String :=
  ["", "[profile1]", "key1 = value1", "key2 = value2", "",
   "[profile2]", "keyA = valueA", "keyB = valueB", "",
   "; This is a comment", "# This is another comment", "",
   "[profile3]", "keyX = valueX", "keyY = valueY", ""]

/-- C8: under the default case mode every key name in `get_config()` is
lowercased while values keep their original casing (the fixture's `keyA =
valueA` is stored as `keya: valueA`); with `preserve_case=true` key names
keep their casing; values are never case-transformed — every stored
percent-free value is returned verbatim. -/
theorem C8_key_case_behaviour :
    ((load_config false fixtureLines).map get_config =
      .ok (.ok [("profile1", [("key1", "value1"), ("key2", "value2")]),
                ("profile2", [("keya", "valueA"), ("keyb", "valueB")]),
                ("profile3", [("keyx", "valueX"), ("keyy", "valueY")])])) ∧
    ((load_config true fixtureLines).map get_config =
      .ok (.ok [("profile1", [("key1", "value1"), ("key2", "value2")]),
                ("profile2", [("keyA", "valueA"), ("keyB", "valueB")]),
                ("profile3", [("keyX", "valueX"), ("keyY", "valueY")])])) ∧
    (∀ (lines : List String) (st : Cleaned), load_config false lines = .ok st →
      (∀ kv ∈ st.defaults, pyLower kv.1 = kv.1) ∧
      ∀ p ∈ st.sections, ∀ kv ∈ p.2, pyLower kv.1 = kv.1) ∧
    (∀ (pc : Bool) (lines : List String) (st : Cleaned) (s : String),
      load_config pc lines = .ok st →
      (∀ kv ∈ rawItems st s, ∀ c ∈ kv.2.data, c ≠ '%') →
      itemsInterp st s = .ok (rawItems st s)) := by
  refine ⟨by decide, by decide, ?_, ?_⟩
  · intro lines st h
    have hx := load_config_keysXform h
    exact ⟨fun kv hkv => hx.1 kv hkv, fun p hp kv hkv => hx.2 p hp kv hkv⟩
  · intro pc lines st s h hnp
    exact itemsInterp_noPercent hnp

/-- Witness for C8's universally quantified parts at a mixed-case file. -/
theorem C8_key_case_behaviour_witness :
    ((∀ kv ∈ (Cleaned.mk false [] [("p", [("ka", "Va")])]).defaults, pyLower kv.1 = kv.1) ∧
      ∀ p ∈ (Cleaned.mk false [] [("p", [("ka", "Va")])]).sections,
        ∀ kv ∈ p.2, pyLower kv.1 = kv.1) ∧
    itemsInterp ⟨false, [], [("p", [("ka", "Va")])]⟩ ("p") =
      .ok (rawItems ⟨false, [], [("p", [("ka", "Va")])]⟩ ("p")) :=
  ⟨C8_key_case_behaviour.2.2.1 (["[P]", "kA = Va"]) ⟨false, [], [("p", [("ka", "Va")])]⟩
      (by decide),
    C8_key_case_behaviour.2.2.2 false (["[P]", "kA = Va"])
      ⟨false, [], [("p", [("ka", "Va")])]⟩ ("p") (by decide) (by decide)⟩

/-! ### Round-tripping `display_config` output through the pipeline (C4).
The joined display text is stripped, split back into lines and preprocessed;
the following develops joining/splitting of newline-free lines and the effect
of the outer `strip` at the character level. -/

def joinNLc : List (List Char) → List Char
  | [] => []
  | [l] => l
  | l :: rest => l ++ '\n' :: joinNLc rest

theorem joinNL_data (L : List String) :
    (joinNL L).data = joinNLc (L.map String.data) := by
  induction L with
  | nil => rfl
  | cons l rest ih =>
    rcases rest with _ | ⟨r, rs⟩
    · rfl
    · show (l ++ "\n" ++ joinNL (r :: rs)).data =
        l.data ++ '\n' :: joinNLc ((r :: rs).map String.data)
      rw [String.data_append, String.data_append, List.append_assoc, ih]
      rfl

theorem splitNLc_no_nl {cs : List Char} (h : ∀ c ∈ cs, c ≠ '\n') :
    splitNLc cs = [cs] := by
  induction cs with
  | nil => rfl
  | cons c t ih =>
    rw [splitNLc, if_neg (h c (List.mem_cons_self c t)),
      ih (fun x hx => h x (List.mem_cons_of_mem c hx))]

theorem splitNLc_append {cs ds : List Char} (h : ∀ c ∈ cs, c ≠ '\n') :
    splitNLc (cs ++ '\n' :: ds) = cs :: splitNLc ds := by
  induction cs with
  | nil =>
    show splitNLc ('\n' :: ds) = [] :: splitNLc ds
    rw [splitNLc, if_pos rfl]
  | cons c t ih =>
    rw [List.cons_append, splitNLc, if_neg (h c (List.mem_cons_self c t)),
      ih (fun x hx => h x (List.mem_cons_of_mem c hx))]

theorem splitNLc_join (Ls : List (List Char)) (hne : Ls ≠ [])
    (hnl : ∀ l ∈ Ls, ∀ c ∈ l, c ≠ '\n') :
    splitNLc (joinNLc Ls) = Ls := by
  induction Ls with
  | nil => exact absurd rfl hne
  | cons l rest ih =>
    rcases rest with _ | ⟨r, rs⟩
    · show splitNLc l = [l]
      exact splitNLc_no_nl (hnl l (List.mem_cons_self l []))
    · show splitNLc (l ++ '\n' :: joinNLc (r :: rs)) = l :: (r :: rs)
      rw [splitNLc_append (hnl l (List.mem_cons_self _ _)),
        ih (by simp) (fun x hx => hnl x (List.mem_cons_of_mem l hx))]

/-- The effect of the right half of the final `strip` on a line list: trailing
all-whitespace lines disappear and the last surviving line is right-trimmed. -/
def rstripLinesC : List (List Char) → List (List Char)
  | [] => []
  | cs :: rest =>
    match rstripLinesC rest with
    | [] => if trimRightC cs = [] then [] else [trimRightC cs]
    | r :: rs => cs :: r :: rs

theorem trimRightC_eq_nil_iff {cs : List Char} :
    trimRightC cs = [] ↔ ∀ c ∈ cs, isPyWS c = true := by
  rw [trimRight_rev, List.reverse_eq_nil_iff, List.dropWhile_eq_nil_iff]
  constructor
  · intro h c hc
    exact h c (List.mem_reverse.mpr hc)
  · intro h c hc
    exact h c (List.mem_reverse.mp hc)

theorem trimRightC_append_ws {cs w : List Char} (h : ∀ c ∈ w, isPyWS c = true) :
    trimRightC (cs ++ w) = trimRightC cs := by
  rw [trimRight_rev, trimRight_rev, List.reverse_append,
    dropWhile_all_append (fun c hc => h c (List.mem_reverse.mp hc))]

theorem trimRightC_append_full {cs ds : List Char} (h : trimRightC ds ≠ []) :
    trimRightC (cs ++ ds) = cs ++ trimRightC ds := by
  have hne : ds.reverse.dropWhile isPyWS ≠ [] := by
    intro hx
    apply h
    rw [trimRight_rev, hx]
    rfl
  rw [trimRight_rev, List.reverse_append, dropWhile_append_of_ne_nil hne,
    List.reverse_append, List.reverse_reverse, ← trimRight_rev]

theorem rstrip_singleton {Ls : List (List Char)} {r : List Char}
    (h : rstripLinesC Ls = [r]) : r ≠ [] := by
  cases Ls with
  | nil => exact absurd h (by simp [rstripLinesC])
  | cons cs rest =>
    rw [rstripLinesC] at h
    split at h
    · split at h
      · exact absurd h (by simp)
      · rename_i hne
        injection h with h1
        rw [← h1]
        exact hne
    · injection h with h1 h2
      exact absurd h2 (by simp)

theorem joinNLc_cons_ne {Ls : List (List Char)} {q : List Char}
    {qs : List (List Char)} (h : rstripLinesC Ls = q :: qs) :
    joinNLc (q :: qs) ≠ [] := by
  cases qs with
  | nil =>
    show q ≠ []
    exact rstrip_singleton h
  | cons q2 qs2 =>
    show q ++ '\n' :: joinNLc (q2 :: qs2) ≠ []
    simp

theorem rstrip_join (Ls : List (List Char)) :
    joinNLc (rstripLinesC Ls) = trimRightC (joinNLc Ls) := by
  induction Ls with
  | nil => rfl
  | cons cs rest ih =>
    rcases rest with _ | ⟨r0, rest2⟩
    · by_cases h0 : trimRightC cs = []
      · show joinNLc (rstripLinesC [cs]) = trimRightC cs
        simp [rstripLinesC, joinNLc, h0]
      · show joinNLc (rstripLinesC [cs]) = trimRightC cs
        simp [rstripLinesC, joinNLc, h0]
    · rcases hr : rstripLinesC (r0 :: rest2) with _ | ⟨q, qs⟩
      · rw [hr] at ih
        have hall : ∀ c ∈ '\n' :: joinNLc (r0 :: rest2), isPyWS c = true := by
          intro c hc
          rcases List.mem_cons.mp hc with rfl | hc2
          · rfl
          · exact trimRightC_eq_nil_iff.mp ih.symm c hc2
        have hrhs : trimRightC (joinNLc (cs :: r0 :: rest2)) = trimRightC cs := by
          show trimRightC (cs ++ '\n' :: joinNLc (r0 :: rest2)) = trimRightC cs
          exact trimRightC_append_ws hall
        rw [hrhs, rstripLinesC, hr]
        by_cases h0 : trimRightC cs = []
        · simp [joinNLc, h0]
        · simp [joinNLc, h0]
      · rw [hr] at ih
        have hne : trimRightC (joinNLc (r0 :: rest2)) ≠ [] := by
          rw [← ih]
          exact joinNLc_cons_ne hr
        have hlhs : joinNLc (rstripLinesC (cs :: r0 :: rest2)) =
            cs ++ '\n' :: joinNLc (q :: qs) := by
          rw [rstripLinesC, hr]
          rfl
        rw [hlhs, ih]
        show cs ++ '\n' :: trimRightC (joinNLc (r0 :: rest2)) =
          trimRightC (cs ++ '\n' :: joinNLc (r0 :: rest2))
        rw [List.append_cons cs '\n' (joinNLc (r0 :: rest2)),
          trimRightC_append_full hne, List.append_assoc]
        rfl

theorem rstrip_nil_ws {Ls : List (List Char)} (h : rstripLinesC Ls = []) :
    ∀ l ∈ Ls, ∀ c ∈ l, isPyWS c = true := by
  induction Ls with
  | nil => simp
  | cons cs rest ih =>
    rw [rstripLinesC] at h
    split at h
    · rename_i hr
      split at h
      · rename_i h0
        intro l hl
        rcases List.mem_cons.mp hl with rfl | hl2
        · exact trimRightC_eq_nil_iff.mp h0
        · exact ih hr l hl2
      · exact absurd h (by simp)
    · exact absurd h (by simp)

theorem rstrip_mem {Ls : List (List Char)} {l : List Char}
    (h : l ∈ rstripLinesC Ls) : l ∈ Ls ∨ ∃ l0 ∈ Ls, l = trimRightC l0 := by
  induction Ls with
  | nil => exact absurd h (by simp [rstripLinesC])
  | cons cs rest ih =>
    rw [rstripLinesC] at h
    split at h
    · split at h
      · exact absurd h (by simp)
      · right
        exact ⟨cs, List.mem_cons_self _ _, by simpa using h⟩
    · rename_i q qs hr
      rcases List.mem_cons.mp h with rfl | h2
      · left
        exact List.mem_cons_self _ _
      · rw [← hr] at h2
        rcases ih h2 with h3 | ⟨l0, hl0, he⟩
        · left
          exact List.mem_cons_of_mem _ h3
        · right
          exact ⟨l0, List.mem_cons_of_mem _ hl0, he⟩

theorem rstrip_cons_head {cs : List Char} (rest : List (List Char))
    (h0 : trimRightC cs ≠ []) :
    ∃ r rs, rstripLinesC (cs :: rest) = r :: rs ∧ r.head? = cs.head? ∧ r ≠ [] := by
  rw [rstripLinesC]
  rcases hr : rstripLinesC rest with _ | ⟨q, qs⟩
  · refine ⟨trimRightC cs, [], ?_, ?_, h0⟩
    · rw [if_neg h0]
    · rcases trimRightC_decomp cs with ⟨w, hw, _⟩
      rcases ht : trimRightC cs with _ | ⟨a, t⟩
      · exact absurd ht h0
      · have hcs : cs = (a :: t) ++ w := by
          rw [← ht]
          exact hw
        rw [hcs]
        rfl
  · refine ⟨cs, q :: qs, rfl, rfl, ?_⟩
    intro hx
    apply h0
    subst hx
    rfl

theorem strMk_data (s : String) : (⟨s.data⟩ : String) = s := rfl

theorem trimC_append_ws_right {cs w : List Char} (h : ∀ c ∈ w, isPyWS c = true) :
    trimC (cs ++ w) = trimC cs := by
  show trimLeftC (trimRightC (cs ++ w)) = trimC cs
  rw [trimRightC_append_ws h]
  rfl

theorem trimC_append_ws_left {w cs : List Char} (h : ∀ c ∈ w, isPyWS c = true) :
    trimC (w ++ cs) = trimC cs := by
  by_cases h0 : trimRightC cs = []
  · have hcs : ∀ c ∈ cs, isPyWS c = true := trimRightC_eq_nil_iff.mp h0
    rw [trimC_all_ws hcs, trimC_all_ws (fun c hc => by
      rcases List.mem_append.mp hc with h1 | h2
      · exact h c h1
      · exact hcs c h2)]
  · show trimLeftC (trimRightC (w ++ cs)) = trimC cs
    rw [trimRightC_append_full h0, trimLeftC, dropWhile_all_append h]
    rfl

theorem cutAtC_append_cases (m : Char) (cs w : List Char) :
    cutAtC m (cs ++ w) = cutAtC m cs ∨
      (cutAtC m cs = cs ∧ cutAtC m (cs ++ w) = cs ++ cutAtC m w) := by
  induction cs with
  | nil => exact Or.inr ⟨rfl, rfl⟩
  | cons c t ih =>
    by_cases hc : c = m
    · left
      subst hc
      show ((c :: t) ++ w).takeWhile (fun x => (x ≠ c : Bool)) =
        (c :: t).takeWhile (fun x => (x ≠ c : Bool))
      rw [List.cons_append, List.takeWhile_cons, List.takeWhile_cons]
      simp
    · have hstep : ∀ ds, cutAtC m (c :: ds) = c :: cutAtC m ds := by
        intro ds
        rw [cutAtC, List.takeWhile_cons, if_pos (by simpa using hc)]
        rfl
      rcases ih with h | ⟨h1, h2⟩
      · left
        rw [show (c :: t) ++ w = c :: (t ++ w) from rfl, hstep (t ++ w), hstep t, h]
      · right
        constructor
        · rw [hstep t, h1]
        · rw [show (c :: t) ++ w = c :: (t ++ w) from rfl, hstep (t ++ w), h2]
          rfl

theorem preprocessLine_data_congr {s t : String}
    (h : trimC (cutAtC '#' (cutAtC ';' s.data)) =
      trimC (cutAtC '#' (cutAtC ';' t.data))) :
    preprocessLine s = preprocessLine t := by
  simp only [preprocessLine, h]

theorem preprocessLine_wsL {w cs : List Char} (h : ∀ c ∈ w, isPyWS c = true) :
    preprocessLine ⟨w ++ cs⟩ = preprocessLine ⟨cs⟩ := by
  apply preprocessLine_data_congr
  show trimC (cutAtC '#' (cutAtC ';' (w ++ cs))) = trimC (cutAtC '#' (cutAtC ';' cs))
  have h1 : cutAtC ';' (w ++ cs) = w ++ cutAtC ';' cs := by
    rw [cutAtC, cutAtC, takeWhile_append_all (fun c hc => by
      simpa using (isPyWS_ne_marks (h c hc)).1)]
  have h2 : cutAtC '#' (w ++ cutAtC ';' cs) = w ++ cutAtC '#' (cutAtC ';' cs) := by
    rw [cutAtC, cutAtC, takeWhile_append_all (fun c hc => by
      simpa using (isPyWS_ne_marks (h c hc)).2.1)]
    rfl
  rw [h1, h2, trimC_append_ws_left h]

theorem preprocessLine_wsR {cs w : List Char} (h : ∀ c ∈ w, isPyWS c = true) :
    preprocessLine ⟨cs ++ w⟩ = preprocessLine ⟨cs⟩ := by
  apply preprocessLine_data_congr
  show trimC (cutAtC '#' (cutAtC ';' (cs ++ w))) = trimC (cutAtC '#' (cutAtC ';' cs))
  have hw1 : cutAtC ';' w = w := by
    rw [cutAtC]
    exact takeWhile_all (fun c hc => by simpa using (isPyWS_ne_marks (h c hc)).1)
  have hw2 : cutAtC '#' w = w := by
    rw [cutAtC]
    exact takeWhile_all (fun c hc => by simpa using (isPyWS_ne_marks (h c hc)).2.1)
  rcases cutAtC_append_cases ';' cs w with h1 | ⟨h1, h1b⟩
  · rw [h1]
  · rw [h1b, hw1, h1]
    rcases cutAtC_append_cases '#' cs w with h2 | ⟨h2, h2b⟩
    · rw [h2]
    · rw [h2b, hw2, h2, trimC_append_ws_right h]

def ppLineC (cs : List Char) : Option String := preprocessLine ⟨cs⟩

theorem ppLineC_all_ws {cs : List Char} (h : ∀ c ∈ cs, isPyWS c = true) :
    ppLineC cs = none :=
  preprocessLine_comment_blank ⟨cs⟩ (Or.inl (strEq_of_data (trimC_all_ws h)))

theorem ppLineC_trimRight (cs : List Char) : ppLineC (trimRightC cs) = ppLineC cs := by
  rcases trimRightC_decomp cs with ⟨w, hw, hws⟩
  show preprocessLine ⟨trimRightC cs⟩ = preprocessLine ⟨cs⟩
  conv_rhs => rw [hw]
  exact (preprocessLine_wsR hws).symm

theorem rstrip_filterMap (Ls : List (List Char)) :
    (rstripLinesC Ls).filterMap ppLineC = Ls.filterMap ppLineC := by
  induction Ls with
  | nil => rfl
  | cons cs rest ih =>
    rcases hr : rstripLinesC rest with _ | ⟨q, qs⟩
    · have hrest : rest.filterMap ppLineC = [] := by
        rw [List.filterMap_eq_nil_iff]
        intro l hl
        exact ppLineC_all_ws (rstrip_nil_ws hr l hl)
      have hlhs : rstripLinesC (cs :: rest) =
          if trimRightC cs = [] then [] else [trimRightC cs] := by
        rw [rstripLinesC, hr]
      rw [hlhs, List.filterMap_cons, hrest]
      by_cases h0 : trimRightC cs = []
      · rw [if_pos h0, ppLineC_all_ws (trimRightC_eq_nil_iff.mp h0)]
        rfl
      · rw [if_neg h0, List.filterMap_cons, ppLineC_trimRight cs]
        rfl
    · have hlhs : rstripLinesC (cs :: rest) = cs :: q :: qs := by
        rw [rstripLinesC, hr]
      rw [hlhs, ← hr, List.filterMap_cons, List.filterMap_cons, ih]

/-- Stripping the newline-joined text, re-splitting it and preprocessing the
pieces is the same as preprocessing the original lines, provided the lines are
newline-free and the first line starts with a non-whitespace character. -/
theorem preprocess_strip_join (l0 : String) (rest : List String)
    (hnl : ∀ l ∈ l0 :: rest, ∀ c ∈ l.data, c ≠ '\n')
    (h0 : trimRightC l0.data ≠ [])
    (hh : ∀ c, l0.data.head? = some c → isPyWS c = false) :
    preprocessLines (splitLines (pyStrip (joinNL (l0 :: rest)))) =
      preprocessLines (l0 :: rest) := by
  rcases @rstrip_cons_head l0.data (rest.map String.data) h0 with
    ⟨r, rs, hr, hrh, hrne⟩
  have hdata : (pyStrip (joinNL (l0 :: rest))).data =
      joinNLc (rstripLinesC (l0.data :: rest.map String.data)) := by
    show trimC (joinNL (l0 :: rest)).data = _
    rw [joinNL_data]
    show trimLeftC (trimRightC (joinNLc ((l0 :: rest).map String.data))) = _
    rw [← rstrip_join]
    show trimLeftC (joinNLc (rstripLinesC (l0.data :: rest.map String.data))) = _
    rw [hr]
    apply dropWhile_eq_self_of_head
    intro c hc
    have hjh : (joinNLc (r :: rs)).head? = r.head? := by
      cases rs with
      | nil => rfl
      | cons r2 rs2 =>
        show (r ++ '\n' :: joinNLc (r2 :: rs2)).head? = r.head?
        rcases r with _ | ⟨a, t⟩
        · exact absurd rfl hrne
        · rfl
    rw [hjh, hrh] at hc
    exact hh c hc
  have hnl2 : ∀ l ∈ l0.data :: rest.map String.data, ∀ c ∈ l, c ≠ '\n' := by
    intro l hl
    rcases List.mem_cons.mp hl with rfl | hl2
    · exact hnl l0 (List.mem_cons_self _ _)
    · rcases List.mem_map.mp hl2 with ⟨s, hs, rfl⟩
      exact hnl s (List.mem_cons_of_mem _ hs)
  have hlines : ∀ l ∈ rstripLinesC (l0.data :: rest.map String.data),
      ∀ c ∈ l, c ≠ '\n' := by
    intro l hl c hc
    rcases rstrip_mem hl with hm | ⟨l2, hl2, rfl⟩
    · exact hnl2 l hm c hc
    · rcases trimRightC_decomp l2 with ⟨w, hw, _⟩
      exact hnl2 l2 hl2 c (by rw [hw]; exact List.mem_append_left w hc)
  have hsplit : splitNLc (pyStrip (joinNL (l0 :: rest))).data =
      rstripLinesC (l0.data :: rest.map String.data) := by
    rw [hdata, hr]
    exact splitNLc_join (r :: rs) (by simp) (by rw [← hr]; exact hlines)
  show (splitLines (pyStrip (joinNL (l0 :: rest)))).filterMap preprocessLine =
    preprocessLines (l0 :: rest)
  rw [splitLines, hsplit, List.filterMap_map]
  have hcomp : (rstripLinesC (l0.data :: rest.map String.data)).filterMap
      (preprocessLine ∘ fun cs => (⟨cs⟩ : String)) =
      (rstripLinesC (l0.data :: rest.map String.data)).filterMap ppLineC := rfl
  rw [hcomp, rstrip_filterMap]
  show ((l0 :: rest).map String.data).filterMap ppLineC = _
  rw [List.filterMap_map]
  rfl

/-! ### The lines `display_config` renders, and how they classify on reparse -/

/-- The value part of a rendered `key = value` line after trimming: the
separator space survives only in front of a nonempty value. -/
def elineTailC (v : String) : List Char := if v.data.isEmpty then [] else ' ' :: v.data

/-- A rendered assignment line after preprocessing. -/
def elineC (k v : String) : List Char := k.data ++ ' ' :: '=' :: elineTailC v

/-- Characters that survive comment-cutting and keep a line intact. -/
def goodChar (c : Char) : Prop := c ≠ ';' ∧ c ≠ '#' ∧ c ≠ '\n'

/-- A stored key starting with `[` must be bracket-safe for its rendered line
to stay a non-header on reparse; parsed entries satisfy this because their
source line was itself rejected by the section-header regex. -/
def kvOK (k v : String) : Prop :=
  k.data.head? = some '[' →
    (∀ c ∈ v.data, c ≠ ']') ∧ ∀ c ∈ k.data.drop 2, c ≠ ']'

/-- Well-formedness of a stored pair reachable through a successful load. -/
def goodKV (kv : String × String) : Prop :=
  kv.1 ≠ "" ∧ pyStrip kv.1 = kv.1 ∧
    (∀ c ∈ kv.1.data, goodChar c ∧ c ≠ '=' ∧ c ≠ ':') ∧
    pyStrip kv.2 = kv.2 ∧ (∀ c ∈ kv.2.data, goodChar c) ∧ kvOK kv.1 kv.2

theorem lowerChar_ne_mark {c mark : Char} (h1 : mark.toNat < 65 ∨ 90 < mark.toNat)
    (h2 : mark.toNat < 97 ∨ 122 < mark.toNat) (h : c ≠ mark) : lowerChar c ≠ mark :=
  fun he => h ((lowerChar_eq_mark_iff h1 h2).mp he)

theorem goodChar_lowerChar {c : Char} (h : goodChar c) : goodChar (lowerChar c) :=
  ⟨lowerChar_ne_mark (by decide) (by decide) h.1,
   lowerChar_ne_mark (by decide) (by decide) h.2.1,
   lowerChar_ne_mark (by decide) (by decide) h.2.2⟩

theorem mem_xform_data {pc : Bool} {s : String} {x : Char}
    (h : x ∈ (xform pc s).data) : ∃ y ∈ s.data, x = y ∨ x = lowerChar y := by
  cases pc with
  | true => exact ⟨x, h, Or.inl rfl⟩
  | false =>
    rcases List.mem_map.mp h with ⟨y, hy, rfl⟩
    exact ⟨y, hy, Or.inr rfl⟩

theorem xform_ne_empty {pc : Bool} {s : String} (h : s ≠ "") : xform pc s ≠ "" := by
  rw [str_ne_empty_iff] at h ⊢
  cases pc with
  | true => exact h
  | false =>
    show s.data.map lowerChar ≠ []
    simpa using h

theorem mem_elineTailC {v : String} {x : Char} (h : x ∈ elineTailC v) :
    x = ' ' ∨ x ∈ v.data := by
  rw [elineTailC] at h
  split at h
  · exact absurd h (by simp)
  · rcases List.mem_cons.mp h with rfl | h2
    · exact Or.inl rfl
    · exact Or.inr h2

theorem mem_elineC {k v : String} {x : Char} (h : x ∈ elineC k v) :
    x ∈ k.data ∨ x = ' ' ∨ x = '=' ∨ x ∈ v.data := by
  rw [elineC] at h
  rcases List.mem_append.mp h with h1 | h2
  · exact Or.inl h1
  · rcases List.mem_cons.mp h2 with rfl | h3
    · exact Or.inr (Or.inl rfl)
    · rcases List.mem_cons.mp h3 with rfl | h4
      · exact Or.inr (Or.inr (Or.inl rfl))
      · rcases mem_elineTailC h4 with rfl | h5
        · exact Or.inr (Or.inl rfl)
        · exact Or.inr (Or.inr (Or.inr h5))

theorem trimFix_data {s : String} (h : pyStrip s = s) : trimC s.data = s.data :=
  congrArg String.data h

theorem trimFix_noTrail {s : String} (h : pyStrip s = s) : noTrailWS s.data := by
  have := trimC_noTrail s.data
  rw [trimFix_data h] at this
  exact this

theorem preprocessLine_header {s : String} (hs : s ≠ "")
    (hgood : ∀ c ∈ s.data, goodChar c) :
    preprocessLine ("[" ++ s ++ "]") = some ("[" ++ s ++ "]") := by
  have hdata : ("[" ++ s ++ "]").data = '[' :: (s.data ++ [']']) := by
    rw [String.data_append, String.data_append]
    rfl
  have hall : ∀ c ∈ ("[" ++ s ++ "]").data, c ≠ ';' ∧ c ≠ '#' := by
    intro c hc
    rw [hdata] at hc
    rcases List.mem_cons.mp hc with rfl | hc2
    · exact ⟨by decide, by decide⟩
    · rcases List.mem_append.mp hc2 with h3 | h3
      · exact ⟨(hgood c h3).1, (hgood c h3).2.1⟩
      · rcases List.mem_singleton.mp h3 with rfl
        exact ⟨by decide, by decide⟩
  have hc1 : cutAtC ';' ("[" ++ s ++ "]").data = ("[" ++ s ++ "]").data := by
    rw [cutAtC]
    exact takeWhile_all (fun c hc => by simpa using (hall c hc).1)
  have hc2 : cutAtC '#' ("[" ++ s ++ "]").data = ("[" ++ s ++ "]").data := by
    rw [cutAtC]
    exact takeWhile_all (fun c hc => by simpa using (hall c hc).2)
  have htrim : trimC ("[" ++ s ++ "]").data = ("[" ++ s ++ "]").data := by
    apply trimC_eq_self_of_forms
    · intro c hc
      rw [hdata] at hc
      simp only [List.head?_cons, Option.some.injEq] at hc
      subst hc
      rfl
    · intro c hc
      rw [show ("[" ++ s ++ "]").data = ('[' :: s.data) ++ [']'] from by
        rw [hdata, ← List.cons_append]] at hc
      rw [getLast?_append_right (by simp)] at hc
      simp only [List.getLast?_singleton, Option.some.injEq] at hc
      subst hc
      rfl
  simp only [preprocessLine, hc1, hc2, htrim]
  rw [if_neg (by rw [hdata]; simp)]

theorem preprocessLine_entry {k v : String} (hk : k ≠ "")
    (hkh : ∀ c, k.data.head? = some c → isPyWS c = false)
    (hkt : pyStrip k = k) (hvt : pyStrip v = v)
    (hgk : ∀ c ∈ k.data, goodChar c) (hgv : ∀ c ∈ v.data, goodChar c) :
    preprocessLine (k ++ " = " ++ v) = some ⟨elineC k v⟩ := by
  have hdata : (k ++ " = " ++ v).data = k.data ++ ([' ', '=', ' '] ++ v.data) := by
    rw [String.data_append, String.data_append, List.append_assoc]
  have hall : ∀ c ∈ (k ++ " = " ++ v).data, c ≠ ';' ∧ c ≠ '#' := by
    intro c hc
    rw [hdata] at hc
    rcases List.mem_append.mp hc with h1 | h2
    · exact ⟨(hgk c h1).1, (hgk c h1).2.1⟩
    · rcases List.mem_append.mp h2 with h3 | h4
      · have hmid : ∀ x ∈ ([' ', '=', ' '] : List Char), x ≠ ';' ∧ x ≠ '#' := by
          decide
        exact hmid c h3
      · exact ⟨(hgv c h4).1, (hgv c h4).2.1⟩
  have hc1 : cutAtC ';' (k ++ " = " ++ v).data = (k ++ " = " ++ v).data := by
    rw [cutAtC]
    exact takeWhile_all (fun c hc => by simpa using (hall c hc).1)
  have hc2 : cutAtC '#' (k ++ " = " ++ v).data = (k ++ " = " ++ v).data := by
    rw [cutAtC]
    exact takeWhile_all (fun c hc => by simpa using (hall c hc).2)
  have hkne : k.data ≠ [] := str_ne_empty_iff.mp hk
  rcases hv : v.data with _ | ⟨v0, vt⟩
  · -- empty value: the rendered line ends in the separator space
    have htr : trimC (k ++ " = " ++ v).data = k.data ++ [' ', '='] := by
      rw [hdata, hv, List.append_nil]
      have hfull : trimRightC (k.data ++ [' ', '=', ' ']) = k.data ++ [' ', '='] := by
        rw [@trimRightC_append_full k.data [' ', '=', ' '] (by decide)]
        rfl
      show trimLeftC (trimRightC (k.data ++ [' ', '=', ' '])) = _
      rw [hfull, trimLeftC]
      apply dropWhile_eq_self_of_head
      intro c hc
      rcases hkd : k.data with _ | ⟨a, t⟩
      · exact absurd hkd hkne
      · rw [hkd] at hc
        simp only [List.cons_append, List.head?_cons, Option.some.injEq] at hc
        rw [← hc]
        exact hkh a (by rw [hkd]; rfl)
    simp only [preprocessLine, hc1, hc2, htr]
    rw [if_neg (by simp [hkne])]
    have helc : elineC k v = k.data ++ [' ', '='] := by
      rw [elineC, elineTailC, hv]
      rfl
    rw [helc]
  · -- nonempty value: trimming is the identity on the rendered line
    have htr : trimC (k ++ " = " ++ v).data = (k ++ " = " ++ v).data := by
      apply trimC_eq_self_of_forms
      · intro c hc
        rw [hdata] at hc
        rcases hkd : k.data with _ | ⟨a, t⟩
        · exact absurd hkd hkne
        · rw [hkd] at hc
          simp only [List.cons_append, List.head?_cons, Option.some.injEq] at hc
          rw [← hc]
          exact hkh a (by rw [hkd]; rfl)
      · intro c hc
        rw [hdata, getLast?_append_right (by rw [hv]; simp),
          getLast?_append_right (by rw [hv]; simp)] at hc
        exact trimFix_noTrail hvt c hc
    simp only [preprocessLine, hc1, hc2, htr]
    rw [if_neg (by simp [hkne])]
    have helc : elineC k v = (k ++ " = " ++ v).data := by
      rw [elineC, elineTailC, hv, hdata, hv]
      simp
    rw [helc]

theorem headerOf_elineC_none {k v : String} (hk : k ≠ "") (hok : kvOK k v) :
    headerOf ⟨elineC k v⟩ = none := by
  rcases hd : k.data with _ | ⟨c0, kt⟩
  · exact absurd (str_ne_empty_iff.mp hk) (by simp [hd])
  · by_cases hc0 : c0 = '['
    · subst hc0
      have hkv := hok (by rw [hd]; rfl)
      apply @headerOf_none_of_no_close _ '[' (kt ++ ' ' :: '=' :: elineTailC v)
      · show elineC k v = '[' :: (kt ++ ' ' :: '=' :: elineTailC v)
        rw [elineC, hd]
        rfl
      · intro x hx
        rcases kt with _ | ⟨k1, kt2⟩
        · simp only [List.nil_append, List.drop_succ_cons, List.drop_zero] at hx
          rcases List.mem_cons.mp hx with rfl | hx2
          · decide
          · rcases mem_elineTailC hx2 with rfl | hx3
            · decide
            · exact hkv.1 x hx3
        · simp only [List.cons_append, List.drop_succ_cons, List.drop_zero] at hx
          rcases List.mem_append.mp hx with hx1 | hx2
          · exact hkv.2 x (by rw [hd]; exact hx1)
          · rcases List.mem_cons.mp hx2 with rfl | hx3
            · decide
            · rcases List.mem_cons.mp hx3 with rfl | hx4
              · decide
              · rcases mem_elineTailC hx4 with rfl | hx5
                · decide
                · exact hkv.1 x hx5
    · apply headerOf_none_of_not_bracket
      show (elineC k v).head? ≠ some '['
      rw [elineC, hd]
      simp [hc0]

theorem entryKey_elineC {pc : Bool} {k : String} (hkt : pyStrip k = k)
    (hx : xform pc k = k) : entryKey pc (k.data ++ [' ']) = k := by
  have ht2 : trimRightC k.data = k.data := by
    apply trimRightC_eq_self_of_noTrail
    exact trimFix_noTrail hkt
  rw [entryKey, trimRightC_append_ws (w := [' ']) (by decide), ht2, strMk_data, hx]

theorem entryVal_elineC {v : String} (hvt : pyStrip v = v) :
    entryVal (elineTailC v) = v := by
  rw [entryVal, elineTailC]
  split
  · rename_i he
    have hnil : v.data = [] := by simpa [List.isEmpty_iff] using he
    apply strEq_of_data
    rw [hnil]
    rfl
  · apply strEq_of_data
    show trimC (' ' :: v.data) = v.data
    rw [show (' ' :: v.data) = [' '] ++ v.data from rfl,
      trimC_append_ws_left (by decide), trimFix_data hvt]

/-! ### Reachability: stored pairs of a successful parse are well-formed -/

theorem mem_map_drop {f : Char → Char} {t : List Char} {x : Char} {n : Nat}
    (h : x ∈ (t.map f).drop n) : ∃ y ∈ t.drop n, x = f y := by
  rw [← List.map_drop] at h
  rcases List.mem_map.mp h with ⟨y, hy, rfl⟩
  exact ⟨y, hy, rfl⟩

/-- When the section regex rejects a line that starts with `[`, either no `]`
follows at all, or the only `]` is the character right after the bracket. -/
theorem headerOfC_none_inv {rest : List Char}
    (h : headerOfC ('[' :: rest) = none) :
    (∀ c ∈ rest, c ≠ ']') ∨ ∃ t, rest = ']' :: t ∧ ∀ c ∈ t, c ≠ ']' := by
  by_cases hlen : (rest.reverse.takeWhile (fun c => (c ≠ ']' : Bool))).length = rest.length
  · left
    have hself : rest.reverse.takeWhile (fun c => (c ≠ ']' : Bool)) = rest.reverse :=
      List.Sublist.eq_of_length (List.takeWhile_sublist _)
        (by rw [hlen, List.length_reverse])
    intro c hc
    have hmem : c ∈ rest.reverse.takeWhile (fun c => (c ≠ ']' : Bool)) := by
      rw [hself]
      exact List.mem_reverse.mpr hc
    simpa using List.mem_takeWhile_imp hmem
  · right
    simp only [headerOfC] at h
    rw [if_pos trivial, if_neg hlen] at h
    split at h
    · rename_i hpre
      have hdrop : rest.reverse.drop
          ((rest.reverse.takeWhile (fun c => (c ≠ ']' : Bool))).length + 1) = [] := by
        rw [List.isEmpty_iff, List.reverse_eq_nil_iff] at hpre
        exact hpre
      have hle : rest.reverse.length ≤
          (rest.reverse.takeWhile (fun c => (c ≠ ']' : Bool))).length + 1 :=
        List.drop_eq_nil_iff.mp hdrop
      have hle2 : (rest.reverse.takeWhile (fun c => (c ≠ ']' : Bool))).length ≤
          rest.reverse.length := List.Sublist.length_le (List.takeWhile_sublist _)
      have hlen2 : rest.reverse.length =
          (rest.reverse.takeWhile (fun c => (c ≠ ']' : Bool))).length + 1 := by
        rw [List.length_reverse] at hle hle2 ⊢
        omega
      have hsplit := List.takeWhile_append_dropWhile
        (p := fun c => (c ≠ ']' : Bool)) (l := rest.reverse)
      have hdlen : (rest.reverse.dropWhile (fun c => (c ≠ ']' : Bool))).length = 1 := by
        have := congrArg List.length hsplit
        rw [List.length_append] at this
        omega
      rcases List.length_eq_one.mp hdlen with ⟨x, hx⟩
      have hxbr : x = ']' := by
        have := dropWhile_head_not (l := rest.reverse)
          (p := fun c => (c ≠ ']' : Bool)) (c := x) (by rw [hx]; rfl)
        simpa using this
      subst hxbr
      refine ⟨(rest.reverse.takeWhile (fun c => (c ≠ ']' : Bool))).reverse, ?_, ?_⟩
      · have : rest.reverse =
            rest.reverse.takeWhile (fun c => (c ≠ ']' : Bool)) ++ [']'] := by
          rw [← hx]
          exact hsplit.symm
        have hrev := congrArg List.reverse this
        rw [List.reverse_reverse, List.reverse_append] at hrev
        simpa using hrev
      · intro c hc
        have hc2 : c ∈ rest.reverse.takeWhile (fun c => (c ≠ ']' : Bool)) :=
          List.mem_reverse.mp hc
        simpa using List.mem_takeWhile_imp hc2
    · exact absurd h (by simp)

theorem preprocessLine_good {s l : String} (h : preprocessLine s = some l)
    (hnl : ∀ c ∈ s.data, c ≠ '\n') : ∀ c ∈ l.data, goodChar c := by
  simp only [preprocessLine] at h
  split at h
  · exact absurd h (by simp)
  · injection h with h2
    intro c hc
    rw [← h2] at hc
    have hc1 : c ∈ cutAtC '#' (cutAtC ';' s.data) := by
      rcases trimC_decomp (cutAtC '#' (cutAtC ';' s.data)) with ⟨w1, w2, hde, _, _⟩
      rw [hde]
      exact List.mem_append.mpr (Or.inl (List.mem_append_right _ hc))
    have hch : c ≠ '#' := by simpa using List.mem_takeWhile_imp hc1
    have hc2 : c ∈ cutAtC ';' s.data := (List.takeWhile_sublist _).subset hc1
    have hcs : c ≠ ';' := by simpa using List.mem_takeWhile_imp hc2
    have hc3 : c ∈ s.data := (List.takeWhile_sublist _).subset hc2
    exact ⟨hcs, hch, hnl c hc3⟩

/-- The pair an assignment line registers is well-formed, provided the
(`stripped`, comment-free) line was not a header and the key is nonempty. -/
theorem entry_goodKV {pc : Bool} {l : String} {pre post : List Char}
    (hl : pyStrip l = l) (hgl : ∀ c ∈ l.data, goodChar c)
    (hh : headerOf l = none)
    (hsp : splitFirstDelim l.data = some (pre, post))
    (hne : (⟨trimRightC pre⟩ : String) ≠ "") :
    goodKV (entryKey pc pre, entryVal post) := by
  rcases splitFirstDelim_eq_some hsp with ⟨d, hdec, hd, hnd⟩
  rcases trimRightC_decomp pre with ⟨w, hw, hws⟩
  have htne : trimRightC pre ≠ [] := fun hx => hne (strEq_of_data hx)
  have hpre_l : ∀ c ∈ pre, c ∈ l.data := by
    intro c hc
    rw [hdec]
    exact List.mem_append_left _ hc
  have hpost_l : ∀ c ∈ post, c ∈ l.data := by
    intro c hc
    rw [hdec]
    exact List.mem_append_right _ (List.mem_cons_of_mem _ hc)
  have ht_pre : ∀ c ∈ trimRightC pre, c ∈ pre := by
    intro c hc
    rw [hw]
    exact List.mem_append_left _ hc
  have hval_post : ∀ c ∈ (entryVal post).data, c ∈ post := by
    intro c hc
    have hc2 : c ∈ trimC post := hc
    rcases trimC_decomp post with ⟨w1, w2, hde, _, _⟩
    rw [hde]
    exact List.mem_append.mpr (Or.inl (List.mem_append_right _ hc2))
  have hfex : ∃ f : Char → Char,
      (∀ y, goodChar y → goodChar (f y)) ∧ (∀ y, y ≠ '=' → f y ≠ '=') ∧
      (∀ y, y ≠ ':' → f y ≠ ':') ∧ (∀ y, f y = ']' → y = ']') ∧
      (∀ y, f y = '[' → y = '[') ∧
      (entryKey pc pre).data = (trimRightC pre).map f := by
    cases pc with
    | true =>
      refine ⟨id, fun y hy => hy, fun y hy => hy, fun y hy => hy,
        fun y hy => hy, fun y hy => hy, ?_⟩
      show (⟨trimRightC pre⟩ : String).data = _
      rw [List.map_id]
    | false =>
      refine ⟨lowerChar, fun y hy => goodChar_lowerChar hy,
        fun y hy => lowerChar_ne_mark (by decide) (by decide) hy,
        fun y hy => lowerChar_ne_mark (by decide) (by decide) hy,
        fun y hy => (lowerChar_eq_mark_iff (by decide) (by decide)).mp hy,
        fun y hy => (lowerChar_eq_mark_iff (by decide) (by decide)).mp hy, ?_⟩
      rfl
  rcases hfex with ⟨f, hfg, hfe, hfc, hfrb, hflb, hfdata⟩
  refine ⟨xform_ne_empty hne, entryKey_trim hl hsp, ?_, entryVal_trim, ?_, ?_⟩
  · intro c hc
    rw [hfdata] at hc
    rcases List.mem_map.mp hc with ⟨y, hy, rfl⟩
    have hyl : y ∈ l.data := hpre_l y (ht_pre y hy)
    have hynd := hnd y (ht_pre y hy)
    push_neg at hynd
    exact ⟨hfg y (hgl y hyl), hfe y hynd.1, hfc y hynd.2⟩
  · intro c hc
    exact hgl c (hpost_l c (hval_post c hc))
  · intro hhead
    rw [hfdata, List.head?_map] at hhead
    rcases Option.map_eq_some'.mp hhead with ⟨a, hta, hfa⟩
    have ha : a = '[' := hflb a hfa
    subst ha
    rcases htt : trimRightC pre with _ | ⟨a0, t1⟩
    · exact absurd htt htne
    · rw [htt] at hta
      simp only [List.head?_cons, Option.some.injEq] at hta
      subst hta
      have hpre_eq : pre = '[' :: (t1 ++ w) := by
        rw [hw, htt]
        rfl
      have hldata : l.data = '[' :: ((t1 ++ w) ++ d :: post) := by
        rw [hdec, hpre_eq]
        rfl
      have hnone : headerOfC ('[' :: ((t1 ++ w) ++ d :: post)) = none := by
        rw [← hldata]
        rw [headerOf] at hh
        exact Option.map_eq_none'.mp hh
      rcases headerOfC_none_inv hnone with hcase | ⟨t2, ht2, hnc2⟩
      · constructor
        · intro c hc
          exact hcase c (List.mem_append_right _
            (List.mem_cons_of_mem _ (hval_post c hc)))
        · intro c hc
          rw [hfdata, htt] at hc
          rcases mem_map_drop hc with ⟨y, hy, rfl⟩
          intro hfy
          have hy2 : y = ']' := hfrb y hfy
          have hyl : y ∈ ('[' :: t1) := List.mem_of_mem_drop hy
          rcases List.mem_cons.mp hyl with h1 | h1
          · rw [hy2] at h1
            exact absurd h1 (by decide)
          · exact hcase y (List.mem_append_left _ (List.mem_append_left _ h1)) hy2
      · rcases htw : t1 ++ w with _ | ⟨x, u⟩
        · rw [htw] at ht2
          simp only [List.nil_append] at ht2
          have hd2 : d = ']' := by
            injection ht2
          rcases hd with h1 | h1 <;> rw [h1] at hd2 <;> exact absurd hd2 (by decide)
        · rw [htw] at ht2
          rw [List.cons_append] at ht2
          have hx2 : x = ']' ∧ t2 = u ++ d :: post := by
            injection ht2 with hh1 hh2
            exact ⟨hh1, hh2.symm⟩
          constructor
          · intro c hc
            apply hnc2
            rw [hx2.2]
            exact List.mem_append_right _ (List.mem_cons_of_mem _ (hval_post c hc))
          · intro c hc
            rw [hfdata, htt] at hc
            rcases mem_map_drop hc with ⟨y, hy, rfl⟩
            intro hfy
            have hy2 : y = ']' := hfrb y hfy
            rcases ht1 : t1 with _ | ⟨b, t1b⟩
            · rw [ht1] at hy
              exact absurd hy (by simp)
            · rw [ht1] at hy
              have hyt : y ∈ t1b := hy
              have hu : u = t1b ++ w := by
                rw [ht1] at htw
                injection htw with _ hh2
                exact hh2.symm
              have hmem : y ∈ t2 := by
                rw [hx2.2, hu]
                exact List.mem_append_left _ (List.mem_append_left _ hyt)
              exact hnc2 y hmem hy2

/-- All stored pairs, as an invariant of the machine when no `ParsingError`
is pending. -/
def rsAllGood (st : RSState) : Prop :=
  (∀ kv ∈ st.defaults, goodKV kv) ∧ ∀ p ∈ st.sections, ∀ kv ∈ p.2, goodKV kv

theorem rsStep_good {pc : Bool} {st st2 : RSState} {l : String}
    (hl : pyStrip l = l) (hgl : ∀ c ∈ l.data, goodChar c)
    (h : rsStep pc st l = .ok st2)
    (hinv : st.pending = false → rsAllGood st) :
    st2.pending = false → rsAllGood st2 := by
  intro hp2
  rcases rsStep_cases h with
    ⟨hd, hh, hmem, ⟨hdef, rfl⟩ | ⟨hdef, rfl⟩⟩ |
    ⟨cur, hh, hcur, ⟨hsp, rfl⟩ | ⟨pre, post, hsp, hadd, ⟨hdef, rfl⟩ | ⟨hdef, rfl⟩⟩⟩
  · exact hinv hp2
  · rcases hinv hp2 with ⟨h1, h2⟩
    refine ⟨h1, ?_⟩
    intro p hp kv hkv
    rcases List.mem_append.mp hp with hp1 | hp2b
    · exact h2 p hp1 kv hkv
    · rcases List.mem_singleton.mp hp2b with rfl
      exact absurd hkv (List.not_mem_nil kv)
  · simp at hp2
  · have hpp : (st.pending || ((⟨trimRightC pre⟩ : String) = "" : Bool)) = false := hp2
    simp only [Bool.or_eq_false_iff] at hpp
    rcases hinv hpp.1 with ⟨h1, h2⟩
    refine ⟨?_, h2⟩
    intro kv hkv
    rcases aset_mem hkv with rfl | hold
    · exact entry_goodKV hl hgl hh hsp (by simpa using hpp.2)
    · exact h1 kv hold
  · have hpp : (st.pending || ((⟨trimRightC pre⟩ : String) = "" : Bool)) = false := hp2
    simp only [Bool.or_eq_false_iff] at hpp
    rcases hinv hpp.1 with ⟨h1, h2⟩
    refine ⟨h1, ?_⟩
    intro p hp kv hkv
    rcases asetSection_mem hp with ⟨q, hq, _, hsame | hset⟩
    · rw [hsame] at hkv
      exact h2 q hq kv hkv
    · rw [hset] at hkv
      rcases aset_mem hkv with rfl | hold
      · exact entry_goodKV hl hgl hh hsp (by simpa using hpp.2)
      · exact h2 q hq kv hold

theorem rsRun_good {pc : Bool} {st st2 : RSState} {ls : List String}
    (hl : ∀ l ∈ ls, pyStrip l = l) (hgl : ∀ l ∈ ls, ∀ c ∈ l.data, goodChar c)
    (h : rsRun pc st ls = .ok st2)
    (hinv : st.pending = false → rsAllGood st) :
    st2.pending = false → rsAllGood st2 := by
  induction ls generalizing st with
  | nil =>
    rw [rsRun] at h
    injection h with h2
    rw [← h2]
    exact hinv
  | cons l t ih =>
    rw [rsRun] at h
    rcases hs : rsStep pc st l with e | stm
    · rw [hs] at h
      exact absurd h (by simp)
    · rw [hs] at h
      exact ih (fun x hx => hl x (List.mem_cons_of_mem l hx))
        (fun x hx => hgl x (List.mem_cons_of_mem l hx)) h
        (rsStep_good (hl l (List.mem_cons_self l t)) (hgl l (List.mem_cons_self l t))
          hs hinv)

theorem readString_good {pc : Bool} {lines : List String} {raw : RawCfg}
    (h : readString pc lines = .ok raw)
    (hl : ∀ l ∈ lines, pyStrip l = l)
    (hgl : ∀ l ∈ lines, ∀ c ∈ l.data, goodChar c) :
    (∀ kv ∈ raw.defaults, goodKV kv) ∧ ∀ p ∈ raw.sections, ∀ kv ∈ p.2, goodKV kv := by
  rw [readString] at h
  split at h
  · exact absurd h (by simp)
  · rename_i st hr
    split at h
    · exact absurd h (by simp)
    · rename_i hpend
      injection h with h2
      have hpf : st.pending = false := by
        simpa using hpend
      have hout := rsRun_good hl hgl hr
        (fun _ => ⟨by simp [rsInit], by simp [rsInit]⟩) hpf
      rw [← h2]
      exact ⟨hout.1, hout.2⟩

/-! ### The cleaning pass keeps the stored pairs well-formed -/

theorem goodKV_xform {pc : Bool} {k v : String} (h : goodKV (k, v)) :
    goodKV (xform pc k, v) := by
  cases pc with
  | true => exact h
  | false =>
    rcases h with ⟨h1, h2, h3, h4, h5, h6⟩
    refine ⟨?_, ?_, ?_, h4, h5, ?_⟩
    · show xform false k ≠ ""
      exact xform_ne_empty h1
    · show pyStrip (pyLower k) = pyLower k
      rw [pyStrip_pyLower, h2]
    · intro c hc
      rcases @mem_xform_data false k _ hc with ⟨y, hy, he1 | he1⟩
      · rw [he1]
        exact h3 y hy
      · rcases h3 y hy with ⟨hg, he, hcn⟩
        rw [he1]
        exact ⟨goodChar_lowerChar hg, lowerChar_ne_mark (by decide) (by decide) he,
          lowerChar_ne_mark (by decide) (by decide) hcn⟩
    · intro hhead
      have hdata : (xform false k).data = k.data.map lowerChar := rfl
      rw [hdata, List.head?_map] at hhead
      rcases Option.map_eq_some'.mp hhead with ⟨a, ha, hla⟩
      have ha2 : a = '[' := (lowerChar_eq_mark_iff (by decide) (by decide)).mp hla
      subst ha2
      rcases h6 ha with ⟨hv, hk⟩
      refine ⟨hv, ?_⟩
      intro c hc
      rw [hdata] at hc
      rcases mem_map_drop hc with ⟨y, hy, rfl⟩
      intro hfy
      exact hk y hy ((lowerChar_eq_mark_iff (by decide) (by decide)).mp hfy)

def CleanedGood (acc : Cleaned) : Prop :=
  (∀ kv ∈ acc.defaults, goodKV kv) ∧ ∀ p ∈ acc.sections, ∀ kv ∈ p.2, goodKV kv

theorem setCleaned_good {acc acc2 : Cleaned} {sect key val : String}
    (h : setCleaned acc sect key val = .ok acc2) (hkv : goodKV (key, val))
    (hg : CleanedGood acc) : CleanedGood acc2 := by
  rw [setCleaned] at h
  split at h
  · exact absurd h (by simp)
  · split at h <;> injection h with h2 <;> rw [← h2]
    · refine ⟨?_, hg.2⟩
      intro kv hkv2
      rcases aset_mem hkv2 with rfl | hold
      · exact goodKV_xform hkv
      · exact hg.1 kv hold
    · refine ⟨hg.1, ?_⟩
      intro p hp kv hkv2
      rcases asetSection_mem hp with ⟨q, hq, _, hsame | hset⟩
      · rw [hsame] at hkv2
        exact hg.2 q hq kv hkv2
      · rw [hset] at hkv2
        rcases aset_mem hkv2 with rfl | hold
        · exact goodKV_xform hkv
        · exact hg.2 q hq kv hold

theorem cleanItems_good {sect : String} {acc acc2 : Cleaned} {ks : List String}
    {items : List (String × String)}
    (h : cleanItems sect acc ks items = .ok acc2)
    (hkv : ∀ kv ∈ items, goodKV kv) (hg : CleanedGood acc) : CleanedGood acc2 := by
  induction items generalizing acc ks with
  | nil =>
    rw [cleanItems] at h
    injection h with h2
    rw [← h2]
    exact hg
  | cons kv0 rest ih =>
    rcases kv0 with ⟨k0, v0⟩
    rw [cleanItems] at h
    split at h
    · exact absurd h (by simp)
    · split at h
      · exact absurd h (by simp)
      · rename_i acc1 hset
        have hg0 := hkv (k0, v0) (List.mem_cons_self _ _)
        have hk0 : pyStrip k0 = k0 := hg0.2.1
        have hv0 : pyStrip v0 = v0 := hg0.2.2.2.1
        rw [hk0, hv0] at hset
        exact ih h (fun x hx => hkv x (List.mem_cons_of_mem _ hx))
          (setCleaned_good hset hg0 hg)

theorem addSectionIfNew_good {acc : Cleaned} {c : String} (hg : CleanedGood acc) :
    CleanedGood (addSectionIfNew acc c) := by
  rw [addSectionIfNew]
  split
  · exact hg
  · refine ⟨hg.1, ?_⟩
    intro p hp kv hkv
    rcases List.mem_append.mp hp with h1 | h2
    · exact hg.2 p h1 kv hkv
    · rcases List.mem_singleton.mp h2 with rfl
      exact absurd hkv (List.not_mem_nil kv)

theorem cleanSections_good {defaults : ADict} {seen : List String}
    {acc st : Cleaned} {secs : List (String × ADict)}
    (h : cleanSections defaults seen acc secs = .ok st)
    (hdf : ∀ kv ∈ defaults, goodKV kv)
    (hsec : ∀ p ∈ secs, ∀ kv ∈ p.2, goodKV kv)
    (hg : CleanedGood acc) : CleanedGood st := by
  induction secs generalizing seen acc with
  | nil =>
    rw [cleanSections] at h
    injection h with h2
    rw [← h2]
    exact hg
  | cons q rest ih =>
    rcases q with ⟨s0, items⟩
    rw [cleanSections] at h
    split at h
    · exact absurd h (by simp)
    · split at h
      · exact absurd h (by simp)
      · rename_i acc2 hclean
        have hmg : ∀ kv ∈ mergeD defaults items, goodKV kv := by
          intro kv hkv
          rcases kv with ⟨k2, v2⟩
          rcases mergeD_mem hkv with hm | hm
          · exact hdf _ hm
          · exact hsec (s0, items) (List.mem_cons_self _ _) _ hm
        exact ih h (fun x hx => hsec x (List.mem_cons_of_mem _ hx))
          (cleanItems_good hclean hmg (addSectionIfNew_good hg))

theorem load_config_good {pc : Bool} {lines : List String} {st : Cleaned}
    (h : load_config pc lines = .ok st)
    (hnl : ∀ l ∈ lines, ∀ c ∈ l.data, c ≠ '\n') : CleanedGood st := by
  rw [load_config] at h
  split at h
  · exact absurd h (by simp)
  · rename_i raw hr
    have hlp : ∀ l ∈ preprocessLines lines, pyStrip l = l := by
      intro l hl
      rcases List.mem_filterMap.mp hl with ⟨src2, _, hsrc⟩
      exact (preprocessLine_out hsrc).1
    have hgp : ∀ l ∈ preprocessLines lines, ∀ c ∈ l.data, goodChar c := by
      intro l hl
      rcases List.mem_filterMap.mp hl with ⟨src2, hmem, hsrc⟩
      exact preprocessLine_good hsrc (hnl src2 hmem)
    have hraw := readString_good hr hlp hgp
    rw [cleanPass] at h
    exact cleanSections_good h hraw.1 hraw.2 ⟨by simp, by simp⟩

/-! ### The cleaned dictionaries have duplicate-free keys -/

def CleanedNodup (acc : Cleaned) : Prop :=
  (acc.defaults.map Prod.fst).Nodup ∧ ∀ p ∈ acc.sections, (p.2.map Prod.fst).Nodup

theorem setCleaned_keysNodup {acc acc2 : Cleaned} {sect key val : String}
    (h : setCleaned acc sect key val = .ok acc2) (hg : CleanedNodup acc) :
    CleanedNodup acc2 := by
  rw [setCleaned] at h
  split at h
  · exact absurd h (by simp)
  · split at h <;> injection h with h2 <;> rw [← h2]
    · exact ⟨aset_nodup hg.1, hg.2⟩
    · refine ⟨hg.1, ?_⟩
      intro p hp
      rcases asetSection_mem hp with ⟨q, hq, _, hsame | hset⟩
      · rw [hsame]
        exact hg.2 q hq
      · rw [hset]
        exact aset_nodup (hg.2 q hq)

theorem cleanItems_keysNodup {sect : String} {acc acc2 : Cleaned} {ks : List String}
    {items : List (String × String)} (h : cleanItems sect acc ks items = .ok acc2)
    (hg : CleanedNodup acc) : CleanedNodup acc2 := by
  induction items generalizing acc ks with
  | nil =>
    rw [cleanItems] at h
    injection h with h2
    rw [← h2]
    exact hg
  | cons kv0 rest ih =>
    rcases kv0 with ⟨k0, v0⟩
    rw [cleanItems] at h
    split at h
    · exact absurd h (by simp)
    · split at h
      · exact absurd h (by simp)
      · rename_i acc1 hset
        exact ih h (setCleaned_keysNodup hset hg)

theorem addSectionIfNew_keysNodup {acc : Cleaned} {c : String}
    (hg : CleanedNodup acc) : CleanedNodup (addSectionIfNew acc c) := by
  rw [addSectionIfNew]
  split
  · exact hg
  · refine ⟨hg.1, ?_⟩
    intro p hp
    rcases List.mem_append.mp hp with h1 | h2
    · exact hg.2 p h1
    · rcases List.mem_singleton.mp h2 with rfl
      exact List.nodup_nil

theorem cleanSections_keysNodup {defaults : ADict} {seen : List String}
    {acc st : Cleaned} {secs : List (String × ADict)}
    (h : cleanSections defaults seen acc secs = .ok st)
    (hg : CleanedNodup acc) : CleanedNodup st := by
  induction secs generalizing seen acc with
  | nil =>
    rw [cleanSections] at h
    injection h with h2
    rw [← h2]
    exact hg
  | cons q rest ih =>
    rcases q with ⟨s0, items⟩
    rw [cleanSections] at h
    split at h
    · exact absurd h (by simp)
    · split at h
      · exact absurd h (by simp)
      · rename_i acc2 hclean
        exact ih h (cleanItems_keysNodup hclean (addSectionIfNew_keysNodup hg))

theorem load_config_keysNodup {pc : Bool} {lines : List String} {st : Cleaned}
    (h : load_config pc lines = .ok st) : CleanedNodup st := by
  rw [load_config] at h
  split at h
  · exact absurd h (by simp)
  · rw [cleanPass] at h
    exact cleanSections_keysNodup h ⟨List.nodup_nil, by simp⟩

/-! ### The case mode and the shape of the stored profile names -/

theorem cleanSections_preserve {defaults : ADict} {seen : List String}
    {acc st : Cleaned} {secs : List (String × ADict)}
    (h : cleanSections defaults seen acc secs = .ok st) :
    st.preserve = acc.preserve := by
  induction secs generalizing seen acc with
  | nil =>
    rw [cleanSections] at h
    injection h with h2
    rw [← h2]
  | cons q rest ih =>
    rcases q with ⟨s0, items⟩
    rw [cleanSections] at h
    split at h
    · exact absurd h (by simp)
    · split at h
      · exact absurd h (by simp)
      · rename_i acc2 hclean
        rw [ih h, (cleanItems_fields hclean).1, addSectionIfNew_preserve]

theorem load_config_preserve {pc : Bool} {lines : List String} {st : Cleaned}
    (h : load_config pc lines = .ok st) : st.preserve = pc := by
  rw [load_config] at h
  split at h
  · exact absurd h (by simp)
  · rw [cleanPass] at h
    exact cleanSections_preserve h

theorem load_config_names {pc : Bool} {lines : List String} {st : Cleaned}
    (h : load_config pc lines = .ok st) :
    (∀ n ∈ list_profiles st, ∃ hd ∈ (preprocessLines lines).filterMap headerOf,
      cleanName pc hd = n ∧ n ≠ "DEFAULT") ∧
    (list_profiles st).Nodup := by
  rw [load_config] at h
  split at h
  · exact absurd h (by simp)
  · rename_i raw hr
    rw [cleanPass] at h
    have hnames := cleanSections_names h (by simp [sectNames])
    have hnd := cleanSections_names_nodup h (by simp [sectNames]) (by simp [sectNames])
    refine ⟨?_, hnd⟩
    intro n hn
    have hn2 : n ∈ sectNames st.sections := hn
    rw [hnames] at hn2
    simp only [sectNames, List.map_nil, List.nil_append] at hn2
    have hmemf := List.mem_filter.mp hn2
    rcases List.mem_map.mp hmemf.1 with ⟨p, hp, hpe⟩
    have hp1 : p.1 ∈ sectNames raw.sections := List.mem_map_of_mem _ hp
    rw [readString_sectNames hr] at hp1
    have hp2 := List.mem_filter.mp hp1
    exact ⟨p.1, hp2.1, hpe, by simpa using hmemf.2⟩

theorem load_config_names_clean {pc : Bool} {lines : List String} {st : Cleaned}
    (h : load_config pc lines = .ok st) :
    ∀ n ∈ list_profiles st, cleanName pc n = n ∧ n ≠ "DEFAULT" := by
  intro n hn
  rcases (load_config_names h).1 n hn with ⟨hd, _, he, hne⟩
  refine ⟨?_, hne⟩
  rw [← he, cleanName_idem]

theorem cleanName_chars {pc : Bool} {s : String} {x : Char}
    (h : x ∈ (cleanName pc s).data) : ∃ y ∈ s.data, x = y ∨ x = lowerChar y := by
  have hsub : ∀ z ∈ (pyStrip s).data, z ∈ s.data := by
    intro z hz
    have hz2 : z ∈ trimC s.data := hz
    rcases trimC_decomp s.data with ⟨w1, w2, hde, _, _⟩
    rw [hde]
    exact List.mem_append.mpr (Or.inl (List.mem_append_right _ hz2))
  cases pc with
  | true => exact ⟨x, hsub x h, Or.inl rfl⟩
  | false =>
    have h2 : x ∈ (pyStrip s).data.map lowerChar := h
    rcases List.mem_map.mp h2 with ⟨y, hy, rfl⟩
    exact ⟨y, hsub y hy, Or.inr rfl⟩

theorem load_config_names_good {pc : Bool} {lines : List String} {st : Cleaned}
    (h : load_config pc lines = .ok st)
    (hnl : ∀ l ∈ lines, ∀ c ∈ l.data, c ≠ '\n') :
    ∀ n ∈ list_profiles st, ∀ c ∈ n.data, goodChar c := by
  intro n hn c hc
  rcases (load_config_names h).1 n hn with ⟨hd, hhd, he, _⟩
  rcases List.mem_filterMap.mp hhd with ⟨l, hl, hsrc⟩
  rcases List.mem_filterMap.mp hl with ⟨src2, hm2, hs2⟩
  have hlg : ∀ x ∈ l.data, goodChar x := preprocessLine_good hs2 (hnl src2 hm2)
  rw [← he] at hc
  rcases cleanName_chars hc with ⟨y, hy, he2 | he2⟩
  · rw [he2]
    exact hlg y ((headerOf_some_sub hsrc).2 y hy)
  · rw [he2]
    exact goodChar_lowerChar (hlg y ((headerOf_some_sub hsrc).2 y hy))

/-! ### Reparsing the rendered lines -/

theorem aset_append_new {d : ADict} {k v : String} (h : k ∉ d.map Prod.fst) :
    aset d k v = d ++ [(k, v)] := by
  induction d with
  | nil => rfl
  | cons kv t ih =>
    rcases kv with ⟨k0, v0⟩
    simp only [List.map_cons, List.mem_cons] at h
    push_neg at h
    rw [aset, if_neg (fun he => h.1 he.symm), ih h.2]
    rfl

theorem asetSection_last {S0 : List (String × ADict)} {s : String} {d : ADict}
    {k v : String} (h : s ∉ sectNames S0) :
    asetSection (S0 ++ [(s, d)]) s k v = S0 ++ [(s, aset d k v)] := by
  rw [asetSection, List.map_append]
  have h1 : S0.map (fun p => if p.1 = s then (p.1, aset p.2 k v) else p) = S0 := by
    conv_rhs => rw [← List.map_id S0]
    apply List.map_congr_left
    intro p hp
    have hne : ¬(p.1 = s) := fun he => h (by
      rw [← he]
      exact List.mem_map_of_mem _ hp)
    simp [hne]
  rw [h1]
  simp

theorem mergeD_nil_left (sec : ADict) : mergeD [] sec = sec := by
  rw [mergeD]
  simp [alookup]

/-- The per-entry facts needed to reparse a rendered assignment line. -/
def entryRearmOK (pc : Bool) (kv : String × String) : Prop :=
  kv.1 ≠ "" ∧ pyStrip kv.1 = kv.1 ∧ xform pc kv.1 = kv.1 ∧
    (∀ c ∈ kv.1.data, ¬(c = '=' ∨ c = ':')) ∧ pyStrip kv.2 = kv.2 ∧
    headerOf (⟨elineC kv.1 kv.2⟩ : String) = none

theorem rsRun_elines {pc : Bool} (ms : List (String × String)) :
    ∀ (d0 : ADict) (S0 : List (String × ADict)) (df : ADict)
      (A : List (String × String)) (s : String),
    s ≠ "DEFAULT" → s ∉ sectNames S0 →
    (ms.map Prod.fst).Nodup →
    (∀ kv ∈ ms, kv.1 ∉ d0.map Prod.fst) →
    (∀ kv ∈ ms, (s, kv.1) ∉ A) →
    (∀ kv ∈ ms, entryRearmOK pc kv) →
    ∃ A2, rsRun pc ⟨df, S0 ++ [(s, d0)], some s, A, false⟩
        (ms.map (fun kv => (⟨elineC kv.1 kv.2⟩ : String))) =
      .ok ⟨df, S0 ++ [(s, d0 ++ ms)], some s, A2, false⟩ ∧
      ∀ q ∈ A2, q ∈ A ∨ q.1 = s := by
  induction ms with
  | nil =>
    intro d0 S0 df A s _ _ _ _ _ _
    refine ⟨A, ?_, fun q hq => Or.inl hq⟩
    rw [List.map_nil, rsRun, List.append_nil]
  | cons kv0 rest ih =>
    intro d0 S0 df A s hsd hsS hnd hd0 hA hok
    rcases kv0 with ⟨k0, v0⟩
    rcases hok (k0, v0) (List.mem_cons_self _ _) with
      ⟨hk0ne, hk0t, hk0x, hk0nd, hv0t, hh0⟩
    have htr : trimRightC (k0.data ++ [' ']) = k0.data := by
      rw [trimRightC_append_ws (by decide)]
      exact trimRightC_eq_self_of_noTrail (trimFix_noTrail hk0t)
    have hkey : entryKey pc (k0.data ++ [' ']) = k0 := entryKey_elineC hk0t hk0x
    have hsp0 : splitFirstDelim (⟨elineC k0 v0⟩ : String).data =
        some (k0.data ++ [' '], elineTailC v0) := by
      show splitFirstDelim (elineC k0 v0) = _
      rw [elineC]
      exact splitFirstDelim_render (fun c hc => hk0nd c hc)
    have hstep : rsStep pc ⟨df, S0 ++ [(s, d0)], some s, A, false⟩ ⟨elineC k0 v0⟩ =
        .ok ⟨df, S0 ++ [(s, d0 ++ [(k0, v0)])], some s, (s, k0) :: A, false⟩ := by
      rw [rsStep]
      simp only [hh0, hsp0, hkey]
      rw [if_neg (hA (k0, v0) (List.mem_cons_self _ _)), if_neg hsd,
        entryVal_elineC hv0t, asetSection_last hsS,
        aset_append_new (hd0 (k0, v0) (List.mem_cons_self _ _)), htr, strMk_data,
        decide_eq_false hk0ne]
      rfl
    have hnd2 := List.nodup_cons.mp
      (show (k0 :: rest.map Prod.fst).Nodup by simpa using hnd)
    have hd0b : ∀ kv ∈ rest, kv.1 ∉ (d0 ++ [(k0, v0)]).map Prod.fst := by
      intro kv hkv hmem
      rw [List.map_append] at hmem
      rcases List.mem_append.mp hmem with hm | hm
      · exact hd0 kv (List.mem_cons_of_mem _ hkv) hm
      · simp only [List.map_cons, List.map_nil, List.mem_singleton] at hm
        apply hnd2.1
        rw [← hm]
        exact List.mem_map_of_mem _ hkv
    have hAb : ∀ kv ∈ rest, (s, kv.1) ∉ (s, k0) :: A := by
      intro kv hkv hmem
      rcases List.mem_cons.mp hmem with he | hm
      · have hfst : kv.1 = k0 := congrArg Prod.snd he
        apply hnd2.1
        rw [← hfst]
        exact List.mem_map_of_mem _ hkv
      · exact hA kv (List.mem_cons_of_mem _ hkv) hm
    rcases ih (d0 ++ [(k0, v0)]) S0 df ((s, k0) :: A) s hsd hsS hnd2.2 hd0b hAb
      (fun kv hkv => hok kv (List.mem_cons_of_mem _ hkv)) with ⟨A2, hrun, hA2⟩
    rw [List.append_assoc, List.singleton_append] at hrun
    refine ⟨A2, ?_, ?_⟩
    · rw [List.map_cons, rsRun, hstep]
      show rsRun pc ⟨df, S0 ++ [(s, d0 ++ [(k0, v0)])], some s, (s, k0) :: A, false⟩
        (rest.map (fun kv => (⟨elineC kv.1 kv.2⟩ : String))) = _
      exact hrun
    · intro q hq
      rcases hA2 q hq with hm | he
      · rcases List.mem_cons.mp hm with he2 | hm2
        · right
          rw [he2]
        · left
          exact hm2
      · right
        exact he

/-- The lines a section block reduces to after preprocessing: the header line
followed by the trimmed assignment lines. -/
def cleanBlockLines (p : String × ADict) : List String :=
  ("[" ++ p.1 ++ "]") :: p.2.map (fun kv => (⟨elineC kv.1 kv.2⟩ : String))

theorem rsRun_blocks {pc : Bool} (secs : List (String × ADict)) :
    ∀ (S0 : List (String × ADict)) (df : ADict) (cur : Option String)
      (A : List (String × String)),
    (sectNames secs).Nodup →
    (∀ p ∈ secs, p.1 ≠ "DEFAULT" ∧ p.1 ≠ "" ∧ p.1 ∉ sectNames S0) →
    (∀ p ∈ secs, ∀ q ∈ A, q.1 ≠ p.1) →
    (∀ p ∈ secs, (p.2.map Prod.fst).Nodup) →
    (∀ p ∈ secs, ∀ kv ∈ p.2, entryRearmOK pc kv) →
    ∃ cur2 A2, rsRun pc ⟨df, S0, cur, A, false⟩ ((secs.map cleanBlockLines).flatten) =
      .ok ⟨df, S0 ++ secs, cur2, A2, false⟩ ∧
      ∀ q ∈ A2, q ∈ A ∨ q.1 ∈ sectNames secs := by
  induction secs with
  | nil =>
    intro S0 df cur A _ _ _ _ _
    refine ⟨cur, A, ?_, fun q hq => Or.inl hq⟩
    rw [List.map_nil, List.flatten_nil, rsRun, List.append_nil]
  | cons p rest ih =>
    intro S0 df cur A hnd hname hA hknd hok
    rcases p with ⟨s, m⟩
    rcases hname (s, m) (List.mem_cons_self _ _) with ⟨hsd, hse, hsS⟩
    have hndm := List.nodup_cons.mp
      (show (s :: sectNames rest).Nodup by simpa [sectNames] using hnd)
    have hflat : ((((s, m) :: rest).map cleanBlockLines).flatten) =
        ("[" ++ s ++ "]") :: (m.map (fun kv => (⟨elineC kv.1 kv.2⟩ : String)) ++
          (rest.map cleanBlockLines).flatten) := by
      rw [List.map_cons, List.flatten_cons, cleanBlockLines]
      rfl
    have hhs : headerOf ("[" ++ s ++ "]") = some s := headerOf_render hse
    have hstep : rsStep pc ⟨df, S0, cur, A, false⟩ ("[" ++ s ++ "]") =
        .ok ⟨df, S0 ++ [(s, [])], some s, A, false⟩ := by
      rw [rsStep]
      simp only [hhs]
      rw [if_neg hsS, if_neg hsd]
    have hent : ∀ kv ∈ m, (s, kv.1) ∉ A := by
      intro kv _ hmem
      exact hA (s, m) (List.mem_cons_self _ _) (s, kv.1) hmem rfl
    rcases rsRun_elines m [] S0 df A s hsd hsS
      (hknd (s, m) (List.mem_cons_self _ _)) (fun kv _ => by simp)
      hent (hok (s, m) (List.mem_cons_self _ _)) with ⟨A2, hrunE, hA2⟩
    rw [List.nil_append] at hrunE
    have hnameR : ∀ p ∈ rest, p.1 ≠ "DEFAULT" ∧ p.1 ≠ "" ∧
        p.1 ∉ sectNames (S0 ++ [(s, m)]) := by
      intro p hp
      rcases hname p (List.mem_cons_of_mem _ hp) with ⟨h1, h2, h3⟩
      refine ⟨h1, h2, ?_⟩
      intro hmem
      rw [sectNames, List.map_append] at hmem
      rcases List.mem_append.mp hmem with hm | hm
      · exact h3 hm
      · simp only [List.map_cons, List.map_nil, List.mem_singleton] at hm
        apply hndm.1
        rw [← hm]
        exact List.mem_map_of_mem _ hp
    have hAR : ∀ p ∈ rest, ∀ q ∈ A2, q.1 ≠ p.1 := by
      intro p hp q hq
      rcases hA2 q hq with hm | he
      · exact hA p (List.mem_cons_of_mem _ hp) q hm
      · rw [he]
        intro hx
        apply hndm.1
        rw [hx]
        exact List.mem_map_of_mem _ hp
    rcases ih (S0 ++ [(s, m)]) df (some s) A2 hndm.2 hnameR hAR
      (fun p hp => hknd p (List.mem_cons_of_mem _ hp))
      (fun p hp => hok p (List.mem_cons_of_mem _ hp)) with ⟨cur2, A3, hrunR, hA3⟩
    rw [List.append_assoc, List.singleton_append] at hrunR
    refine ⟨cur2, A3, ?_, ?_⟩
    · rw [hflat, rsRun, hstep]
      show rsRun pc ⟨df, S0 ++ [(s, [])], some s, A, false⟩
        (m.map (fun kv => (⟨elineC kv.1 kv.2⟩ : String)) ++
          (rest.map cleanBlockLines).flatten) = _
      rw [rsRun_append, hrunE]
      show rsRun pc ⟨df, S0 ++ [(s, m)], some s, A2, false⟩
        ((rest.map cleanBlockLines).flatten) = _
      exact hrunR
    · intro q hq
      rcases hA3 q hq with hm | he
      · rcases hA2 q hm with hm2 | he2
        · exact Or.inl hm2
        · right
          rw [he2]
          exact List.mem_cons_self _ _
      · right
        show q.1 ∈ sectNames ((s, m) :: rest)
        rw [sectNames, List.map_cons]
        exact List.mem_cons_of_mem _ he

theorem readString_blocks {pc : Bool} {secs : List (String × ADict)}
    (hnd : (sectNames secs).Nodup)
    (hname : ∀ p ∈ secs, p.1 ≠ "DEFAULT" ∧ p.1 ≠ "")
    (hknd : ∀ p ∈ secs, (p.2.map Prod.fst).Nodup)
    (hok : ∀ p ∈ secs, ∀ kv ∈ p.2, entryRearmOK pc kv) :
    readString pc ((secs.map cleanBlockLines).flatten) = .ok ⟨[], secs⟩ := by
  rcases rsRun_blocks secs [] [] none [] hnd
    (fun p hp => ⟨(hname p hp).1, (hname p hp).2, by simp [sectNames]⟩)
    (fun p _ q hq => absurd hq (List.not_mem_nil q)) hknd hok with
    ⟨cur2, A2, hrun, _⟩
  rw [readString, show rsInit = (⟨[], [], none, [], false⟩ : RSState) from rfl, hrun]
  rfl

/-! ### The cleaning pass is the identity on already-clean input -/

theorem cleanItems_clean {pc : Bool} (items : List (String × String)) :
    ∀ (acc : Cleaned) (ks : List String) (S0 : List (String × ADict))
      (s : String) (d0 : ADict),
    acc.preserve = pc →
    acc.sections = S0 ++ [(s, d0)] →
    s ∉ sectNames S0 → s ≠ "" → s ≠ "DEFAULT" →
    (items.map Prod.fst).Nodup →
    (∀ kv ∈ items, kv.1 ∉ d0.map Prod.fst) →
    (∀ kv ∈ items, kv.1 ∉ ks) →
    (∀ kv ∈ items, pyStrip kv.1 = kv.1 ∧ xform pc kv.1 = kv.1 ∧
      pyStrip kv.2 = kv.2 ∧ (kv.2 = "" ∨ beforeSetOk kv.2 = true)) →
    cleanItems s acc ks items =
      .ok { acc with sections := S0 ++ [(s, d0 ++ items)] } := by
  induction items with
  | nil =>
    intro acc ks S0 s d0 _ hsec _ _ _ _ _ _ _
    rw [cleanItems, List.append_nil, ← hsec]
  | cons kv0 rest ih =>
    intro acc ks S0 s d0 hp hsec hsS hse hsd hnd hd0 hks hclean
    rcases kv0 with ⟨k0, v0⟩
    rcases hclean (k0, v0) (List.mem_cons_self _ _) with ⟨hk0t, hk0x, hv0t, hv0ok⟩
    rw [cleanItems, hk0t, hv0t, if_neg (hks (k0, v0) (List.mem_cons_self _ _))]
    have hset : setCleaned acc s k0 v0 =
        .ok { acc with sections := S0 ++ [(s, d0 ++ [(k0, v0)])] } := by
      rw [setCleaned, if_neg ?hv, if_neg ?hs]
      case hv =>
        intro hand
        rcases hv0ok with h1 | h1
        · exact hand.1 h1
        · exact hand.2 h1
      case hs =>
        intro hor
        rcases hor with h1 | h1
        · exact hse h1
        · exact hsd h1
      rw [hsec, hp, hk0x, asetSection_last hsS,
        aset_append_new (hd0 (k0, v0) (List.mem_cons_self _ _))]
    rw [hset]
    show cleanItems s { acc with sections := S0 ++ [(s, d0 ++ [(k0, v0)])] }
      (k0 :: ks) rest = _
    have hnd2 := List.nodup_cons.mp
      (show (k0 :: rest.map Prod.fst).Nodup by simpa using hnd)
    have hd0b : ∀ kv ∈ rest, kv.1 ∉ (d0 ++ [(k0, v0)]).map Prod.fst := by
      intro kv hkv hmem
      rw [List.map_append] at hmem
      rcases List.mem_append.mp hmem with hm | hm
      · exact hd0 kv (List.mem_cons_of_mem _ hkv) hm
      · simp only [List.map_cons, List.map_nil, List.mem_singleton] at hm
        apply hnd2.1
        rw [← hm]
        exact List.mem_map_of_mem _ hkv
    have hksb : ∀ kv ∈ rest, kv.1 ∉ k0 :: ks := by
      intro kv hkv hmem
      rcases List.mem_cons.mp hmem with he | hm
      · apply hnd2.1
        rw [← he]
        exact List.mem_map_of_mem _ hkv
      · exact hks kv (List.mem_cons_of_mem _ hkv) hm
    have hres := ih { acc with sections := S0 ++ [(s, d0 ++ [(k0, v0)])] }
      (k0 :: ks) S0 s (d0 ++ [(k0, v0)]) hp rfl hsS hse hsd hnd2.2 hd0b hksb
      (fun kv hkv => hclean kv (List.mem_cons_of_mem _ hkv))
    rw [List.append_assoc, List.singleton_append] at hres
    exact hres

theorem cleanSections_clean {pc : Bool} (secs : List (String × ADict)) :
    ∀ (acc : Cleaned) (seen : List String),
    acc.preserve = pc →
    (sectNames secs).Nodup →
    (∀ p ∈ secs, cleanName pc p.1 = p.1 ∧ p.1 ≠ "" ∧ p.1 ≠ "DEFAULT" ∧
      p.1 ∉ seen ∧ p.1 ∉ sectNames acc.sections) →
    (∀ p ∈ secs, (p.2.map Prod.fst).Nodup) →
    (∀ p ∈ secs, ∀ kv ∈ p.2, pyStrip kv.1 = kv.1 ∧ xform pc kv.1 = kv.1 ∧
      pyStrip kv.2 = kv.2 ∧ (kv.2 = "" ∨ beforeSetOk kv.2 = true)) →
    cleanSections [] seen acc secs =
      .ok { acc with sections := acc.sections ++ secs } := by
  induction secs with
  | nil =>
    intro acc seen _ _ _ _ _
    rw [cleanSections, List.append_nil]
  | cons p rest ih =>
    intro acc seen hp hnd hname hknd hcl
    rcases p with ⟨s, m⟩
    rcases hname (s, m) (List.mem_cons_self _ _) with ⟨hcn, hse, hsd, hsseen, hsacc⟩
    have hndm := List.nodup_cons.mp
      (show (s :: sectNames rest).Nodup by simpa [sectNames] using hnd)
    rw [cleanSections, hp, hcn, if_neg hsseen]
    have hadd : addSectionIfNew acc s =
        { acc with sections := acc.sections ++ [(s, [])] } := by
      rw [addSectionIfNew, if_neg]
      intro hor
      rcases hor with h1 | h1
      · exact hsd h1
      · exact hsacc h1
    have hitems := @cleanItems_clean pc (mergeD [] m)
      { acc with sections := acc.sections ++ [(s, [])] } [] acc.sections s []
      hp rfl hsacc hse hsd
      (by rw [mergeD_nil_left]; exact hknd (s, m) (List.mem_cons_self _ _))
      (fun kv _ => by simp)
      (fun kv _ => List.not_mem_nil _)
      (by rw [mergeD_nil_left]; exact hcl (s, m) (List.mem_cons_self _ _))
    rw [mergeD_nil_left] at hitems
    dsimp only
    rw [mergeD_nil_left, hadd, hitems]
    show cleanSections [] (s :: seen)
      { acc with sections := acc.sections ++ [(s, [] ++ m)] } rest = _
    rw [List.nil_append]
    have hnameR : ∀ p ∈ rest, cleanName pc p.1 = p.1 ∧ p.1 ≠ "" ∧ p.1 ≠ "DEFAULT" ∧
        p.1 ∉ s :: seen ∧ p.1 ∉ sectNames
          ({ acc with sections := acc.sections ++ [(s, m)] } : Cleaned).sections := by
      intro q hq
      rcases hname q (List.mem_cons_of_mem _ hq) with ⟨h1, h2, h3, h4, h5⟩
      have hqs : q.1 ≠ s := by
        intro hx
        apply hndm.1
        rw [← hx]
        exact List.mem_map_of_mem _ hq
      refine ⟨h1, h2, h3, ?_, ?_⟩
      · intro hmem
        rcases List.mem_cons.mp hmem with he | hm
        · exact hqs he
        · exact h4 hm
      · intro hmem
        rw [show ({ acc with sections := acc.sections ++ [(s, m)] } : Cleaned).sections =
          acc.sections ++ [(s, m)] from rfl, sectNames, List.map_append] at hmem
        rcases List.mem_append.mp hmem with hm | hm
        · exact h5 hm
        · simp only [List.map_cons, List.map_nil, List.mem_singleton] at hm
          exact hqs hm
    have hres := ih { acc with sections := acc.sections ++ [(s, m)] } (s :: seen)
      hp hndm.2 hnameR (fun q hq => hknd q (List.mem_cons_of_mem _ hq))
      (fun q hq => hcl q (List.mem_cons_of_mem _ hq))
    rw [show ({ acc with sections := acc.sections ++ [(s, m)] } : Cleaned).sections =
      acc.sections ++ [(s, m)] from rfl, List.append_assoc, List.singleton_append,
      hp] at hres
    rw [hp]
    exact hres

/-! ### What `display_config` renders, section by section -/

theorem find?_nodup {secs : List (String × ADict)} {s : String} {d : ADict}
    (hnd : (sectNames secs).Nodup) (hmem : (s, d) ∈ secs) :
    secs.find? (fun p => p.1 = s) = some (s, d) := by
  induction secs with
  | nil => exact absurd hmem (List.not_mem_nil _)
  | cons q rest ih =>
    rcases q with ⟨s0, d0⟩
    have hnd2 := List.nodup_cons.mp
      (show (s0 :: sectNames rest).Nodup by simpa [sectNames] using hnd)
    by_cases hs : s0 = s
    · subst hs
      rw [List.find?_cons_of_pos _ (by simp)]
      rcases List.mem_cons.mp hmem with he | hm
      · rw [he]
      · exfalso
        apply hnd2.1
        have : (s0, d) ∈ rest := hm
        simpa [sectNames] using List.mem_map_of_mem Prod.fst this
    · rw [List.find?_cons_of_neg _ (by simp [hs])]
      apply ih hnd2.2
      rcases List.mem_cons.mp hmem with he | hm
      · exact absurd (congrArg Prod.fst he).symm hs
      · exact hm

theorem rawItems_of_mem {st : Cleaned} {s : String} {d : ADict}
    (hnd : (sectNames st.sections).Nodup) (hmem : (s, d) ∈ st.sections)
    (hsd : s ≠ "DEFAULT") :
    rawItems st s = mergeD st.defaults d := by
  rw [rawItems, if_neg hsd, find?_nodup hnd hmem]

/-- The full line list `display_config` joins: per section a header line, the
rendered merged items, and a blank separator. -/
def dispLines (st : Cleaned) : List String :=
  (st.sections.map (fun p =>
    ("[" ++ p.1 ++ "]") :: (rawItems st p.1).map
      (fun kv => kv.1 ++ " = " ++ kv.2) ++ [""])).flatten

/-- The section list the reparse reconstructs: every section paired with its
merged (defaults updated by section) dictionary. -/
def msecsOf (st : Cleaned) : List (String × ADict) :=
  st.sections.map (fun p => (p.1, rawItems st p.1))

theorem display_rendered {st : Cleaned}
    (hpf : ∀ s ∈ sectNames st.sections, ∀ kv ∈ rawItems st s,
      ∀ c ∈ kv.2.data, c ≠ '%') :
    display_config st = .ok (pyStrip (joinNL (dispLines st))) := by
  have hfg : ∀ s ∈ list_profiles st,
      (itemsInterp st s).map (fun d => ("[" ++ s ++ "]") ::
        d.map (fun kv => kv.1 ++ " = " ++ kv.2) ++ [""]) =
      .ok (("[" ++ s ++ "]") :: (rawItems st s).map
        (fun kv => kv.1 ++ " = " ++ kv.2) ++ [""]) := by
    intro s hs
    rw [itemsInterp_noPercent (hpf s hs)]
    rfl
  rw [display_config, mapExcept_ok_of hfg]
  show Except.ok (pyStrip (joinNL ((list_profiles st).map (fun s =>
      ("[" ++ s ++ "]") :: (rawItems st s).map
        (fun kv => kv.1 ++ " = " ++ kv.2) ++ [""])).flatten)) = _
  rw [show list_profiles st = st.sections.map Prod.fst from rfl, List.map_map]
  rfl

theorem filterMap_flatten {α β : Type} (f : α → Option β) (ll : List (List α)) :
    ll.flatten.filterMap f = (ll.map (fun l => l.filterMap f)).flatten := by
  induction ll with
  | nil => rfl
  | cons l rest ih =>
    rw [List.flatten_cons, List.filterMap_append, ih, List.map_cons, List.flatten_cons]

theorem filterMap_all_some {α β : Type} {f : α → Option β} {g : α → β} {l : List α}
    (h : ∀ a ∈ l, f a = some (g a)) : l.filterMap f = l.map g := by
  induction l with
  | nil => rfl
  | cons a t ih =>
    rw [List.filterMap_cons, h a (List.mem_cons_self a t), List.map_cons,
      ih (fun x hx => h x (List.mem_cons_of_mem a hx))]

theorem trimFix_noLead {s : String} (h : pyStrip s = s) : noLeadWS s.data := by
  have hlead := trimC_noLead s.data
  rw [trimFix_data h] at hlead
  exact hlead

theorem preprocessLine_empty : preprocessLine "" = none := rfl

theorem preprocess_block {s : String} {m : ADict} (hse : s ≠ "")
    (hsg : ∀ c ∈ s.data, goodChar c) (hmg : ∀ kv ∈ m, goodKV kv) :
    (("[" ++ s ++ "]") :: m.map (fun kv => kv.1 ++ " = " ++ kv.2) ++ [""]).filterMap
      preprocessLine = cleanBlockLines (s, m) := by
  rw [List.filterMap_append, List.filterMap_cons, preprocessLine_header hse hsg,
    show List.filterMap preprocessLine [""] = [] from rfl, List.append_nil]
  have hentries : (m.map (fun kv => kv.1 ++ " = " ++ kv.2)).filterMap preprocessLine =
      m.map (fun kv => (⟨elineC kv.1 kv.2⟩ : String)) := by
    rw [List.filterMap_map]
    apply filterMap_all_some
    intro kv hkv
    rcases hmg kv hkv with ⟨h1, h2, h3, h4, h5, _⟩
    exact preprocessLine_entry h1 (trimFix_noLead h2) h2 h4 (fun c hc => (h3 c hc).1) h5
  rw [hentries]
  rfl

theorem preprocessLines_blocks {st : Cleaned}
    (hne : ∀ n ∈ sectNames st.sections, n ≠ "")
    (hgood : ∀ n ∈ sectNames st.sections, ∀ c ∈ n.data, goodChar c)
    (hkv : ∀ s ∈ sectNames st.sections, ∀ kv ∈ rawItems st s, goodKV kv) :
    preprocessLines (dispLines st) = ((msecsOf st).map cleanBlockLines).flatten := by
  show (dispLines st).filterMap preprocessLine = _
  rw [dispLines, msecsOf, filterMap_flatten, List.map_map, List.map_map]
  congr 1
  apply List.map_congr_left
  intro p hp
  have hmem : p.1 ∈ sectNames st.sections := List.mem_map_of_mem _ hp
  exact preprocess_block (hne _ hmem) (hgood _ hmem) (hkv _ hmem)

/-- C4 (amended): over newline-free input lines, a successfully constructed
handler whose profile names are all nonempty and whose stored values are all
percent-free round-trips: `display_config()` succeeds, and loading its text
back through preprocessing and parsing under the same case mode yields a
configuration with the same profiles in the same order and identical
key/value pairs per profile (`get_config`). -/
theorem C4_round_trip_behaviour (pc : Bool) (lines : List String) (st : Cleaned)
    (hload : load_config pc lines = .ok st)
    (hnl : ∀ l ∈ lines, ∀ c ∈ l.data, c ≠ '\n')
    (hnames : ∀ n ∈ list_profiles st, n ≠ "")
    (hpfd : ∀ kv ∈ st.defaults, ∀ c ∈ kv.2.data, c ≠ '%')
    (hpfs : ∀ p ∈ st.sections, ∀ kv ∈ p.2, ∀ c ∈ kv.2.data, c ≠ '%') :
    ∃ d st2, display_config st = .ok d ∧
      load_config pc (splitLines d) = .ok st2 ∧
      list_profiles st2 = list_profiles st ∧
      get_config st2 = get_config st := by
  have hnd := (load_config_names hload).2
  have hcl := load_config_names_clean hload
  have hng := load_config_names_good hload hnl
  have hg := load_config_good hload hnl
  have hkn := load_config_keysNodup hload
  have hx := load_config_keysXform hload
  have hsec_of : ∀ s ∈ sectNames st.sections, ∃ q ∈ st.sections, q.1 = s := by
    intro s hs
    rcases List.mem_map.mp hs with ⟨q, hq, he⟩
    exact ⟨q, hq, he⟩
  have hraw_eq : ∀ q ∈ st.sections, rawItems st q.1 = mergeD st.defaults q.2 := by
    intro q hq
    exact rawItems_of_mem hnd (show (q.1, q.2) ∈ st.sections from hq)
      (hcl q.1 (List.mem_map_of_mem _ hq)).2
  have hraw_good : ∀ s ∈ sectNames st.sections, ∀ kv ∈ rawItems st s, goodKV kv := by
    intro s hs kv hkv
    rcases hsec_of s hs with ⟨q, hq, rfl⟩
    rw [hraw_eq q hq] at hkv
    rcases kv with ⟨k2, v2⟩
    rcases mergeD_mem hkv with hm | hm
    · exact hg.1 _ hm
    · exact hg.2 q hq _ hm
  have hraw_pf : ∀ s ∈ sectNames st.sections, ∀ kv ∈ rawItems st s,
      ∀ c ∈ kv.2.data, c ≠ '%' := by
    intro s hs kv hkv
    rcases hsec_of s hs with ⟨q, hq, rfl⟩
    rw [hraw_eq q hq] at hkv
    rcases kv with ⟨k2, v2⟩
    rcases mergeD_mem hkv with hm | hm
    · exact hpfd _ hm
    · exact hpfs q hq _ hm
  have hraw_xf : ∀ s ∈ sectNames st.sections, ∀ kv ∈ rawItems st s,
      xform pc kv.1 = kv.1 := by
    intro s hs kv hkv
    rcases hsec_of s hs with ⟨q, hq, rfl⟩
    rw [hraw_eq q hq] at hkv
    rcases kv with ⟨k2, v2⟩
    rcases mergeD_mem hkv with hm | hm
    · exact hx.1 _ hm
    · exact hx.2 q hq _ hm
  have hraw_nodup : ∀ s ∈ sectNames st.sections,
      ((rawItems st s).map Prod.fst).Nodup := by
    intro s hs
    rcases hsec_of s hs with ⟨q, hq, rfl⟩
    rw [hraw_eq q hq]
    exact mergeD_nodup hkn.1 (hkn.2 q hq)
  have hmn : sectNames (msecsOf st) = sectNames st.sections := by
    rw [msecsOf, sectNames, sectNames, List.map_map]
    rfl
  have hmsec_of : ∀ p ∈ msecsOf st, ∃ q ∈ st.sections,
      p = (q.1, rawItems st q.1) := by
    intro p hp
    rw [msecsOf] at hp
    rcases List.mem_map.mp hp with ⟨q, hq, he⟩
    exact ⟨q, hq, he.symm⟩
  have hdisp := @display_rendered st hraw_pf
  have hgc1 : get_config st = .ok ((sectNames st.sections).map
      (fun s => (s, rawItems st s))) := by
    rw [get_config]
    exact mapExcept_ok_of (fun s hs => by
      rw [itemsInterp_noPercent (hraw_pf s hs)]
      rfl)
  rcases hsecs : st.sections with _ | ⟨p0, srest⟩
  · -- the empty configuration renders and reloads as itself
    have hd0 : display_config st = .ok "" := by
      rw [hdisp, dispLines, hsecs]
      rfl
    have hlp : list_profiles st = [] := by
      rw [list_profiles, hsecs]
      rfl
    refine ⟨"", ⟨pc, [], []⟩, hd0, rfl, ?_, ?_⟩
    · rw [hlp]
      rfl
    · rw [get_config, get_config, hlp]
      rfl
  · -- nonempty: the first rendered line is the first section header
    have hm0 : p0.1 ∈ sectNames st.sections := by
      rw [hsecs]
      exact List.mem_map_of_mem _ (List.mem_cons_self _ _)
    have hhead_data : ("[" ++ p0.1 ++ "]").data = '[' :: (p0.1.data ++ [']']) := by
      rw [String.data_append, String.data_append]
      rfl
    have hhdr_noTrail : noTrailWS ("[" ++ p0.1 ++ "]").data := by
      intro c hc
      rw [show ("[" ++ p0.1 ++ "]").data = ('[' :: p0.1.data) ++ [']'] from by
        rw [hhead_data, ← List.cons_append]] at hc
      rw [getLast?_append_right (by simp)] at hc
      simp only [List.getLast?_singleton, Option.some.injEq] at hc
      subst hc
      rfl
    have h0 : trimRightC ("[" ++ p0.1 ++ "]").data ≠ [] := by
      rw [trimRightC_eq_self_of_noTrail hhdr_noTrail, hhead_data]
      simp
    have hh : ∀ c, ("[" ++ p0.1 ++ "]").data.head? = some c → isPyWS c = false := by
      intro c hc
      rw [hhead_data] at hc
      simp only [List.head?_cons, Option.some.injEq] at hc
      subst hc
      rfl
    have hLeq : dispLines st =
        ("[" ++ p0.1 ++ "]") :: (((rawItems st p0.1).map
            (fun kv => kv.1 ++ " = " ++ kv.2) ++ [""]) ++
          ((srest.map (fun p =>
            ("[" ++ p.1 ++ "]") :: (rawItems st p.1).map
              (fun kv => kv.1 ++ " = " ++ kv.2) ++ [""])).flatten)) := by
      rw [dispLines, hsecs, List.map_cons, List.flatten_cons]
      rfl
    have hLnl : ∀ l ∈ dispLines st, ∀ c ∈ l.data, c ≠ '\n' := by
      intro l hl
      rw [dispLines] at hl
      rcases List.mem_flatten.mp hl with ⟨bl, hbl, hlb⟩
      rcases List.mem_map.mp hbl with ⟨q, hq, hble⟩
      have hqn : q.1 ∈ sectNames st.sections := List.mem_map_of_mem _ hq
      rw [← hble] at hlb
      rcases List.mem_append.mp hlb with hlb1 | hlb2
      · rcases List.mem_cons.mp hlb1 with rfl | hent
        · intro c hc
          rw [show ("[" ++ q.1 ++ "]").data = '[' :: (q.1.data ++ [']']) from by
            rw [String.data_append, String.data_append]; rfl] at hc
          rcases List.mem_cons.mp hc with rfl | hc2
          · decide
          · rcases List.mem_append.mp hc2 with h3 | h3
            · exact (hng q.1 hqn c h3).2.2
            · rcases List.mem_singleton.mp h3 with rfl
              decide
        · rcases List.mem_map.mp hent with ⟨kv, hkv, hkvl⟩
          rcases hraw_good q.1 hqn kv hkv with ⟨_, _, h3, _, h5, _⟩
          intro c hc
          rw [← hkvl, show (kv.1 ++ " = " ++ kv.2).data =
            kv.1.data ++ ([' ', '=', ' '] ++ kv.2.data) from by
            rw [String.data_append, String.data_append, List.append_assoc]] at hc
          rcases List.mem_append.mp hc with h6 | h6
          · exact (h3 c h6).1.2.2
          · rcases List.mem_append.mp h6 with h7 | h7
            · have hmid : ∀ x ∈ ([' ', '=', ' '] : List Char), x ≠ '\n' := by decide
              exact hmid c h7
            · exact (h5 c h7).2.2
      · rcases List.mem_singleton.mp hlb2 with rfl
        intro c hc
        exact absurd hc (by simp)
    have hsj : preprocessLines (splitLines (pyStrip (joinNL (dispLines st)))) =
        preprocessLines (dispLines st) := by
      rw [hLeq]
      exact preprocess_strip_join _ _ (by rw [← hLeq]; exact hLnl) h0 hh
    have hppb := @preprocessLines_blocks st hnames hng hraw_good
    have hread : readString pc (((msecsOf st).map cleanBlockLines).flatten) =
        .ok ⟨[], msecsOf st⟩ := by
      apply readString_blocks
      · rw [hmn]
        exact hnd
      · intro p hp
        rcases hmsec_of p hp with ⟨q, hq, rfl⟩
        have hqn : q.1 ∈ sectNames st.sections := List.mem_map_of_mem _ hq
        exact ⟨(hcl q.1 hqn).2, hnames q.1 hqn⟩
      · intro p hp
        rcases hmsec_of p hp with ⟨q, hq, rfl⟩
        exact hraw_nodup q.1 (List.mem_map_of_mem _ hq)
      · intro p hp kv hkv
        rcases hmsec_of p hp with ⟨q, hq, rfl⟩
        have hqn : q.1 ∈ sectNames st.sections := List.mem_map_of_mem _ hq
        rcases hraw_good q.1 hqn kv hkv with ⟨h1, h2, h3, h4, h5, h6⟩
        refine ⟨h1, h2, hraw_xf q.1 hqn kv hkv, ?_, h4, ?_⟩
        · intro c hc hor
          rcases hor with he | he
          · exact (h3 c hc).2.1 he
          · exact (h3 c hc).2.2 he
        · exact headerOf_elineC_none h1 h6
    have hclean : cleanSections [] [] (⟨pc, [], []⟩ : Cleaned) (msecsOf st) =
        .ok { (⟨pc, [], []⟩ : Cleaned) with
          sections := (⟨pc, [], []⟩ : Cleaned).sections ++ msecsOf st } := by
      apply @cleanSections_clean pc (msecsOf st) (⟨pc, [], []⟩ : Cleaned) [] rfl
      · rw [hmn]
        exact hnd
      · intro p hp
        rcases hmsec_of p hp with ⟨q, hq, rfl⟩
        have hqn : q.1 ∈ sectNames st.sections := List.mem_map_of_mem _ hq
        exact ⟨(hcl q.1 hqn).1, hnames q.1 hqn, (hcl q.1 hqn).2,
          List.not_mem_nil _, by simp [sectNames]⟩
      · intro p hp
        rcases hmsec_of p hp with ⟨q, hq, rfl⟩
        exact hraw_nodup q.1 (List.mem_map_of_mem _ hq)
      · intro p hp kv hkv
        rcases hmsec_of p hp with ⟨q, hq, rfl⟩
        have hqn : q.1 ∈ sectNames st.sections := List.mem_map_of_mem _ hq
        rcases hraw_good q.1 hqn kv hkv with ⟨h1, h2, _, h4, _, _⟩
        refine ⟨h2, hraw_xf q.1 hqn kv hkv, h4, Or.inr ?_⟩
        exact beforeSetOk_noPercent (hraw_pf q.1 hqn kv hkv)
    have hload2 : load_config pc (splitLines (pyStrip (joinNL (dispLines st)))) =
        .ok ⟨pc, [], msecsOf st⟩ := by
      rw [load_config, hsj, hppb, hread]
      show cleanPass pc ⟨[], msecsOf st⟩ = _
      rw [cleanPass]
      exact hclean
    have hraw2 : ∀ s ∈ sectNames st.sections,
        rawItems ⟨pc, [], msecsOf st⟩ s = rawItems st s := by
      intro s hs
      rcases hsec_of s hs with ⟨q, hq, rfl⟩
      have hmem2 : (q.1, rawItems st q.1) ∈ msecsOf st := by
        rw [msecsOf]
        exact List.mem_map_of_mem _ hq
      have hnd3 : (sectNames ((⟨pc, [], msecsOf st⟩ : Cleaned).sections)).Nodup := by
        show (sectNames (msecsOf st)).Nodup
        rw [hmn]
        exact hnd
      rw [rawItems_of_mem hnd3 hmem2 (hcl q.1 (List.mem_map_of_mem _ hq)).2,
        mergeD_nil_left]
    have hgc2 : get_config ⟨pc, [], msecsOf st⟩ = .ok ((sectNames st.sections).map
        (fun s => (s, rawItems st s))) := by
      rw [get_config]
      rw [show list_profiles ⟨pc, [], msecsOf st⟩ = sectNames st.sections from by
        show sectNames (msecsOf st) = _
        exact hmn]
      exact mapExcept_ok_of (fun s hs => by
        have hitems2 : itemsInterp ⟨pc, [], msecsOf st⟩ s =
            .ok (rawItems ⟨pc, [], msecsOf st⟩ s) :=
          itemsInterp_noPercent (by
            rw [hraw2 s hs]
            exact hraw_pf s hs)
        rw [hitems2, hraw2 s hs]
        rfl)
    refine ⟨_, ⟨pc, [], msecsOf st⟩, hdisp, hload2, ?_, ?_⟩
    · show sectNames (msecsOf st) = list_profiles st
      exact hmn
    · rw [hgc2, hgc1]

/-- Witness for C4's amended round trip at a two-line file. -/
theorem C4_round_trip_behaviour_witness :
    ∃ d st2, display_config ⟨false, [], [("p", [("k", "v")])]⟩ = .ok d ∧
      load_config false (splitLines d) = .ok st2 ∧
      list_profiles st2 = list_profiles ⟨false, [], [("p", [("k", "v")])]⟩ ∧
      get_config st2 = get_config ⟨false, [], [("p", [("k", "v")])]⟩ :=
  C4_round_trip_behaviour false (["[p]", "k = v"]) ⟨false, [], [("p", [("k", "v")])]⟩
    (by decide) (by decide) (by decide) (by decide) (by decide)
